import Mathlib

/-!
# pimacs: reader, printer and symbol table

A shallow embedding of `elisp/interpreter.go` and `elisp/types.go`.

* Go strings are lists of code points (`GoString`); a `rune` is an `Int`,
  `eofRune = -1` being the end-of-input sentinel of the cursor.
* A `*lispSymbol` is an address together with the (never reassigned) name; the
  mutable slots of the symbol live in the `Heap` at that address.
* Cons cells, integers, strings and floats are trees: the reader only ever
  mutates the cdr of the cell it has just allocated.
* A Go function returning `(x, err)` returns the pair; a run of a function ends
  in `Run.ret`, in a Go panic (`Run.panic`), or, for the loops of the reader
  that are unrolled with a step budget, in `Run.outOfFuel`.
* `strconv.ParseFloat` and the formatting of a `float64` are library code that
  works in floating point; they are a parameter (`FloatLib`).
-/

namespace Pimacs

/-! ## Go values -/

abbrev GoString := List Char

/-- The Go `error` interface: `none` is the nil error, `some msg` carries the message. -/
abbrev error := Option String

def eightBitCodeOffset : Int := 0x3fff00

def max5ByteChar : Int := 0x3fff7f

def eofRune : Int := -1

def nbsp : Int := 0xA0

/-- The result of running a Go function. -/
inductive Run (α : Type) where
  | ret (a : α)
  | panic (msg : String)
  | outOfFuel
deriving DecidableEq, Repr

def Run.bind {α β : Type} (x : Run α) (f : α → Run β) : Run β :=
  match x with
  | .ret a => f a
  | .panic msg => .panic msg
  | .outOfFuel => .outOfFuel

instance : Monad Run where
  pure := Run.ret
  bind := Run.bind

/-- The code point that `strings.Builder.WriteRune` and the conversion `string(c)` produce:
a rune that is not a Unicode scalar value becomes U+FFFD. -/
def runeToChar (c : Int) : Char :=
  if 0 ≤ c ∧ Nat.isValidChar c.toNat then Char.ofNat c.toNat else Char.ofNat 0xFFFD

/-- An IEEE double, given by its 64 bits. -/
structure float64 where
  bits : Nat
deriving DecidableEq, Repr

/-! ## Object model (`types.go`) -/

/-- A `*lispSymbol`: the address of the instance and its name. -/
structure lispSymbol where
  addr : Nat
  name : GoString
deriving DecidableEq, Repr

/-- A `lispObject` interface value. `null` is the nil interface. -/
inductive lispObject where
  | null
  | symbol (s : lispSymbol)
  | integer (value : Int)
  | string_ (value : GoString)
  | vectorLike (vecType : Nat)
  | cons (car cdr : lispObject)
  | float (value : float64)
deriving DecidableEq, Repr

/-- The mutable slots of a `lispSymbol` instance. -/
structure symbolSlots where
  value : lispObject
  function : lispObject
deriving DecidableEq, Repr

/-- The symbol instances allocated so far; the address of an instance is its index. -/
structure Heap where
  symbols : List symbolSlots
deriving DecidableEq, Repr

structure interpreter where
  obarray : List (GoString × lispSymbol)
  nil_ : lispObject
deriving DecidableEq, Repr

/-- An interpreter together with the heap it allocates in. -/
structure Machine where
  heap : Heap
  inp : interpreter
deriving DecidableEq, Repr

structure readContext where
  runes : List Char
  i : Nat
deriving DecidableEq, Repr

/-! ## Library functions used by the interpreter -/

/-- The decimal value of a non-empty string of ASCII digits (`strconv.ParseUint`, base 10). -/
def parseDigits : List Char → Nat → Option Nat
  | [], acc => some acc
  | ch :: rest, acc =>
    if 48 ≤ ch.toNat ∧ ch.toNat ≤ 57 then parseDigits rest (acc * 10 + (ch.toNat - 48)) else none

def strconv.ParseUint (s : GoString) : Option Nat :=
  match s with
  | [] => none
  | _ => parseDigits s 0

/-- `strconv.ParseInt(s, 10, 64)`: an optional sign, then decimal digits, the value within
the signed 64-bit range; `none` stands for a non-nil error. -/
def strconv.ParseInt (s : GoString) : Option Int :=
  match s with
  | [] => none
  | ch :: rest =>
    let neg : Bool := ch.toNat = 45
    let digits : GoString := if ch.toNat = 43 ∨ ch.toNat = 45 then rest else s
    match strconv.ParseUint digits with
    | none => none
    | some un =>
      if ¬ neg ∧ 2 ^ 63 ≤ un then none
      else if neg ∧ 2 ^ 63 < un then none
      else some (if neg then - (un : Int) else (un : Int))

def digitChar (d : Nat) : Char := Char.ofNat (48 + d)

def formatNatAux : Nat → Nat → List Char → List Char
  | 0, _, acc => acc
  | fuel + 1, n, acc =>
    if n < 10 then digitChar n :: acc
    else formatNatAux fuel (n / 10) (digitChar (n % 10) :: acc)

def formatNat (n : Nat) : GoString := formatNatAux (n + 1) n []

/-- The text `fmt.Sprint` gives for an integer. -/
def formatInt (n : Int) : GoString :=
  if n < 0 then Char.ofNat 45 :: formatNat n.natAbs else formatNat n.natAbs

def lowerChar (ch : Char) : Char :=
  if 65 ≤ ch.toNat ∧ ch.toNat ≤ 90 then Char.ofNat (ch.toNat + 32) else ch

/-- The spellings of the special values of `strconv.ParseFloat`: after an optional sign and
ignoring case, `inf`, `infinity` or `nan`. -/
def spellsSpecialFloat (s : GoString) : Bool :=
  let body : GoString :=
    match s with
    | [] => []
    | ch :: rest => if ch.toNat = 43 ∨ ch.toNat = 45 then rest else s
  let l := body.map lowerChar
  l == ['i', 'n', 'f'] || l == ['i', 'n', 'f', 'i', 'n', 'i', 't', 'y'] || l == ['n', 'a', 'n']

def hasDigit (s : GoString) : Bool := s.any fun ch => 48 ≤ ch.toNat && ch.toNat ≤ 57

/-- The floating-point library: `strconv.ParseFloat(s, 64)` (`none` for a non-nil error) and
the text `fmt.Sprint` gives for a `float64`. What is known of `ParseFloat` is that a text it
accepts holds a decimal digit or spells a special value. -/
structure FloatLib where
  ParseFloat : GoString → Option float64
  Sprint : float64 → GoString
  numeral : ∀ s f, ParseFloat s = some f → hasDigit s = true ∨ spellsSpecialFloat s = true

/-! ## The interpreter (`interpreter.go`) -/

def readContext.read (ctx : readContext) : Run (Int × readContext) :=
  if ctx.i = ctx.runes.length then .ret (eofRune, ctx)
  else
    match ctx.runes.get? ctx.i with
    | some r => .ret ((r.toNat : Int), { ctx with i := ctx.i + 1 })
    | none => .panic "index out of range"

def readContext.unread (ctx : readContext) (c : Int) : Run readContext :=
  if c = eofRune then .ret ctx
  else if ctx.i = 0 then .panic "nothing to unread"
  else .ret { ctx with i := ctx.i - 1 }

/-- The type assertion `obj.(*lispString).value`. -/
def stringValue (obj : lispObject) : Run GoString :=
  match obj with
  | .string_ value => .ret value
  | _ => .panic "interface conversion"

def makeString (value : GoString) : lispObject := .string_ value

def makeInteger (value : Int) : lispObject := .integer value

def makeFloat (value : float64) : lispObject := .float value

def makeCons (car cdr : lispObject) : lispObject := .cons car cdr

/-- The arms of the `switch` of `prin1` for an object that is not a cons. -/
def prin1Atom (lib : FloatLib) (obj : lispObject) : Run (lispObject × error) :=
  match obj with
  | .null => .panic "nil pointer dereference"
  | .symbol s => .ret (makeString s.name, none)
  | .integer value => .ret (makeString (formatInt value), none)
  | .string_ value => .ret (makeString ([Char.ofNat 34] ++ value ++ [Char.ofNat 34]), none)
  | .vectorLike _ => .ret (.null, some "prin1 unimplemented")
  | .float value => .ret (makeString (lib.Sprint value), none)
  | .cons _ _ => .panic "unreachable"

/-- The exit of the `for` loop of `prin1`: `cdr` is the `current.cdr` that is not a cons. -/
def prin1End (lib : FloatLib) (inp : interpreter) (cdr : lispObject) (s : GoString) :
    Run (lispObject × error) :=
  if cdr ≠ inp.nil_ then
    match prin1Atom lib cdr with
    | .ret (cdrStr, err) =>
      if err ≠ none then .ret (.null, err)
      else
        match stringValue cdrStr with
        | .ret str => .ret (makeString (s ++ [' ', '.', ' '] ++ str ++ [')']), none)
        | .panic msg => .panic msg
        | .outOfFuel => .outOfFuel
    | .panic msg => .panic msg
    | .outOfFuel => .outOfFuel
  else .ret (makeString (s ++ [')']), none)

mutual

def prin1 (lib : FloatLib) (inp : interpreter) (obj : lispObject) : Run (lispObject × error) :=
  match obj with
  | .cons car cdr =>
    match prin1 lib inp car with
    | .ret (carStr, err) =>
      if err ≠ none then .ret (.null, err)
      else
        match stringValue carStr with
        | .ret str => prin1Loop lib inp cdr ('(' :: str)
        | .panic msg => .panic msg
        | .outOfFuel => .outOfFuel
    | .panic msg => .panic msg
    | .outOfFuel => .outOfFuel
  | obj => prin1Atom lib obj

/-- The `for` loop of the cons arm of `prin1`; `cdr` is `current.cdr` and `s` the text so far. -/
def prin1Loop (lib : FloatLib) (inp : interpreter) (cdr : lispObject) (s : GoString) :
    Run (lispObject × error) :=
  match cdr with
  | .cons ncar ncdr =>
    match prin1 lib inp ncar with
    | .ret (nextStr, err) =>
      if err ≠ none then .ret (.null, err)
      else
        match stringValue nextStr with
        | .ret str => prin1Loop lib inp ncdr (s ++ ' ' :: str)
        | .panic msg => .panic msg
        | .outOfFuel => .outOfFuel
    | .panic msg => .panic msg
    | .outOfFuel => .outOfFuel
  | cdr => prin1End lib inp cdr s

end

def Print (lib : FloatLib) (inp : interpreter) (obj : lispObject) : Run (GoString × error) :=
  match prin1 lib inp obj with
  | .ret (str, err) =>
    if err ≠ none then .ret ([], err)
    else
      match stringValue str with
      | .ret value => .ret (value, none)
      | .panic msg => .panic msg
      | .outOfFuel => .outOfFuel
  | .panic msg => .panic msg
  | .outOfFuel => .outOfFuel

def stringToNumber (lib : FloatLib) (s : GoString) : lispObject × error :=
  match strconv.ParseInt s with
  | some nInt => (makeInteger nInt, none)
  | none =>
    match lib.ParseFloat s with
    | some nFloat => (makeFloat nFloat, none)
    | none => (.null, some "unknown number format")

def makeSymbol (h : Heap) (name : GoString) : lispSymbol × Heap :=
  ({ addr := h.symbols.length, name := name },
   { symbols := h.symbols ++ [{ value := .null, function := .null }] })

/-- The list `makeList(obj, objs...)` builds: a chain of fresh cells ending in `nil_`. -/
def makeList (inp : interpreter) (obj : lispObject) (objs : List lispObject) : lispObject :=
  makeCons obj (objs.foldr (fun o rest => makeCons o rest) inp.nil_)

def intern (m : Machine) (name : GoString) : lispSymbol × Machine :=
  match m.inp.obarray.lookup name with
  | some sym => (sym, m)
  | none =>
    let (sym, h) := makeSymbol m.heap name
    (sym, { heap := h, inp := { m.inp with obarray := (name, sym) :: m.inp.obarray } })

/-- The assignment `sym.value = v`. -/
def setValue (h : Heap) (sym : lispSymbol) (v : lispObject) : Heap :=
  match h.symbols.get? sym.addr with
  | some slots => { symbols := h.symbols.set sym.addr { slots with value := v } }
  | none => h

def initialDefinitions (m : Machine) : Machine :=
  let (symNil, m) := intern m ['n', 'i', 'l']
  let m := { m with heap := setValue m.heap symNil (.symbol symNil) }
  let (symT, m) := intern m ['t']
  { m with heap := setValue m.heap symT (.symbol symT) }

/-- The constructor `NewInterpreter`, allocating in the heap `h`. -/
def NewInterpreter (h : Heap) : Machine :=
  let m : Machine := { heap := h, inp := { obarray := [], nil_ := .null } }
  let m := initialDefinitions m
  let (symNil, m) := intern m ['n', 'i', 'l']
  { m with inp := { m.inp with nil_ := .symbol symNil } }

/-- Modelled from the spec: the helper `byte8toChar`, absent from the sources, adds
`eightBitCodeOffset`. -/
def byte8toChar (c : Int) : Int := c + eightBitCodeOffset

/-- Modelled from the spec: the helper `charByte8`, absent from the sources, tests
`c > max5ByteChar`. -/
def charByte8 (c : Int) : Bool := decide (c > max5ByteChar)

/-- Modelled from the spec: the helper `charToByte8`, absent from the sources, subtracts
`eightBitCodeOffset`. -/
def charToByte8 (c : Int) : Int := c - eightBitCodeOffset

/-- The loop `for count := 0; count < 2; count++` of the octal arm of `readEscape`;
`left` is the number of iterations still to run. -/
def readEscapeOctal : Nat → Int → readContext → Run (Int × readContext)
  | 0, num, ctx => .ret (num, ctx)
  | left + 1, num, ctx => do
    let (c, ctx) ← ctx.read
    if 48 ≤ c ∧ c ≤ 55 then readEscapeOctal left (num * 8 + (c - 48)) ctx
    else do
      let ctx ← ctx.unread c
      return (num, ctx)

def readEscape (ctx : readContext) (stringp : Bool) : Run ((Int × error) × readContext) := do
  let (c, ctx) ← ctx.read
  if c = eofRune then return ((0, some "eof"), ctx)
  else if c = 97 then return ((7, none), ctx)                     -- a
  else if c = 98 then return ((8, none), ctx)                     -- b
  else if c = 100 then return ((127, none), ctx)                  -- d
  else if c = 101 then return ((27, none), ctx)                   -- e
  else if c = 102 then return ((12, none), ctx)                   -- f
  else if c = 110 then return ((10, none), ctx)                   -- n
  else if c = 114 then return ((13, none), ctx)                   -- r
  else if c = 116 then return ((9, none), ctx)                    -- t
  else if c = 118 then return ((11, none), ctx)                   -- v
  else if c = 10 then return ((-1, none), ctx)                    -- newline
  else if c = 32 then                                             -- space
    if stringp then return ((-1, none), ctx) else return ((32, none), ctx)
  else if c = 77 ∨ c = 83 ∨ c = 72 ∨ c = 65 ∨ c = 115 ∨ c = 67 ∨ c = 94 then  -- M S H A s C ^
    return ((0, some ("unimplemented escape code: " ++ String.mk [Char.ofNat 39, runeToChar c])), ctx)
  else if 48 ≤ c ∧ c ≤ 55 then do                                 -- 0 .. 7
    let (num, ctx) ← readEscapeOctal 2 (c - 48) ctx
    let num := if 0x80 ≤ num ∧ num < 0x100 then byte8toChar num else num
    return ((num, none), ctx)
  else if c = 120 ∨ c = 85 ∨ c = 117 ∨ c = 78 then                -- x U u N
    return ((0, some ("unimplemented escape code: " ++ String.mk [Char.ofNat 39, runeToChar c])), ctx)
  else return ((c, none), ctx)

/-- The delimiter set that ends an atom. -/
def atomSpecial : List Int := [34, 39, 59, 40, 41, 91, 93, 35, 96, 44]

/-- The delimiter set that may follow a character literal. -/
def charSpecial : List Int := [34, 39, 59, 40, 41, 91, 93, 35, 63, 96, 44, 46]

/-- The delimiter set that makes a dot the dotted-pair marker. -/
def dotSpecial : List Int := [34, 39, 59, 40, 91, 35, 63, 96, 44]

/-- The `for` loop of `readAtom`. It ends with the rune that stopped it, the `quoted` flag,
the builder and, when the input ends after a backslash, the error. -/
def readAtomLoop :
    Nat → Int → Bool → GoString → readContext → Run ((Int × Bool × GoString × error) × readContext)
  | 0, _, _, _, _ => .outOfFuel
  | fuel + 1, c, quoted, builder, ctx => do
    let ((c, quoted, err), ctx) ←
      (if c = 92 then do
        let (c, ctx) ← ctx.read
        if c = eofRune then return ((c, quoted, some "eof reading atom"), ctx)
        else return ((c, true, none), ctx)
      else return ((c, quoted, none), ctx) : Run ((Int × Bool × error) × readContext))
    if err ≠ none then return ((c, quoted, builder, err), ctx)
    else do
      let builder := builder ++ [runeToChar c]
      let (c, ctx) ← ctx.read
      if c ≤ 32 ∨ c = nbsp ∨ c ∈ atomSpecial then return ((c, quoted, builder, none), ctx)
      else readAtomLoop fuel c quoted builder ctx

def readAtom (lib : FloatLib) (fuel : Nat) (m : Machine) (c : Int) (ctx : readContext) :
    Run ((lispObject × error) × Machine × readContext) := do
  let ((c, quoted, s, err), ctx) ← readAtomLoop fuel c false [] ctx
  if err ≠ none then return ((.null, err), m, ctx)
  else do
    let ctx ← ctx.unread c
    if ¬ quoted ∧ (stringToNumber lib s).2 = none then
      return (((stringToNumber lib s).1, none), m, ctx)
    else
      let (sym, m) := intern m s
      return ((.symbol sym, none), m, ctx)

/-- The comment loop of `read1`: read up to the end of the line or of the input. -/
def skipComment : Nat → readContext → Run readContext
  | 0, _ => .outOfFuel
  | fuel + 1, ctx => do
    let (c, ctx) ← ctx.read
    if c = eofRune ∨ c = 10 then return ctx
    else skipComment fuel ctx

/-- The loop of the string arm of `read1`. It ends with the rune that stopped it, the
builder and the error of a failed escape. -/
def readStringLoop : Nat → GoString → readContext → Run ((Int × GoString × error) × readContext)
  | 0, _, _ => .outOfFuel
  | fuel + 1, builder, ctx => do
    let (c, ctx) ← ctx.read
    if c = eofRune ∨ c = 34 then return ((c, builder, none), ctx)
    else if c = 92 then do
      let ((c, err), ctx) ← readEscape ctx true
      if err ≠ none then return ((c, builder, err), ctx)
      else if c = -1 then readStringLoop fuel builder ctx
      else readStringLoop fuel (builder ++ [runeToChar c]) ctx
    else readStringLoop fuel (builder ++ [runeToChar c]) ctx

/-- The character-literal arm of `read1`, after the question mark. -/
def readCharLiteral (ctx : readContext) : Run ((lispObject × Int × error) × readContext) := do
  let (c, ctx) ← ctx.read
  if c = eofRune then return ((.null, 0, some "eof reading character"), ctx)
  else if c = 32 ∨ c = 9 then return ((makeInteger c, 0, none), ctx)
  else do
    let ((c, err), ctx) ←
      (if c = 92 then readEscape ctx false else return ((c, none), ctx) :
        Run ((Int × error) × readContext))
    if err ≠ none then return ((.null, 0, err), ctx)
    else do
      let c := if charByte8 c then charToByte8 c else c
      let (next, ctx) ← ctx.read
      let ctx ← ctx.unread next
      if next ≤ 32 ∨ next ∈ charSpecial then return ((makeInteger c, 0, none), ctx)
      else return ((.null, 0, some "invalid syntax for '?'"), ctx)

/-- The message of `fmt.Errorf(format, string(c))` for the formats ending in the quoted rune. -/
def errorf (msg : String) (c : Int) : error :=
  some (msg ++ String.mk [Char.ofNat 39, runeToChar c, Char.ofNat 39])

/-- The chain of cells the list loop has linked: the elements read so far, ending in `last`. -/
def makeChain (elts : List lispObject) (last : lispObject) : lispObject :=
  elts.foldr (fun o rest => makeCons o rest) last

mutual

def read1 (lib : FloatLib) :
    Nat → Machine → readContext → Run ((lispObject × Int × error) × Machine × readContext)
  | 0, _, _ => .outOfFuel
  | fuel + 1, m, ctx => do
    let (c, ctx) ← ctx.read
    if c = eofRune then return ((.null, 0, some "eof on read1"), m, ctx)
    else if c = 40 then do                                          -- (
      let ((obj, err), m, ctx) ← readList lib fuel m ctx []
      return ((obj, 0, err), m, ctx)
    else if c = 91 then                                             -- [
      return ((.null, 0, errorf "unimplented read: " c), m, ctx)
    else if c = 41 ∨ c = 93 then return ((.null, c, none), m, ctx)  -- ) ]
    else if c = 35 then                                             -- #
      return ((.null, 0, errorf "unimplented read: " c), m, ctx)
    else if c = 59 then do                                          -- ;
      let ctx ← skipComment fuel ctx
      read1 lib fuel m ctx
    else if c = 39 ∨ c = 96 then do                                 -- quote, backquote
      let ((obj, err), m, ctx) ← read0 lib fuel m ctx
      if err ≠ none then return ((.null, 0, err), m, ctx)
      else
        let name : GoString := if c = 96 then [Char.ofNat 96] else ['q', 'u', 'o', 't', 'e']
        let (sym, m) := intern m name
        return ((makeList m.inp (.symbol sym) [obj], 0, none), m, ctx)
    else if c = 44 then                                             -- ,
      return ((.null, 0, errorf "unimplented read: " c), m, ctx)
    else if c = 63 then do                                          -- ?
      let (r, ctx) ← readCharLiteral ctx
      return (r, m, ctx)
    else if c = 34 then do                                          -- string
      let ((c, s, err), ctx) ← readStringLoop fuel [] ctx
      if err ≠ none then return ((.null, 0, err), m, ctx)
      else if c = eofRune then return ((.null, c, some "eof reading string"), m, ctx)
      else return ((makeString s, 0, none), m, ctx)
    else if c = 46 then do                                          -- .
      let (next, ctx) ← ctx.read
      let ctx ← ctx.unread next
      if next ≤ 32 ∨ next ∈ dotSpecial then return ((.null, c, none), m, ctx)
      else do
        let ((obj, err), m, ctx) ← readAtom lib fuel m c ctx
        return ((obj, 0, err), m, ctx)
    else if c ≤ 32 ∨ c = nbsp then read1 lib fuel m ctx
    else do
      let ((obj, err), m, ctx) ← readAtom lib fuel m c ctx
      return ((obj, 0, err), m, ctx)

/-- The loop of `readList`. `elts` are the elements linked so far: `val` is the chain of
them ending in `nil_` and `tail` its last cell, so `tail != nil_` says `elts` is not empty. -/
def readList (lib : FloatLib) :
    Nat → Machine → readContext → List lispObject →
      Run ((lispObject × error) × Machine × readContext)
  | 0, _, _, _ => .outOfFuel
  | fuel + 1, m, ctx, elts => do
    let ((elt, c, err), m, ctx) ← read1 lib fuel m ctx
    if err ≠ none then return ((.null, err), m, ctx)
    else if c ≠ 0 then
      if c = 41 then return ((makeChain elts m.inp.nil_, none), m, ctx)
      else if c = 46 then do
        -- with a tail the error of `read0` is returned and the object becomes the cdr of
        -- the tail; without one the object replaces `val` and the error is dropped
        let ((obj, err), m, ctx) ← read0 lib fuel m ctx
        if elts ≠ [] ∧ err ≠ none then return ((.null, err), m, ctx)
        else do
          let val := if elts ≠ [] then makeChain elts obj else obj
          let ((_, c, _), m, ctx) ← read1 lib fuel m ctx
          if c = 41 then return ((val, none), m, ctx)
          else return ((.null, some "'.' in wrong context"), m, ctx)
      else return ((.null, errorf "invalid list ending: " c), m, ctx)
    else readList lib fuel m ctx (elts ++ [elt])

def read0 (lib : FloatLib) :
    Nat → Machine → readContext → Run ((lispObject × error) × Machine × readContext)
  | 0, _, _ => .outOfFuel
  | fuel + 1, m, ctx => do
    let ((obj, c, err), m, ctx) ← read1 lib fuel m ctx
    if err ≠ none then return ((.null, err), m, ctx)
    else if c ≠ 0 then return ((.null, errorf "unexpected character: " c), m, ctx)
    else return ((obj, none), m, ctx)

end

/-- The method `ReadString`. The budget `2 * len + 2` is never used up (each step of the
reader consumes a rune at least every second call). -/
def ReadString (lib : FloatLib) (m : Machine) (source : GoString) :
    Run ((lispObject × error) × Machine) := do
  let ctx : readContext := { runes := source, i := 0 }
  let (r, m, _) ← read0 lib (2 * source.length + 2) m ctx
  return (r, m)

/-- A floating-point library without floating-point numbers: no text is accepted. -/
def noFloats : FloatLib where
  ParseFloat _ := none
  Sprint _ := []
  numeral := by intro s f h; cases h

/-- The interpreter `NewInterpreter` builds in an empty heap. -/
def freshMachine : Machine := NewInterpreter { symbols := [] }

/-! ## Vocabulary of the statements -/

/-- The cursor that has read `pre` and has `rest` before it. -/
def ctxAt (pre rest : List Char) : readContext := { runes := pre ++ rest, i := pre.length }

/-- The rune `read` returns with `rest` before the cursor. -/
def peekRune (rest : List Char) : Int :=
  match rest with
  | [] => eofRune
  | ch :: _ => (ch.toNat : Int)

/-- The cursor after a `read` with `rest` before it. -/
def afterRead (pre rest : List Char) : readContext :=
  match rest with
  | [] => ctxAt pre []
  | ch :: rest => ctxAt (pre ++ [ch]) rest

def isDigitChar (ch : Char) : Prop := 48 ≤ ch.toNat ∧ ch.toNat ≤ 57

/-- A rune that ends an atom: whitespace, the end of the input or a delimiter. -/
def atomEnd (c : Int) : Prop := c ≤ 32 ∨ c = nbsp ∨ c ∈ atomSpecial

/-- A character of an unescaped atom. -/
def atomChar (ch : Char) : Prop := ¬ atomEnd (ch.toNat : Int) ∧ ch.toNat ≠ 92

/-- The first character `c0` of a text that `read1` hands to `readAtom`, `next` being the
rune after it: no question mark, and no dot taken for the dotted-pair marker. -/
def atomStart (c0 : Char) (next : Int) : Prop :=
  c0.toNat ≠ 63 ∧ (c0.toNat = 46 → ¬ (next ≤ 32 ∨ next ∈ dotSpecial))

/-- The object `readAtom` returns for the unescaped text `s`, and the machine it leaves. -/
def atomValue (lib : FloatLib) (m : Machine) (s : GoString) : lispObject × Machine :=
  if (stringToNumber lib s).2 = none then ((stringToNumber lib s).1, m)
  else (.symbol (intern m s).1, (intern m s).2)

/-- The reader reads the text `text` as `v`: with `text` before the cursor, followed by the
end of the input or by a rune that ends an atom, `read1` returns `v`, leaves the machine
`m'` and the cursor after `text`. -/
def Reads (lib : FloatLib) (m : Machine) (text : List Char) (v : lispObject) (m' : Machine) :
    Prop :=
  ∀ (pre rest : List Char) (fuel : Nat), atomEnd (peekRune rest) →
    2 * (text.length + rest.length) + 1 ≤ fuel →
    read1 lib fuel m (ctxAt pre (text ++ rest)) = .ret ((v, 0, none), m', ctxAt (pre ++ text) rest)

/-- A text without a double quote and without a backslash. -/
def plainString (body : List Char) : Prop := ∀ ch ∈ body, ch.toNat ≠ 34 ∧ ch.toNat ≠ 92

/-- An unescaped atom text that `read1` hands to `readAtom` whole. -/
def plainAtom (t : List Char) : Prop :=
  match t with
  | [] => False
  | c0 :: body => atomChar c0 ∧ (∀ ch ∈ body, atomChar ch) ∧ atomStart c0 (peekRune body)

instance (c : Int) : Decidable (atomEnd c) := by unfold atomEnd; infer_instance

instance (ch : Char) : Decidable (atomChar ch) := by unfold atomChar; infer_instance

instance (c0 : Char) (next : Int) : Decidable (atomStart c0 next) := by
  unfold atomStart; infer_instance

instance (body : List Char) : Decidable (plainString body) := by
  unfold plainString; infer_instance

instance (t : List Char) : Decidable (plainAtom t) := by
  unfold plainAtom
  cases t with
  | nil => exact instDecidableFalse
  | cons c0 body => infer_instance

/-- The reader reads the texts `es` one after the other as the objects `vs`. -/
inductive ReadsAll (lib : FloatLib) : Machine → List (List Char) → List lispObject → Machine → Prop
  | nil (m : Machine) : ReadsAll lib m [] [] m
  | cons (m m1 m2 : Machine) (e : List Char) (v : lispObject) (es : List (List Char))
      (vs : List lispObject) :
      Reads lib m e v m1 → ReadsAll lib m1 es vs m2 → ReadsAll lib m (e :: es) (v :: vs) m2

/-- The texts `es`, each after a space. -/
def joinElts (es : List (List Char)) : List Char :=
  match es with
  | [] => []
  | e :: es => ' ' :: e ++ joinElts es

/-- The reference rendering of an object that is not a cons. -/
def renderAtom (lib : FloatLib) (obj : lispObject) : GoString :=
  match obj with
  | .symbol s => s.name
  | .integer value => formatInt value
  | .string_ value => [Char.ofNat 34] ++ value ++ [Char.ofNat 34]
  | .float value => lib.Sprint value
  | _ => []

mutual

/-- The reference rendering of an object. -/
def render (lib : FloatLib) (inp : interpreter) (obj : lispObject) : GoString :=
  match obj with
  | .cons car cdr => '(' :: render lib inp car ++ renderTail lib inp cdr
  | obj => renderAtom lib obj

/-- The reference rendering of a list after its first element, `cdr` being the rest. -/
def renderTail (lib : FloatLib) (inp : interpreter) (cdr : lispObject) : GoString :=
  match cdr with
  | .cons car cdr => ' ' :: render lib inp car ++ renderTail lib inp cdr
  | cdr => if cdr ≠ inp.nil_ then ' ' :: '.' :: ' ' :: renderAtom lib cdr ++ [')'] else [')']

end

/-- An object without a nil interface value and without a vector-like in it. -/
inductive Printable : lispObject → Prop
  | symbol (s : lispSymbol) : Printable (.symbol s)
  | integer (value : Int) : Printable (.integer value)
  | string_ (value : GoString) : Printable (.string_ value)
  | float (value : float64) : Printable (.float value)
  | cons (car cdr : lispObject) : Printable car → Printable cdr → Printable (.cons car cdr)

/-- An object the reader reads back from its rendering, in the machine `m`: 64-bit integers,
strings without a double quote and without a backslash, the symbols of the table whose name
is an unescaped atom text that is no number, and the cons cells of such objects. -/
inductive Readable (lib : FloatLib) (m : Machine) : lispObject → Prop
  | integer (n : Int) : -2 ^ 63 ≤ n → n < 2 ^ 63 → Readable lib m (.integer n)
  | string_ (s : GoString) : plainString s → Readable lib m (.string_ s)
  | symbol (s : lispSymbol) : plainAtom s.name → strconv.ParseInt s.name = none →
      lib.ParseFloat s.name = none → m.inp.obarray.lookup s.name = some s →
      Readable lib m (.symbol s)
  | cons (a d : lispObject) : Readable lib m a → Readable lib m d → Readable lib m (.cons a d)

/-- The state of the symbol table that `NewInterpreter` sets up and interning keeps: `nil_`
is the symbol the table holds under the name `nil`. -/
def Machine.nilInterned (m : Machine) : Prop :=
  ∃ s : lispSymbol, s.name = ['n', 'i', 'l'] ∧ m.inp.nil_ = .symbol s ∧
    m.inp.obarray.lookup ['n', 'i', 'l'] = some s

/-- In range for `lispInt`, a signed 64-bit integer. -/
def inInt64 (n : Int) : Prop := -2 ^ 63 ≤ n ∧ n < 2 ^ 63

instance (n : Int) : Decidable (inInt64 n) := by unfold inInt64; infer_instance

/-- The objects built from 64-bit integers, the canonical nil and cons cells. -/
inductive IntTree (inp : interpreter) : lispObject → Prop
  | integer (n : Int) : inInt64 n → IntTree inp (.integer n)
  | nil : IntTree inp inp.nil_
  | cons (a d : lispObject) : IntTree inp a → IntTree inp d → IntTree inp (.cons a d)

/-- An octal digit. -/
def octalDigit (ch : Char) : Prop := 48 ≤ ch.toNat ∧ ch.toNat ≤ 55

instance (ch : Char) : Decidable (octalDigit ch) := by unfold octalDigit; infer_instance

/-- The value of the octal digits `d` after the value `num` of the digits before them. -/
def octalFrom (num : Int) (d : List Char) : Int :=
  d.foldl (fun acc ch => acc * 8 + ((ch.toNat : Int) - 48)) num

/-- The value of a string of octal digits. -/
def octalValue (d : List Char) : Int := octalFrom 0 d

/-- A rune that may follow a character literal: whitespace, the end of the input or a
delimiter. -/
def charEnd (c : Int) : Prop := c ≤ 32 ∨ c ∈ charSpecial

instance (c : Int) : Decidable (charEnd c) := by unfold charEnd; infer_instance

/-- The table holds under each name a symbol of that name. -/
def Machine.tableNamed (m : Machine) : Prop :=
  ∀ (k : GoString) (s : lispSymbol), m.inp.obarray.lookup k = some s → s.name = k

/-- An unescaped atom text as the specification describes it: not empty, and no whitespace,
no delimiter and no backslash in it. -/
def unescapedAtom (a : List Char) : Prop := a ≠ [] ∧ ∀ ch ∈ a, atomChar ch

instance (a : List Char) : Decidable (unescapedAtom a) := by unfold unescapedAtom; infer_instance

/-- An input `s` inside a longer one: `p` stands before it and `ext` after it. -/
structure Window where
  s : List Char
  p : List Char
  ext : List Char

/-- What follows the input is nothing or starts with whitespace. -/
def Window.extOk (w : Window) : Prop := peekRune w.ext ≤ 32

/-- A cursor over the input `s`, within bounds. -/
def Window.ok (w : Window) (ctx : readContext) : Prop := ctx.runes = w.s ∧ ctx.i ≤ w.s.length

/-- The cursor over the longer input at the same place. -/
def Window.shift (w : Window) (ctx : readContext) : readContext :=
  { runes := w.p ++ w.s ++ w.ext, i := w.p.length + ctx.i }

/-- How to find the cursor in the result of a function of the reader, and which results are
failures. -/
structure View (β : Type) where
  get : β → readContext
  set : β → readContext → β
  isErr : β → Prop

def View.ctx : View readContext := ⟨fun c => c, fun _ c => c, fun _ => True⟩

def View.val {α : Type} (isErr : α → Prop) : View (α × readContext) :=
  ⟨fun b => b.2, fun b c => (b.1, c), fun b => isErr b.1⟩

def View.mach {α : Type} (isErr : α → Prop) : View (α × Machine × readContext) :=
  ⟨fun b => b.2.2, fun b c => (b.1, b.2.1, c), fun b => isErr b.1⟩

/-- The run `x'` over the longer input follows the run `x` over the input: when `x` returns,
either `x'` returns the same with the cursor at the same place, or `x` has failed with the
cursor at the end of the input. -/
def Rel {β : Type} (w : Window) (V : View β) (x x' : Run β) : Prop :=
  ∀ b, x = .ret b → w.ok (V.get b) ∧
    (x' = .ret (V.set b (w.shift (V.get b))) ∨ ((V.get b).i = w.s.length ∧ V.isErr b))

/-- The run `x`, when it returns, has failed with the cursor at the end of the input. -/
def EndErr {β : Type} (w : Window) (V : View β) (x : Run β) : Prop :=
  ∀ b, x = .ret b → w.ok (V.get b) ∧ (V.get b).i = w.s.length ∧ V.isErr b

/-- The rune under the cursor, `eofRune` at the end. -/
def curRune (ctx : readContext) : Int :=
  match ctx.runes.get? ctx.i with
  | some ch => (ch.toNat : Int)
  | none => eofRune

/-- The cursor after a `read`. -/
def advance (ctx : readContext) : readContext :=
  if ctx.i = ctx.runes.length then ctx else { ctx with i := ctx.i + 1 }

/-- A result `(obj, err)` with a non-nil error. -/
def failed0 (r : lispObject × error) : Prop := r.2 ≠ none

/-- A result `(obj, c, err)` with a non-nil error; its rune is then not the closing
parenthesis. -/
def failed1 (r : lispObject × Int × error) : Prop := r.2.2 ≠ none ∧ r.2.1 ≠ 41

/-- A result of the string loop that makes `read1` fail: a failed escape, or the end of the
input. -/
def failedString (r : Int × GoString × error) : Prop := r.2.2 ≠ none ∨ r.1 = eofRune

/-- The body of the loop of `readAtom` after the backslash test: write the rune, read the
next one and stop or go on. -/
def readAtomStep (fuel : Nat) (c : Int) (quoted : Bool) (builder : GoString)
    (ctx : readContext) : Run ((Int × Bool × GoString × error) × readContext) := do
  let (c1, ctx) ← ctx.read
  if c1 ≤ 32 ∨ c1 = nbsp ∨ c1 ∈ atomSpecial then
    return ((c1, quoted, builder ++ [runeToChar c], none), ctx)
  else readAtomLoop fuel c1 quoted (builder ++ [runeToChar c]) ctx

/-- The loop of `readAtom` over the longer input follows the loop over the input: it ends
with the same flag and builder, and the `unread` that follows leaves the cursors at the
same place; or the loop over the input has failed at the end of the input. -/
def AtomRel (w : Window) (x x' : Run ((Int × Bool × GoString × error) × readContext)) : Prop :=
  ∀ r ctx2, x = .ret (r, ctx2) → w.ok ctx2 ∧
    ((r.2.2.2 = none ∧ ∃ c' ctx2' ctx3, x' = .ret ((c', r.2.1, r.2.2.1, none), ctx2') ∧
        ctx2.unread r.1 = .ret ctx3 ∧ w.ok ctx3 ∧ ctx2'.unread c' = .ret (w.shift ctx3)) ∨
     (ctx2.i = w.s.length ∧ r.2.2.2 ≠ none))

/-- The three functions of the reader over the longer input, with at least the same budget,
follow their runs over the input. -/
def ReaderRel (lib : FloatLib) (w : Window) (F F' : Nat) : Prop :=
  ∀ (m : Machine) (ctx : readContext), w.ok ctx →
    Rel w (View.mach failed1) (read1 lib F m ctx) (read1 lib F' m (w.shift ctx)) ∧
    (∀ elts, Rel w (View.mach failed0) (readList lib F m ctx elts)
      (readList lib F' m (w.shift ctx) elts)) ∧
    Rel w (View.mach failed0) (read0 lib F m ctx) (read0 lib F' m (w.shift ctx))

/-- A character that `read1` skips before an expression. -/
def blankChar (ch : Char) : Prop := ch.toNat ≤ 32 ∨ ch.toNat = 160

instance (ch : Char) : Decidable (blankChar ch) := by unfold blankChar; infer_instance

/-- The machine `m1` holds what `m` holds: the same `nil_`, and every symbol of the table
of `m` under its name. -/
def Machine.extends (m1 m : Machine) : Prop :=
  m1.inp.nil_ = m.inp.nil_ ∧
    ∀ (k : GoString) (s : lispSymbol), m.inp.obarray.lookup k = some s →
      m1.inp.obarray.lookup k = some s

/-- The run `x`, started in the machine `m`, returns a machine that holds what `m` holds and
whose table is named when the table of `m` is. -/
def Keeps {α : Type} (m : Machine) (x : Run (α × Machine × readContext)) : Prop :=
  ∀ b, x = .ret b → b.2.1.extends m ∧ (m.tableNamed → b.2.1.tableNamed)

/-- A run of what `read1` skips before an expression: blanks, and comments from a semicolon
to the end of the line. -/
inductive Skipped : List Char → Prop
  | nil : Skipped []
  | blank (c : Char) (s : List Char) : blankChar c → Skipped s → Skipped (c :: s)
  | comment (body s : List Char) : (∀ ch ∈ body, ch.toNat ≠ 10) → Skipped s →
      Skipped (';' :: body ++ Char.ofNat 10 :: s)

/-- A text of blanks and comments only; the last comment may run to the end of the text. -/
inductive OnlySkipped : List Char → Prop
  | closed (s : List Char) : Skipped s → OnlySkipped s
  | open_ (s body : List Char) : Skipped s → (∀ ch ∈ body, ch.toNat ≠ 10) →
      OnlySkipped (s ++ ';' :: body)

/-- The value slot of the symbol instance `s` in the heap `h`. -/
def valueSlot (h : Heap) (s : lispSymbol) : Option lispObject :=
  (h.symbols.get? s.addr).map fun slots => slots.value

/-- The symbol `NewInterpreter` allocates for `nil` in a heap of `n` instances. -/
def bootNil (n : Nat) : lispSymbol := lispSymbol.mk n ['n', 'i', 'l']

/-- The symbol `NewInterpreter` allocates for `t` in a heap of `n` instances. -/
def bootT (n : Nat) : lispSymbol := lispSymbol.mk (n + 1) ['t']

/-- The symbol interned under `name` in the table of `inp` holds itself in its value slot. -/
def selfValued (heap : Heap) (inp : interpreter) (name : GoString) : Prop :=
  ∃ s, inp.obarray.lookup name = some s ∧ valueSlot heap s = some (.symbol s)

/-- A second interpreter, constructed after the first one and after `extra` more instances
have been allocated. -/
def secondInterpreter (h : Heap) (extra : List symbolSlots) : Machine :=
  NewInterpreter (Heap.mk ((NewInterpreter h).heap.symbols ++ extra))

/-- An object without a nil interface value in it: symbols, integers, strings, floats and
vector-likes, and cons cells of such objects. -/
inductive Value : lispObject → Prop
  | symbol (s : lispSymbol) : Value (.symbol s)
  | integer (value : Int) : Value (.integer value)
  | string_ (value : GoString) : Value (.string_ value)
  | float (value : float64) : Value (.float value)
  | vectorLike (vecType : Nat) : Value (.vectorLike vecType)
  | cons (car cdr : lispObject) : Value car → Value cdr → Value (.cons car cdr)

mutual

/-- A vector-like is among what the printer renders of `obj`: `obj` itself, or for a cons
the cars of its chain and its terminal cdr. -/
def rendersVector (inp : interpreter) (obj : lispObject) : Bool :=
  match obj with
  | .cons car cdr => rendersVector inp car || tailRendersVector inp cdr
  | .vectorLike _ => true
  | _ => false

/-- A vector-like is among what the printer renders of the rest `cdr` of a chain: the
terminal cdr is rendered unless it is `nil_`. -/
def tailRendersVector (inp : interpreter) (cdr : lispObject) : Bool :=
  match cdr with
  | .cons car cdr => rendersVector inp car || tailRendersVector inp cdr
  | .vectorLike vecType => decide (lispObject.vectorLike vecType ≠ inp.nil_)
  | _ => false

end

/-- The failure of `prin1` on a vector-like. -/
def prin1Unimplemented : error := some "prin1 unimplemented"

/-- The run `x` returns, with the cursor over `runes`, within bounds and not before the
place `lo`, and past `lo` when the result satisfies `adv`. -/
def Lands {β : Type} (get : β → readContext) (runes : List Char) (lo : Nat) (adv : β → Prop)
    (x : Run β) : Prop :=
  ∃ b, x = .ret b ∧ (get b).runes = runes ∧ lo ≤ (get b).i ∧ (get b).i ≤ runes.length ∧
    (adv b → lo < (get b).i)

/-- What the loop of `readAtom` leaves: the cursor over `runes`, within bounds and not before
`lo`, and, unless the loop failed, a rune whose `unread` returns such a cursor. -/
def AtomStop (runes : List Char) (lo : Nat)
    (b : (Int × Bool × GoString × error) × readContext) : Prop :=
  b.2.runes = runes ∧ lo ≤ b.2.i ∧ b.2.i ≤ runes.length ∧
    (b.1.2.2.2 = none → ∃ ctx0 : readContext, b.2.unread b.1.1 = .ret ctx0 ∧
      ctx0.runes = runes ∧ lo ≤ ctx0.i ∧ ctx0.i ≤ runes.length)

/-- The cursor in a result of `read1`. -/
def cursor1 (b : (lispObject × Int × error) × Machine × readContext) : readContext := b.2.2

/-- The cursor in a result of `read0` and of `readList`. -/
def cursor0 (b : (lispObject × error) × Machine × readContext) : readContext := b.2.2

/-- Every result the run `x` returns satisfies `P`. -/
def Yields {β : Type} (P : β → Prop) (x : Run β) : Prop := ∀ b, x = .ret b → P b

/-- The text starts, after blanks and comments, with a closing parenthesis. -/
def Closes (X : List Char) : Prop := ∃ s rest, Skipped s ∧ X = s ++ ')' :: rest

/-- The octal digits `readEscapeOctal` takes from the text `t`: at most `left` of them, with
the value after `num` and the text that is left. -/
def octalRun : Nat → Int → List Char → Int × List Char
  | 0, num, t => (num, t)
  | _ + 1, num, [] => (num, [])
  | left + 1, num, c :: t =>
    if 48 ≤ c.toNat ∧ c.toNat ≤ 55 then octalRun left (num * 8 + ((c.toNat : Int) - 48)) t
    else (num, c :: t)

/-- What `readEscape` makes of the text `t` after a backslash: the rune it returns and the
text that is left; `none` when it returns an error (the end of the text among them). -/
def escapeValue (stringp : Bool) (t : List Char) : Option (Int × List Char) :=
  match t with
  | [] => none
  | ch :: t =>
    let c : Int := (ch.toNat : Int)
    if c = 97 then some (7, t)
    else if c = 98 then some (8, t)
    else if c = 100 then some (127, t)
    else if c = 101 then some (27, t)
    else if c = 102 then some (12, t)
    else if c = 110 then some (10, t)
    else if c = 114 then some (13, t)
    else if c = 116 then some (9, t)
    else if c = 118 then some (11, t)
    else if c = 10 then some (-1, t)
    else if c = 32 then (if stringp then some (-1, t) else some (32, t))
    else if c = 77 ∨ c = 83 ∨ c = 72 ∨ c = 65 ∨ c = 115 ∨ c = 67 ∨ c = 94 then none
    else if 48 ≤ c ∧ c ≤ 55 then
      let r := octalRun 2 (c - 48) t
      some (if 0x80 ≤ r.1 ∧ r.1 < 0x100 then byte8toChar r.1 else r.1, r.2)
    else if c = 120 ∨ c = 85 ∨ c = 117 ∨ c = 78 then none
    else some (c, t)

/-- The string the loop of the string arm of `read1` builds from the text `body` between
the quotes; `none` when the text has a double quote in it, ends in a backslash or has an
escape that `readEscape` rejects. -/
def stringBody : Nat → List Char → Option GoString
  | 0, _ => none
  | _ + 1, [] => some []
  | fuel + 1, ch :: t =>
    if ch.toNat = 34 then none
    else if ch.toNat = 92 then
      match escapeValue true t with
      | none => none
      | some (v, t') =>
        if v = -1 then stringBody fuel t' else (stringBody fuel t').map (fun s => runeToChar v :: s)
    else (stringBody fuel t).map (fun s => ch :: s)

/-- The value of the string literal with the text `body` between its quotes. -/
def stringLiteralValue (body : List Char) : Option GoString := stringBody (body.length + 1) body

/-- The run `x` of `readEscape`, the cursor after `pre` with `t0 ++ X` before it, returns
what `escapeValue` says in `o`. -/
def EscapeAgrees (pre t0 X : List Char) (o : Option (Int × List Char))
    (x : Run ((Int × error) × readContext)) : Prop :=
  ∀ v t', o = some (v, t') → ∃ used, t0 = used ++ t' ∧
    x = .ret ((v, none), ctxAt (pre ++ used) (t' ++ X))

/-- The name the loop of `readAtom` builds from the atom text `t`, and whether a backslash
marks the atom as escaped; `none` when the text ends in a backslash or has a rune that ends
an atom outside an escape. -/
def atomName : List Char → Option (GoString × Bool)
  | [] => some ([], false)
  | c :: rest =>
    if c.toNat = 92 then
      match rest with
      | [] => none
      | x :: rest' => (atomName rest').map fun r => (x :: r.1, true)
    else if atomEnd (c.toNat : Int) then none
    else (atomName rest).map fun r => (c :: r.1, r.2)

/-- An unescaped atom text that reads as an object printed as the same text: no number, or a
number in the form the printer gives it. -/
def stableAtom (lib : FloatLib) (N : List Char) : Prop :=
  plainAtom N ∧
    match strconv.ParseInt N with
    | some n => formatInt n = N
    | none =>
      match lib.ParseFloat N with
      | some f => lib.Sprint f = N
      | none => True

instance (lib : FloatLib) (N : List Char) : Decidable (stableAtom lib N) := by
  unfold stableAtom
  cases strconv.ParseInt N <;> cases lib.ParseFloat N <;> infer_instance

/-- The text of the last cdr of a dotted list in the form the printer gives: an atom other
than `nil`, or a string. -/
def CanonEnd (lib : FloatLib) (d : List Char) : Prop :=
  (stableAtom lib d ∧ d ≠ ['n', 'i', 'l']) ∨
    ∃ v, plainString v ∧ d = Char.ofNat 34 :: v ++ [Char.ofNat 34]

/-- The texts in the form the printer gives: an atom that prints as itself, a string of
plain characters between double quotes, and a list of such texts, a space between them, in
parentheses, possibly with a dot between spaces before the last one. -/
inductive Canon (lib : FloatLib) : List Char → Prop
  | atom (N : List Char) : stableAtom lib N → Canon lib N
  | string_ (v : List Char) : plainString v → Canon lib (Char.ofNat 34 :: v ++ [Char.ofNat 34])
  | list (c1 : List Char) (cs : List (List Char)) : Canon lib c1 → (∀ c ∈ cs, Canon lib c) →
      Canon lib ('(' :: c1 ++ joinElts cs ++ [')'])
  | dotted (c1 : List Char) (cs : List (List Char)) (d : List Char) : Canon lib c1 →
      (∀ c ∈ cs, Canon lib c) → CanonEnd lib d →
      Canon lib ('(' :: c1 ++ joinElts cs ++ ' ' :: '.' :: ' ' :: d ++ [')'])

/-- The text `N` reads, in every machine that `NewInterpreter` and the reader can leave, as
an object that prints as `N`. -/
def ReadsBack (lib : FloatLib) (N : List Char) : Prop :=
  ∀ m : Machine, m.nilInterned → m.tableNamed →
    ∃ v m', Reads lib m N v m' ∧ m'.extends m ∧ m'.tableNamed ∧ Printable v ∧
      render lib m.inp v = N

/-- The value of the character literal with the text `t` after the question mark: one
character, or a backslash and an escape that `readEscape` decodes to its end; `none` for
any other text. -/
def charLiteralValue (t : List Char) : Option Int :=
  match t with
  | [] => none
  | c :: e =>
    if c.toNat = 92 then
      match escapeValue false e with
      | some (v, []) => some (if charByte8 v then charToByte8 v else v)
      | _ => none
    else if e = [] then
      some (if charByte8 (c.toNat : Int) then charToByte8 (c.toNat : Int) else (c.toNat : Int))
    else none

/-- What may follow the character literal with the text `t` after the question mark:
anything after a space or a tab, else the end of the input, whitespace or a delimiter. -/
def charLiteralEnd (t : List Char) (next : Int) : Prop :=
  t = [' '] ∨ t = [Char.ofNat 9] ∨ charEnd next

/-- The text of an atom of the round trip other than a string, with the text printed for
the object it reads as: an integer, a number that `strconv.ParseFloat` alone accepts (an
integer out of the 64-bit range among them), an unescaped symbol, or a symbol with escapes,
printed as its name. -/
inductive AtomLit (lib : FloatLib) : List Char → List Char → Prop
  | integer (t : List Char) (n : Int) : strconv.ParseInt t = some n →
      AtomLit lib t (formatInt n)
  | float (t : List Char) (f : float64) : plainAtom t → strconv.ParseInt t = none →
      lib.ParseFloat t = some f → AtomLit lib t (lib.Sprint f)
  | symbol (t : List Char) : plainAtom t → strconv.ParseInt t = none →
      lib.ParseFloat t = none → AtomLit lib t t
  | escaped (c0 : Char) (t0 N : List Char) : atomName (c0 :: t0) = some (N, true) →
      (c0.toNat = 92 ∨ atomStart c0 (peekRune t0)) → AtomLit lib (c0 :: t0) N

/-- The text between the parentheses of a proper list of atoms, with the texts printed for
its elements: before each element a run of blanks and comments, possibly empty; a string
is followed by anything, a character literal by what may follow it, any other atom by a
rune that ends an atom (a blank, a comment, a string or the closing parenthesis). -/
inductive ListBody (lib : FloatLib) : List Char → List (List Char) → Prop
  | close (trail : List Char) : Skipped trail → ListBody lib trail []
  | string_ (sep body v rest : List Char) (ps : List (List Char)) : Skipped sep →
      stringLiteralValue body = some v → ListBody lib rest ps →
      ListBody lib (sep ++ Char.ofNat 34 :: body ++ Char.ofNat 34 :: rest)
        ((Char.ofNat 34 :: v ++ [Char.ofNat 34]) :: ps)
  | character (sep t rest : List Char) (n : Int) (ps : List (List Char)) : Skipped sep →
      charLiteralValue t = some n → charLiteralEnd t (peekRune (rest ++ [')'])) →
      ListBody lib rest ps → ListBody lib (sep ++ '?' :: t ++ rest) (formatInt n :: ps)
  | atom (sep e p rest : List Char) (ps : List (List Char)) : Skipped sep →
      AtomLit lib e p → atomEnd (peekRune (rest ++ [')'])) → ListBody lib rest ps →
      ListBody lib (sep ++ e ++ rest) (p :: ps)

/-- The text printed for a proper list, from the texts printed for its elements. -/
def printedList (ps : List (List Char)) : List Char :=
  match ps with
  | [] => ['n', 'i', 'l']
  | p :: ps => '(' :: p ++ joinElts ps ++ [')']

/-- The literal texts of the round trip that the reader accepts, with the text printed for
the object read: a string literal whose escapes `readEscape` decodes, an integer (a number,
or a character literal), a symbol, or a proper list of such atoms. -/
inductive Literal (lib : FloatLib) : List Char → List Char → Prop
  | string_ (body v : List Char) : stringLiteralValue body = some v →
      Literal lib (Char.ofNat 34 :: body ++ [Char.ofNat 34]) (Char.ofNat 34 :: v ++ [Char.ofNat 34])
  | character (t : List Char) (n : Int) : charLiteralValue t = some n →
      Literal lib ('?' :: t) (formatInt n)
  | atom (e p : List Char) : AtomLit lib e p → Literal lib e p
  | list (body : List Char) (ps : List (List Char)) : ListBody lib body ps →
      Literal lib ('(' :: body ++ [')']) (printedList ps)

/-- With `tl` after the text, whatever ends it, and whatever was read before it, `read1`
returns `v`, leaves the machine `m'` and the cursor after the text. -/
def ReadsBefore (lib : FloatLib) (m : Machine) (text tl : List Char) (v : lispObject)
    (m' : Machine) : Prop :=
  ∀ (pre : List Char) (fuel : Nat), 2 * (text.length + tl.length) + 1 ≤ fuel →
    read1 lib fuel m (ctxAt pre (text ++ tl)) = .ret ((v, 0, none), m', ctxAt (pre ++ text) tl)

/-! ## Theorems -/

/-! ## Running Go code: basic equations -/

@[simp] theorem Run.ret_bind {α β : Type} (a : α) (f : α → Run β) : (Run.ret a >>= f) = f a := rfl

@[simp] theorem Run.pure_bind {α β : Type} (a : α) (f : α → Run β) :
    ((pure a : Run α) >>= f) = f a := rfl

@[simp] theorem Run.panic_bind {α β : Type} (msg : String) (f : α → Run β) :
    (Run.panic msg >>= f) = Run.panic msg := rfl

@[simp] theorem Run.outOfFuel_bind {α β : Type} (f : α → Run β) :
    ((Run.outOfFuel : Run α) >>= f) = Run.outOfFuel := rfl

@[simp] theorem Run.pure_eq {α : Type} (a : α) : (pure a : Run α) = Run.ret a := rfl

/-! ## The symbol table -/

theorem intern_lookup (m : Machine) (n : GoString) :
    (intern m n).2.inp.obarray.lookup n = some (intern m n).1 := by
  unfold intern
  cases h : m.inp.obarray.lookup n with
  | some sym => simp [h]
  | none => simp [makeSymbol, List.lookup]

/-- C1: interning a name a second time returns the symbol of the first call and leaves the
heap and the table as the first call left them. -/
theorem intern_twice (m : Machine) (n : GoString) :
    intern (intern m n).2 n = ((intern m n).1, (intern m n).2) := by
  have h := intern_lookup m n
  generalize intern m n = r at h
  unfold intern
  simp [h]

theorem read_ctxAt (pre rest : List Char) :
    (ctxAt pre rest).read = .ret (peekRune rest, afterRead pre rest) := by
  cases rest with
  | nil => simp [ctxAt, readContext.read, peekRune, afterRead]
  | cons ch rest =>
    have h : (pre ++ ch :: rest).get? pre.length = some ch := by
      rw [List.get?_eq_getElem?, List.getElem?_append_right (le_refl _)]
      simp
    unfold readContext.read
    simp only [ctxAt, h, peekRune, afterRead]
    simp

theorem toNat_ne_eof (ch : Char) : ((ch.toNat : Int)) ≠ eofRune := by
  unfold eofRune; omega

theorem unread_afterRead (pre rest : List Char) :
    (afterRead pre rest).unread (peekRune rest) = .ret (ctxAt pre rest) := by
  cases rest with
  | nil => simp [afterRead, peekRune, readContext.unread]
  | cons ch rest =>
    have h := toNat_ne_eof ch
    simp [afterRead, peekRune, readContext.unread, h, ctxAt]

theorem unread_ctxAt (pre : List Char) (ch : Char) (rest : List Char) (c : Int) (h : c ≠ -1) :
    (ctxAt (pre ++ [ch]) rest).unread c = .ret (ctxAt pre (ch :: rest)) := by
  simp [readContext.unread, eofRune, h, ctxAt]

theorem read_ctxAt_cons (pre : List Char) (ch : Char) (rest : List Char) :
    (ctxAt pre (ch :: rest)).read = .ret ((ch.toNat : Int), ctxAt (pre ++ [ch]) rest) :=
  read_ctxAt pre (ch :: rest)

theorem read_ctxAt_nil (pre : List Char) :
    (ctxAt pre []).read = .ret (eofRune, ctxAt pre []) :=
  read_ctxAt pre []

theorem runeToChar_toNat (ch : Char) : runeToChar (ch.toNat : Int) = ch := by
  unfold runeToChar
  have hv : Nat.isValidChar ch.toNat := ch.valid
  simp [hv]

theorem digitChar_toNat (d : Nat) (h : d < 10) : (digitChar d).toNat = 48 + d := by
  interval_cases d <;> rfl

theorem parseDigits_formatNatAux (fuel : Nat) :
    ∀ (n : Nat) (acc : List Char), n < fuel →
      ∃ k, ∀ a, parseDigits (formatNatAux fuel n acc) a = parseDigits acc (a * 10 ^ k + n) := by
  induction fuel with
  | zero => intro n acc h; omega
  | succ fuel ih =>
    intro n acc h
    unfold formatNatAux
    by_cases h10 : n < 10
    · refine ⟨1, fun a => ?_⟩
      simp only [h10, if_true, parseDigits, digitChar_toNat n h10]
      have : 48 ≤ 48 + n ∧ 48 + n ≤ 57 := by omega
      simp only [this, and_self, if_true]
      congr 1
      omega
    · obtain ⟨k, hk⟩ := ih (n / 10) (digitChar (n % 10) :: acc) (by omega)
      refine ⟨k + 1, fun a => ?_⟩
      have hm : n % 10 < 10 := Nat.mod_lt _ (by omega)
      simp only [h10, if_false, hk, parseDigits, digitChar_toNat _ hm]
      have : 48 ≤ 48 + n % 10 ∧ 48 + n % 10 ≤ 57 := by omega
      simp only [this, and_self, if_true]
      congr 1
      have := Nat.div_add_mod n 10
      rw [pow_succ]
      have e : 48 + n % 10 - 48 = n % 10 := by omega
      rw [e]
      nlinarith [Nat.div_add_mod n 10]

theorem formatNatAux_digits (fuel : Nat) :
    ∀ (n : Nat) (acc : List Char), (∀ ch ∈ acc, isDigitChar ch) →
      ∀ ch ∈ formatNatAux fuel n acc, isDigitChar ch := by
  induction fuel with
  | zero => intro n acc h; simpa [formatNatAux] using h
  | succ fuel ih =>
    intro n acc h
    unfold formatNatAux
    by_cases h10 : n < 10
    · simp only [h10, if_true]
      intro ch hch
      rcases List.mem_cons.1 hch with rfl | hch
      · unfold isDigitChar; rw [digitChar_toNat n h10]; omega
      · exact h ch hch
    · simp only [h10, if_false]
      apply ih
      intro ch hch
      have hm : n % 10 < 10 := Nat.mod_lt _ (by omega)
      rcases List.mem_cons.1 hch with rfl | hch
      · unfold isDigitChar; rw [digitChar_toNat _ hm]; omega
      · exact h ch hch

theorem formatNatAux_ne_nil (fuel : Nat) :
    ∀ (n : Nat) (acc : List Char), n < fuel → formatNatAux fuel n acc ≠ [] := by
  induction fuel with
  | zero => intro n acc h; omega
  | succ fuel ih =>
    intro n acc h
    unfold formatNatAux
    by_cases h10 : n < 10
    · simp [h10]
    · simp only [h10, if_false]
      exact ih _ _ (by omega)

theorem formatNat_digits (n : Nat) : ∀ ch ∈ formatNat n, isDigitChar ch :=
  formatNatAux_digits _ _ _ (by simp)

theorem formatNat_ne_nil (n : Nat) : formatNat n ≠ [] :=
  formatNatAux_ne_nil _ _ _ (by omega)

theorem ParseUint_formatNat (n : Nat) : strconv.ParseUint (formatNat n) = some n := by
  obtain ⟨k, hk⟩ := parseDigits_formatNatAux (n + 1) n [] (by omega)
  have hne := formatNat_ne_nil n
  unfold strconv.ParseUint
  cases hs : formatNat n with
  | nil => exact absurd hs hne
  | cons ch rest =>
    have := hk 0
    simp only [parseDigits, zero_mul, zero_add] at this
    show parseDigits (ch :: rest) 0 = some n
    rw [← hs]
    exact this

/-- The text of a 64-bit integer parses back to the integer. -/
theorem ParseInt_formatInt (n : Int) (hlo : -2 ^ 63 ≤ n) (hhi : n < 2 ^ 63) :
    strconv.ParseInt (formatInt n) = some n := by
  unfold formatInt
  by_cases hneg : n < 0
  · have h45 : (Char.ofNat 45).toNat = 45 := rfl
    have h1 : ¬ ((2:Nat) ^ 63 < n.natAbs) := by omega
    have e : -((n.natAbs : Nat) : Int) = n := by omega
    simp only [hneg, if_true, strconv.ParseInt, h45, ParseUint_formatNat, or_true,
      decide_True, not_true_eq_false, false_and, if_false, h1, and_false, e]
  · simp only [hneg, if_false]
    have hne := formatNat_ne_nil n.natAbs
    have hd := formatNat_digits n.natAbs
    have hp := ParseUint_formatNat n.natAbs
    cases hs : formatNat n.natAbs with
    | nil => exact absurd hs hne
    | cons ch rest =>
      rw [hs] at hd hp
      have hch : isDigitChar ch := hd ch (by simp)
      unfold isDigitChar at hch
      unfold strconv.ParseInt
      have h43 : ¬ (ch.toNat = 43) := by omega
      have h45 : ¬ (ch.toNat = 45) := by omega
      have h1 : ¬ ((2:Nat) ^ 63 ≤ n.natAbs) := by omega
      have e : ((n.natAbs : Nat) : Int) = n := by omega
      simp only [h43, h45, if_false, hp, decide_False, h1, and_false, false_and,
        Bool.false_eq_true, e, or_false, or_self]

theorem atomEnd_eof : atomEnd (peekRune []) := by
  unfold atomEnd peekRune eofRune; left; decide

theorem readAtomLoop_plain (body : List Char) :
    ∀ (c0 : Char) (quoted : Bool) (builder pre rest : List Char) (fuel : Nat),
      c0.toNat ≠ 92 → (∀ ch ∈ body, atomChar ch) → atomEnd (peekRune rest) →
      body.length + 1 ≤ fuel →
      readAtomLoop fuel (c0.toNat : Int) quoted builder (ctxAt pre (body ++ rest)) =
        .ret ((peekRune rest, quoted, builder ++ c0 :: body, none),
          afterRead (pre ++ body) rest) := by
  induction body with
  | nil =>
    intro c0 quoted builder pre rest fuel h0 _ hend hf
    obtain ⟨fuel, rfl⟩ : ∃ f, fuel = f + 1 := ⟨fuel - 1, by omega⟩
    have h92 : ¬ ((c0.toNat : Int) = 92) := by omega
    unfold atomEnd at hend
    simp [readAtomLoop, h92, read_ctxAt, runeToChar_toNat, hend]
  | cons b body ih =>
    intro c0 quoted builder pre rest fuel h0 hbody hend hf
    obtain ⟨fuel, rfl⟩ : ∃ f, fuel = f + 1 := ⟨fuel - 1, by simp at hf; omega⟩
    have h92 : ¬ ((c0.toNat : Int) = 92) := by omega
    have hb := hbody b (by simp)
    have hb1 : ¬ ((b.toNat : Int) ≤ 32 ∨ (b.toNat : Int) = nbsp ∨ (b.toNat : Int) ∈ atomSpecial) :=
      hb.1
    have := ih b quoted (builder ++ [c0]) (pre ++ [b]) rest fuel hb.2
      (fun ch hch => hbody ch (by simp [hch])) hend (by simp at hf; omega)
    simp only [List.cons_append, readAtomLoop, h92, if_false, Run.pure_eq, Run.ret_bind,
      ne_eq, not_true_eq_false, read_ctxAt_cons, runeToChar_toNat, hb1]
    simp only [this, List.append_assoc, List.singleton_append]

theorem readAtom_plain (lib : FloatLib) (m : Machine) (c0 : Char) (body pre rest : List Char)
    (fuel : Nat) (h0 : c0.toNat ≠ 92) (hbody : ∀ ch ∈ body, atomChar ch)
    (hend : atomEnd (peekRune rest)) (hf : body.length + 1 ≤ fuel) :
    readAtom lib fuel m (c0.toNat : Int) (ctxAt pre (body ++ rest)) =
      .ret (((atomValue lib m (c0 :: body)).1, none), (atomValue lib m (c0 :: body)).2,
        ctxAt (pre ++ body) rest) := by
  unfold readAtom
  rw [readAtomLoop_plain body c0 false [] pre rest fuel h0 hbody hend hf]
  simp only [Run.ret_bind, ne_eq, not_true_eq_false, if_false, unread_afterRead,
    List.nil_append, atomValue]
  by_cases h : (stringToNumber lib (c0 :: body)).2 = none
  · simp [h]
  · simp [h]

theorem read1_atom (lib : FloatLib) (m : Machine) (c0 : Char) (body pre rest : List Char)
    (fuel : Nat) (h0 : atomChar c0) (hs : atomStart c0 (peekRune (body ++ rest)))
    (hbody : ∀ ch ∈ body, atomChar ch)
    (hend : atomEnd (peekRune rest)) (hf : body.length + 2 ≤ fuel) :
    read1 lib fuel m (ctxAt pre (c0 :: body ++ rest)) =
      .ret (((atomValue lib m (c0 :: body)).1, 0, none), (atomValue lib m (c0 :: body)).2,
        ctxAt (pre ++ c0 :: body) rest) := by
  obtain ⟨fuel, rfl⟩ : ∃ f, fuel = f + 1 := ⟨fuel - 1, by omega⟩
  have hA := readAtom_plain lib m c0 body (pre ++ [c0]) rest fuel h0.2 hbody hend (by omega)
  have hne := h0.1
  unfold atomEnd at hne
  simp only [atomSpecial, nbsp, List.mem_cons, List.mem_singleton, not_or, List.not_mem_nil,
    not_false_eq_true, and_true] at hne
  obtain ⟨h32, h160, h34, h39, h59, h40, h41, h91, h93, h35, h96, h44⟩ := hne
  have heof := toNat_ne_eof c0
  have h63 : ¬ ((c0.toNat : Int) = 63) := by have := hs.1; omega
  unfold read1
  simp only [List.cons_append, read_ctxAt_cons, Run.ret_bind, heof, if_false, h40, h91, h41, h93,
    h35, h59, h39, h96, h44, h63, h34, or_self, h32, h160, nbsp]
  by_cases h46 : (c0.toNat : Int) = 46
  · have hd := hs.2 (by omega)
    simp only [h46, if_true, read_ctxAt, Run.ret_bind, unread_afterRead, hd, if_false]
    rw [← h46, hA]
    simp
  · simp only [h46, if_false, hA, Run.ret_bind, Run.pure_eq]
    simp

theorem parseDigits_chars : ∀ (s : List Char) (a r : Nat), parseDigits s a = some r →
    ∀ ch ∈ s, isDigitChar ch := by
  intro s
  induction s with
  | nil => intro a r _ ch hch; cases hch
  | cons c s ih =>
    intro a r h ch hch
    unfold parseDigits at h
    by_cases hc : 48 ≤ c.toNat ∧ c.toNat ≤ 57
    · simp only [hc, and_self, if_true] at h
      rcases List.mem_cons.1 hch with rfl | hch
      · exact hc
      · exact ih _ _ h ch hch
    · simp [hc] at h

theorem ParseUint_chars (s : List Char) (r : Nat) (h : strconv.ParseUint s = some r) :
    ∀ ch ∈ s, isDigitChar ch := by
  unfold strconv.ParseUint at h
  cases s with
  | nil => simp at h
  | cons c s => exact parseDigits_chars _ _ _ h

theorem isDigitChar_atomChar (ch : Char) (h : isDigitChar ch) : atomChar ch := by
  unfold isDigitChar at h
  unfold atomChar atomEnd
  simp only [atomSpecial, nbsp, List.mem_cons, List.mem_singleton, List.not_mem_nil, or_false]
  omega

/-- A text that `strconv.ParseInt` accepts is an unescaped atom. -/
theorem ParseInt_plainAtom (t : List Char) (n : Int) (h : strconv.ParseInt t = some n) :
    plainAtom t := by
  unfold strconv.ParseInt at h
  cases t with
  | nil => simp at h
  | cons c0 body =>
    simp only at h
    by_cases hsign : c0.toNat = 43 ∨ c0.toNat = 45
    · simp only [hsign, if_true] at h
      cases hp : strconv.ParseUint body with
      | none => simp [hp] at h
      | some un =>
        have hd := ParseUint_chars body un hp
        refine ⟨?_, fun ch hch => isDigitChar_atomChar ch (hd ch hch), ?_⟩
        · unfold atomChar atomEnd
          simp only [atomSpecial, nbsp, List.mem_cons, List.mem_singleton, List.not_mem_nil, or_false]
          omega
        · unfold atomStart; omega
    · simp only [hsign, if_false] at h
      cases hp : strconv.ParseUint (c0 :: body) with
      | none => simp [hp] at h
      | some un =>
        have hd := ParseUint_chars (c0 :: body) un hp
        have h0 := hd c0 (by simp)
        refine ⟨isDigitChar_atomChar c0 h0, fun ch hch => isDigitChar_atomChar ch (hd ch (by simp [hch])), ?_⟩
        unfold isDigitChar at h0
        unfold atomStart; omega

theorem peekRune_append (body rest : List Char) (h : body ≠ []) :
    peekRune (body ++ rest) = peekRune body := by
  cases body with
  | nil => exact absurd rfl h
  | cons c body => rfl

theorem atomStart_append (c0 : Char) (body rest : List Char) (h : atomStart c0 (peekRune body)) :
    atomStart c0 (peekRune (body ++ rest)) := by
  cases body with
  | nil =>
    refine ⟨h.1, fun h46 => ?_⟩
    exact absurd (Or.inl (by unfold peekRune eofRune; decide)) (h.2 h46)
  | cons c body => exact h

/-- An unescaped atom text reads as what `readAtom` makes of it. -/
theorem Reads_plainAtom (lib : FloatLib) (m : Machine) (t : List Char) (h : plainAtom t) :
    Reads lib m t (atomValue lib m t).1 (atomValue lib m t).2 := by
  cases t with
  | nil => exact absurd h (by simp [plainAtom])
  | cons c0 body =>
    obtain ⟨h0, hbody, hs⟩ := h
    intro pre rest fuel hend hf
    have := read1_atom lib m c0 body pre rest fuel h0 (atomStart_append c0 body rest hs) hbody
      hend (by simp at hf; omega)
    simpa using this

theorem Reads_int (lib : FloatLib) (m : Machine) (t : List Char) (n : Int)
    (h : strconv.ParseInt t = some n) : Reads lib m t (.integer n) m := by
  have := Reads_plainAtom lib m t (ParseInt_plainAtom t n h)
  simpa [atomValue, stringToNumber, h, makeInteger] using this

theorem Reads_formatInt (lib : FloatLib) (m : Machine) (n : Int) (hlo : -2 ^ 63 ≤ n)
    (hhi : n < 2 ^ 63) : Reads lib m (formatInt n) (.integer n) m :=
  Reads_int lib m _ n (ParseInt_formatInt n hlo hhi)

theorem Reads_symbol (lib : FloatLib) (m : Machine) (t : List Char) (h : plainAtom t)
    (hi : strconv.ParseInt t = none) (hfl : lib.ParseFloat t = none) :
    Reads lib m t (.symbol (intern m t).1) (intern m t).2 := by
  have := Reads_plainAtom lib m t h
  simpa [atomValue, stringToNumber, hi, hfl] using this

theorem readStringLoop_plain (body : List Char) :
    ∀ (builder pre rest : List Char) (fuel : Nat), plainString body →
      (peekRune rest = eofRune ∨ peekRune rest = 34) → body.length + 1 ≤ fuel →
      readStringLoop fuel builder (ctxAt pre (body ++ rest)) =
        .ret ((peekRune rest, builder ++ body, none), afterRead (pre ++ body) rest) := by
  induction body with
  | nil =>
    intro builder pre rest fuel _ hend hf
    obtain ⟨fuel, rfl⟩ : ∃ f, fuel = f + 1 := ⟨fuel - 1, by omega⟩
    simp [readStringLoop, read_ctxAt, hend]
  | cons b body ih =>
    intro builder pre rest fuel hbody hend hf
    obtain ⟨fuel, rfl⟩ : ∃ f, fuel = f + 1 := ⟨fuel - 1, by simp at hf; omega⟩
    have hb := hbody b (by simp)
    have h34 : ¬ ((b.toNat : Int) = 34) := by omega
    have h92 : ¬ ((b.toNat : Int) = 92) := by omega
    have heof := toNat_ne_eof b
    have := ih (builder ++ [b]) (pre ++ [b]) rest fuel
      (fun ch hch => hbody ch (by simp [hch])) hend (by simp at hf; omega)
    simp only [List.cons_append, readStringLoop, read_ctxAt_cons, Run.ret_bind, heof, h34,
      or_self, if_false, h92, runeToChar_toNat]
    simp only [this, List.append_assoc, List.singleton_append]

/-- A string literal without a double quote and without a backslash in it reads as the
string between the quotes. -/
theorem Reads_string (lib : FloatLib) (m : Machine) (body : List Char) (h : plainString body) :
    Reads lib m (Char.ofNat 34 :: body ++ [Char.ofNat 34]) (.string_ body) m := by
  intro pre rest fuel _ hf
  obtain ⟨fuel, rfl⟩ : ∃ f, fuel = f + 1 := ⟨fuel - 1, by omega⟩
  have hq : ((Char.ofNat 34).toNat : Int) = 34 := rfl
  have hl := readStringLoop_plain body [] (pre ++ [Char.ofNat 34]) (Char.ofNat 34 :: rest) fuel h
    (Or.inr hq) (by simp at hf; omega)
  unfold read1
  simp only [List.cons_append, List.append_assoc, read_ctxAt_cons, hq, Run.ret_bind]
  simp only [List.nil_append]
  rw [hl]
  simp [eofRune, peekRune, afterRead, makeString, hq]

theorem Reads_space (lib : FloatLib) (m : Machine) (t : List Char) (v : lispObject)
    (m' : Machine) (h : Reads lib m t v m') : Reads lib m (' ' :: t) v m' := by
  intro pre rest fuel hend hf
  obtain ⟨fuel, rfl⟩ : ∃ f, fuel = f + 1 := ⟨fuel - 1, by omega⟩
  have := h (pre ++ [' ']) rest fuel hend (by simp at hf; omega)
  have hsp : ((' ' : Char).toNat : Int) = 32 := rfl
  unfold read1
  simp only [List.cons_append, read_ctxAt_cons, hsp, Run.ret_bind]
  simp [eofRune, this]

theorem read1_close (lib : FloatLib) (m : Machine) (pre rest : List Char) (fuel : Nat) :
    read1 lib (fuel + 1) m (ctxAt pre (')' :: rest)) =
      .ret ((.null, 41, none), m, ctxAt (pre ++ [')']) rest) := by
  have hc : ((')' : Char).toNat : Int) = 41 := rfl
  unfold read1
  simp only [read_ctxAt_cons, hc, Run.ret_bind]
  simp [eofRune]

theorem read1_marker (lib : FloatLib) (m : Machine) (pre rest : List Char) (fuel : Nat) :
    read1 lib (fuel + 1) m (ctxAt pre ('.' :: ' ' :: rest)) =
      .ret ((.null, 46, none), m, ctxAt (pre ++ ['.']) (' ' :: rest)) := by
  have hc : (('.' : Char).toNat : Int) = 46 := rfl
  have hp : ((' ' : Char).toNat : Int) = 32 := rfl
  unfold read1
  simp only [read_ctxAt_cons, hc, hp, Run.ret_bind]
  rw [unread_ctxAt _ _ _ _ (by decide)]
  simp [eofRune, dotSpecial]

theorem readList_elem (lib : FloatLib) (m m' : Machine) (e : List Char) (v : lispObject)
    (h : Reads lib m e v m') (pre tl : List Char) (elts : List lispObject) (fuel : Nat)
    (hend : atomEnd (peekRune tl)) (hf : 2 * (e.length + tl.length) + 1 ≤ fuel) :
    readList lib (fuel + 1) m (ctxAt pre (e ++ tl)) elts =
      readList lib fuel m' (ctxAt (pre ++ e) tl) (elts ++ [v]) := by
  have := h pre tl fuel hend hf
  rw [readList]
  simp [this]

theorem readList_close (lib : FloatLib) (m : Machine) (pre rest : List Char)
    (elts : List lispObject) (fuel : Nat) :
    readList lib (fuel + 2) m (ctxAt pre (')' :: rest)) elts =
      .ret ((makeChain elts m.inp.nil_, none), m, ctxAt (pre ++ [')']) rest) := by
  unfold readList
  simp [read1_close]

theorem atomEnd_close (rest : List Char) : atomEnd (peekRune (')' :: rest)) := by
  have hc : ((')' : Char).toNat : Int) = 41 := rfl
  unfold atomEnd peekRune
  simp [hc, atomSpecial]

theorem atomEnd_space (rest : List Char) : atomEnd (peekRune (' ' :: rest)) := by
  have hc : ((' ' : Char).toNat : Int) = 32 := rfl
  unfold atomEnd peekRune
  simp [hc]

theorem readList_dot (lib : FloatLib) (m m' : Machine) (d : List Char) (vd : lispObject)
    (h : Reads lib m d vd m') (pre rest : List Char) (elts : List lispObject) (fuel : Nat)
    (hne : elts ≠ []) (hf : 2 * (d.length + rest.length) + 10 ≤ fuel) :
    readList lib fuel m (ctxAt pre (' ' :: '.' :: ' ' :: d ++ ')' :: rest)) elts =
      .ret ((makeChain elts vd, none), m',
        ctxAt (pre ++ ' ' :: '.' :: ' ' :: d ++ [')']) rest) := by
  obtain ⟨fuel, rfl⟩ : ∃ f, fuel = f + 3 := ⟨fuel - 3, by omega⟩
  have hsp : ((' ' : Char).toNat : Int) = 32 := rfl
  have h1 : read1 lib (fuel + 2) m (ctxAt pre (' ' :: '.' :: ' ' :: (d ++ ')' :: rest))) =
      .ret ((.null, 46, none), m, ctxAt (pre ++ [' ', '.']) (' ' :: (d ++ ')' :: rest))) := by
    rw [read1]
    simp only [read_ctxAt_cons, hsp, Run.ret_bind]
    simp [eofRune, read1_marker]
  have h2 := Reads_space lib m d vd m' h (pre ++ [' ', '.']) (')' :: rest) (fuel + 1)
    (atomEnd_close rest) (by simp; omega)
  have h0 : read0 lib (fuel + 2) m (ctxAt (pre ++ [' ', '.']) (' ' :: (d ++ ')' :: rest))) =
      .ret ((vd, none), m', ctxAt (pre ++ [' ', '.'] ++ ' ' :: d) (')' :: rest)) := by
    rw [read0]
    simp only [List.cons_append] at h2
    simp [h2]
  rw [readList]
  simp only [List.cons_append, h1, Run.ret_bind, h0]
  simp [hne, read1_close]

theorem Reads_ne_nil (lib : FloatLib) (m m' : Machine) (v : lispObject)
    (h : Reads lib m [] v m') : False := by
  have := h [] [] 1 atomEnd_eof (by simp)
  simp [read1, read_ctxAt_nil, eofRune] at this

theorem joinElts_length (es : List (List Char)) : es.length ≤ (joinElts es).length := by
  induction es with
  | nil => simp [joinElts]
  | cons e es ih => simp [joinElts]; omega

theorem atomEnd_joinElts (es : List (List Char)) (tl : List Char)
    (h : atomEnd (peekRune tl)) : atomEnd (peekRune (joinElts es ++ tl)) := by
  cases es with
  | nil => simpa [joinElts] using h
  | cons e es => exact atomEnd_space _

theorem readList_elems (lib : FloatLib) (m m' : Machine) (es : List (List Char))
    (vs : List lispObject) (h : ReadsAll lib m es vs m') :
    ∀ (pre tl : List Char) (elts : List lispObject) (fuel : Nat), atomEnd (peekRune tl) →
      2 * ((joinElts es).length + tl.length) + 2 ≤ fuel + es.length →
      readList lib (fuel + es.length) m (ctxAt pre (joinElts es ++ tl)) elts =
        readList lib fuel m' (ctxAt (pre ++ joinElts es) tl) (elts ++ vs) := by
  induction h with
  | nil m => intro pre tl elts fuel _ _; simp [joinElts]
  | cons m m1 m2 e v es vs he _ ih =>
    intro pre tl elts fuel hend hf
    have hstep := readList_elem lib m m1 (' ' :: e) v (Reads_space lib m e v m1 he) pre
      (joinElts es ++ tl) elts (fuel + es.length) (atomEnd_joinElts es tl hend)
      (by simp [joinElts] at hf ⊢; omega)
    have hrest := ih (pre ++ ' ' :: e) tl (elts ++ [v]) fuel hend
      (by simp [joinElts] at hf ⊢; omega)
    simp only [joinElts, List.length_cons, List.cons_append, List.append_assoc] at hstep hrest ⊢
    rw [← Nat.add_assoc, hstep, hrest]
    simp

theorem read1_open (lib : FloatLib) (m : Machine) (pre t : List Char) (fuel : Nat) :
    read1 lib (fuel + 1) m (ctxAt pre ('(' :: t)) =
      (readList lib fuel m (ctxAt (pre ++ ['(']) t) []).bind
        (fun r => .ret ((r.1.1, 0, r.1.2), r.2.1, r.2.2)) := by
  have hc : (('(' : Char).toNat : Int) = 40 := rfl
  rw [read1]
  simp only [read_ctxAt_cons, hc, Run.ret_bind]
  simp [eofRune]
  rfl

theorem Reads_length_pos (lib : FloatLib) (m m' : Machine) (e : List Char) (v : lispObject)
    (h : Reads lib m e v m') : 1 ≤ e.length := by
  cases e with
  | nil => exact absurd h (fun h => Reads_ne_nil lib m m' v h)
  | cons c e => simp

/-- A proper list: the texts of the elements, a space between them, in parentheses. -/
theorem Reads_list (lib : FloatLib) (m m1 m2 : Machine) (e1 : List Char) (v1 : lispObject)
    (es : List (List Char)) (vs : List lispObject) (h1 : Reads lib m e1 v1 m1)
    (hs : ReadsAll lib m1 es vs m2) :
    Reads lib m ('(' :: e1 ++ joinElts es ++ [')']) (makeChain (v1 :: vs) m2.inp.nil_) m2 := by
  intro pre rest fuel _ hf
  have hpos := Reads_length_pos lib m m1 e1 v1 h1
  have hk := joinElts_length es
  simp only [List.length_cons, List.length_append, List.length_singleton, List.length_nil] at hf
  obtain ⟨fuel, rfl⟩ : ∃ f, fuel = f + es.length + 2 + 2 := ⟨fuel - es.length - 4, by omega⟩
  have hA := readList_elem lib m m1 e1 v1 h1 (pre ++ ['(']) (joinElts es ++ ')' :: rest) []
    (fuel + es.length + 2) (atomEnd_joinElts es _ (atomEnd_close rest)) (by simp; omega)
  have hB := readList_elems lib m1 m2 es vs hs (pre ++ ['('] ++ e1) (')' :: rest) ([] ++ [v1])
    (fuel + 2) (atomEnd_close rest) (by simp; omega)
  have hC := readList_close lib m2 (pre ++ ['('] ++ e1 ++ joinElts es) rest ([] ++ [v1] ++ vs) fuel
  have e : fuel + es.length + 2 + 2 = (fuel + es.length + 2 + 1) + 1 := by omega
  have e2 : fuel + es.length + 2 = fuel + 2 + es.length := by omega
  simp only [List.cons_append, List.append_assoc, List.singleton_append, List.nil_append] at hA hB hC ⊢
  rw [e, read1_open, hA, e2, hB, hC]
  simp [Run.bind]

/-- A dotted list: the texts of the elements, then a dot between spaces and the text of the
last cdr. -/
theorem Reads_dotted (lib : FloatLib) (m m1 m2 m3 : Machine) (e1 : List Char) (v1 : lispObject)
    (es : List (List Char)) (vs : List lispObject) (d : List Char) (vd : lispObject)
    (h1 : Reads lib m e1 v1 m1) (hs : ReadsAll lib m1 es vs m2) (hd : Reads lib m2 d vd m3) :
    Reads lib m ('(' :: e1 ++ joinElts es ++ ' ' :: '.' :: ' ' :: d ++ [')'])
      (makeChain (v1 :: vs) vd) m3 := by
  intro pre rest fuel _ hf
  have hpos := Reads_length_pos lib m m1 e1 v1 h1
  have hk := joinElts_length es
  simp only [List.length_cons, List.length_append, List.length_singleton, List.length_nil] at hf
  obtain ⟨fuel, rfl⟩ : ∃ f, fuel = f + es.length + 2 := ⟨fuel - es.length - 2, by omega⟩
  have hA := readList_elem lib m m1 e1 v1 h1 (pre ++ ['('])
    (joinElts es ++ ' ' :: ('.' :: ' ' :: d ++ ')' :: rest)) []
    (fuel + es.length) (atomEnd_joinElts es _ (atomEnd_space _)) (by simp; omega)
  have hB := readList_elems lib m1 m2 es vs hs (pre ++ ['('] ++ e1)
    (' ' :: ('.' :: ' ' :: d ++ ')' :: rest)) ([] ++ [v1])
    fuel (atomEnd_space _) (by simp; omega)
  have hC := readList_dot lib m2 m3 d vd hd (pre ++ ['('] ++ e1 ++ joinElts es) rest
    ([] ++ [v1] ++ vs) fuel (by simp) (by omega)
  have e : fuel + es.length + 2 = (fuel + es.length + 1) + 1 := by omega
  simp only [List.cons_append, List.append_assoc, List.singleton_append, List.nil_append] at hA hB hC ⊢
  rw [e, read1_open, hA, hB, hC]
  simp [Run.bind]

theorem Reads_empty_list (lib : FloatLib) (m : Machine) :
    Reads lib m ['(', ')'] m.inp.nil_ m := by
  intro pre rest fuel _ hf
  obtain ⟨fuel, rfl⟩ : ∃ f, fuel = f + 3 := ⟨fuel - 3, by simp at hf; omega⟩
  have hC := readList_close lib m (pre ++ ['(']) rest [] fuel
  simp only [List.cons_append, List.nil_append]
  rw [show fuel + 3 = (fuel + 2) + 1 by omega, read1_open, hC]
  simp [Run.bind, makeChain]

theorem ReadString_of_Reads (lib : FloatLib) (m m' : Machine) (t : List Char) (v : lispObject)
    (h : Reads lib m t v m') : ReadString lib m t = .ret ((v, none), m') := by
  have := h [] [] (2 * t.length + 1) atomEnd_eof (by simp)
  simp only [List.append_nil, ctxAt, List.nil_append, List.length_nil] at this
  have e : read0 lib ((2 * t.length + 1) + 1) m { runes := t, i := 0 } =
      .ret ((v, none), m', { runes := t, i := t.length }) := by
    rw [read0]
    simp [this]
  simp only [ReadString, show 2 * t.length + 2 = (2 * t.length + 1) + 1 by omega, e]
  rfl

theorem prin1Atom_render (lib : FloatLib) (obj : lispObject) (h : Printable obj)
    (hc : ∀ a d, obj ≠ .cons a d) :
    prin1Atom lib obj = .ret (.string_ (renderAtom lib obj), none) := by
  cases h with
  | cons a d _ _ => exact absurd rfl (hc a d)
  | _ => rfl

theorem prin1_render (lib : FloatLib) (inp : interpreter) (obj : lispObject) (h : Printable obj) :
    prin1 lib inp obj = .ret (.string_ (render lib inp obj), none) ∧
    ∀ s, prin1Loop lib inp obj s = .ret (.string_ (s ++ renderTail lib inp obj), none) := by
  induction h with
  | cons a d _ _ iha ihd =>
    constructor
    · rw [prin1, iha.1]
      simp [stringValue, ihd.2, render]
    · intro s
      rw [prin1Loop, iha.1]
      simp [stringValue, ihd.2, renderTail]
  | symbol s =>
    constructor
    · simp [prin1, prin1Atom, render, renderAtom, makeString]
    · intro t
      simp only [prin1Loop, prin1End, prin1Atom, renderTail, renderAtom, makeString]
      by_cases hn : lispObject.symbol s = inp.nil_ <;> simp [hn, stringValue]
  | integer n =>
    constructor
    · simp [prin1, prin1Atom, render, renderAtom, makeString]
    · intro t
      simp only [prin1Loop, prin1End, prin1Atom, renderTail, renderAtom, makeString]
      by_cases hn : lispObject.integer n = inp.nil_ <;> simp [hn, stringValue]
  | string_ n =>
    constructor
    · simp [prin1, prin1Atom, render, renderAtom, makeString]
    · intro t
      simp only [prin1Loop, prin1End, prin1Atom, renderTail, renderAtom, makeString]
      by_cases hn : lispObject.string_ n = inp.nil_ <;> simp [hn, stringValue]
  | float n =>
    constructor
    · simp [prin1, prin1Atom, render, renderAtom, makeString]
    · intro t
      simp only [prin1Loop, prin1End, prin1Atom, renderTail, renderAtom, makeString]
      by_cases hn : lispObject.float n = inp.nil_ <;> simp [hn, stringValue]

theorem Print_render (lib : FloatLib) (inp : interpreter) (obj : lispObject) (h : Printable obj) :
    Print lib inp obj = .ret (render lib inp obj, none) := by
  unfold Print
  rw [(prin1_render lib inp obj h).1]
  simp [stringValue]

theorem Readable.printable (lib : FloatLib) (m : Machine) (v : lispObject)
    (h : Readable lib m v) : Printable v := by
  induction h with
  | integer n _ _ => exact .integer n
  | string_ s _ => exact .string_ s
  | symbol s _ _ _ _ => exact .symbol s
  | cons a d _ _ iha ihd => exact .cons a d iha ihd

theorem makeChain_snoc (elts : List lispObject) (a d : lispObject) :
    makeChain (elts ++ [a]) d = makeChain elts (.cons a d) := by
  simp [makeChain, makeCons]

theorem renderTail_atom (lib : FloatLib) (inp : interpreter) (v : lispObject)
    (hc : ∀ a d, v ≠ .cons a d) :
    renderTail lib inp v =
      if v ≠ inp.nil_ then ' ' :: '.' :: ' ' :: renderAtom lib v ++ [')'] else [')'] := by
  cases v with
  | cons a d => exact absurd rfl (hc a d)
  | _ => rw [renderTail]; intro a d hh; cases hh

theorem render_atom (lib : FloatLib) (inp : interpreter) (v : lispObject)
    (hc : ∀ a d, v ≠ .cons a d) : render lib inp v = renderAtom lib v := by
  cases v with
  | cons a d => exact absurd rfl (hc a d)
  | _ => rw [render]; intro a d hh; cases hh

theorem atomEnd_renderTail (lib : FloatLib) (inp : interpreter) (d : lispObject)
    (rest : List Char) : atomEnd (peekRune (renderTail lib inp d ++ rest)) := by
  by_cases hc : ∀ a b, d ≠ .cons a b
  · rw [renderTail_atom lib inp d hc]
    split
    · exact atomEnd_space _
    · exact atomEnd_close _
  · push_neg at hc
    obtain ⟨a, b, rfl⟩ := hc
    rw [renderTail]
    exact atomEnd_space _

theorem intern_of_lookup (m : Machine) (s : lispSymbol)
    (h : m.inp.obarray.lookup s.name = some s) : intern m s.name = (s, m) := by
  simp [intern, h]

/-- The tail of a list whose last cdr is not a cons is read back. -/
theorem readList_renderTail_atom (lib : FloatLib) (m : Machine) (v : lispObject)
    (hc : ∀ a d, v ≠ .cons a d) (hP : Reads lib m (renderAtom lib v) v m)
    (elts : List lispObject) (pre rest : List Char) (fuel : Nat) (hne : elts ≠ [])
    (hf : 2 * ((renderTail lib m.inp v).length + rest.length) + 2 ≤ fuel) :
    readList lib fuel m (ctxAt pre (renderTail lib m.inp v ++ rest)) elts =
      .ret ((makeChain elts v, none), m, ctxAt (pre ++ renderTail lib m.inp v) rest) := by
  rw [renderTail_atom lib m.inp v hc] at hf ⊢
  by_cases hn : v = m.inp.nil_
  · simp only [hn, ne_eq, not_true_eq_false, if_false] at hf ⊢
    obtain ⟨fuel, rfl⟩ : ∃ f, fuel = f + 2 := ⟨fuel - 2, by simp at hf; omega⟩
    simpa using readList_close lib m pre rest elts fuel
  · simp only [hn, ne_eq, not_false_eq_true, if_true] at hf ⊢
    have := readList_dot lib m m (renderAtom lib v) v hP pre rest elts fuel hne
      (by simp at hf; omega)
    simpa using this

theorem Reads_render_aux (lib : FloatLib) (m : Machine) (v : lispObject)
    (h : Readable lib m v) :
    Reads lib m (render lib m.inp v) v m ∧
    ∀ (elts : List lispObject) (pre rest : List Char) (fuel : Nat), elts ≠ [] →
      2 * ((renderTail lib m.inp v).length + rest.length) + 2 ≤ fuel →
      readList lib fuel m (ctxAt pre (renderTail lib m.inp v ++ rest)) elts =
        .ret ((makeChain elts v, none), m, ctxAt (pre ++ renderTail lib m.inp v) rest) := by
  induction h with
  | integer n hlo hhi =>
    have hP : Reads lib m (renderAtom lib (.integer n)) (.integer n) m :=
      Reads_formatInt lib m n hlo hhi
    refine ⟨by rw [render_atom lib m.inp _ (by intro a d hh; cases hh)]; exact hP,
      fun elts pre rest fuel hne hf => ?_⟩
    exact readList_renderTail_atom lib m _ (by intro a d hh; cases hh) hP elts pre rest fuel hne hf
  | string_ s hs =>
    have hP : Reads lib m (renderAtom lib (.string_ s)) (.string_ s) m := by
      simpa [renderAtom] using Reads_string lib m s hs
    refine ⟨by rw [render_atom lib m.inp _ (by intro a d hh; cases hh)]; exact hP,
      fun elts pre rest fuel hne hf => ?_⟩
    exact readList_renderTail_atom lib m _ (by intro a d hh; cases hh) hP elts pre rest fuel hne hf
  | symbol s hs hi hfl hl =>
    have hP : Reads lib m (renderAtom lib (.symbol s)) (.symbol s) m := by
      have := Reads_symbol lib m s.name hs hi hfl
      rw [intern_of_lookup m s hl] at this
      exact this
    refine ⟨by rw [render_atom lib m.inp _ (by intro a d hh; cases hh)]; exact hP,
      fun elts pre rest fuel hne hf => ?_⟩
    exact readList_renderTail_atom lib m _ (by intro a d hh; cases hh) hP elts pre rest fuel hne hf
  | cons a d _ _ iha ihd =>
    have hpos := Reads_length_pos lib m m _ a iha.1
    constructor
    · intro pre rest fuel _ hf
      rw [render] at hf ⊢
      simp only [List.length_cons, List.length_append] at hf
      obtain ⟨fuel, rfl⟩ : ∃ f, fuel = f + 2 := ⟨fuel - 2, by omega⟩
      have hA := readList_elem lib m m _ a iha.1 (pre ++ ['(']) (renderTail lib m.inp d ++ rest) []
        fuel (atomEnd_renderTail lib m.inp d rest) (by simp; omega)
      have hB := ihd.2 ([] ++ [a]) (pre ++ ['('] ++ render lib m.inp a) rest fuel (by simp)
        (by omega)
      simp only [List.cons_append, List.append_assoc, List.singleton_append, List.nil_append]
        at hA hB ⊢
      rw [show fuel + 2 = (fuel + 1) + 1 by omega, read1_open, hA, hB]
      simp [Run.bind, makeChain, makeCons]
    · intro elts pre rest fuel hne hf
      rw [renderTail] at hf ⊢
      simp only [List.length_cons, List.length_append] at hf
      obtain ⟨fuel, rfl⟩ : ∃ f, fuel = f + 1 := ⟨fuel - 1, by omega⟩
      have hA := readList_elem lib m m _ a (Reads_space lib m _ a m iha.1) pre
        (renderTail lib m.inp d ++ rest) elts fuel (atomEnd_renderTail lib m.inp d rest)
        (by simp; omega)
      have hB := ihd.2 (elts ++ [a]) (pre ++ ' ' :: render lib m.inp a) rest fuel (by simp)
        (by omega)
      simp only [List.cons_append, List.append_assoc, List.singleton_append, List.nil_append]
        at hA hB ⊢
      rw [hA, hB, makeChain_snoc]

/-- The reader reads the rendering of a readable object back as the object. -/
theorem Reads_render (lib : FloatLib) (m : Machine) (v : lispObject) (h : Readable lib m v) :
    Reads lib m (render lib m.inp v) v m :=
  (Reads_render_aux lib m v h).1

theorem freshMachine_nilInterned : freshMachine.nilInterned :=
  ⟨{ addr := 0, name := ['n', 'i', 'l'] }, rfl, rfl, rfl⟩

theorem intern_nilInterned (m : Machine) (name : GoString) (h : m.nilInterned) :
    (intern m name).2.nilInterned := by
  obtain ⟨s, hs, hn, hl⟩ := h
  unfold intern
  cases hlk : m.inp.obarray.lookup name with
  | some sym => exact ⟨s, hs, hn, hl⟩
  | none =>
    refine ⟨s, hs, hn, ?_⟩
    have hne : (['n', 'i', 'l'] == name) = false := by
      rw [beq_eq_false_iff_ne]
      intro e
      rw [← e, hl] at hlk
      cases hlk
    simp [makeSymbol, List.lookup, hne, hl]

theorem ParseFloat_nil (lib : FloatLib) : lib.ParseFloat ['n', 'i', 'l'] = none := by
  cases h : lib.ParseFloat ['n', 'i', 'l'] with
  | none => rfl
  | some f =>
    rcases lib.numeral _ f h with h1 | h1
    · exact absurd h1 (by decide)
    · exact absurd h1 (by decide)

theorem Readable_nil (lib : FloatLib) (m : Machine) (h : m.nilInterned) :
    Readable lib m m.inp.nil_ := by
  obtain ⟨s, hs, hn, hl⟩ := h
  rw [hn]
  refine .symbol s ?_ ?_ ?_ ?_
  · rw [hs]; decide
  · rw [hs]; decide
  · rw [hs]; exact ParseFloat_nil lib
  · rw [hs]; exact hl

theorem IntTree.readable (lib : FloatLib) (m : Machine) (hm : m.nilInterned) (v : lispObject)
    (h : IntTree m.inp v) : Readable lib m v := by
  induction h with
  | integer n hn => exact .integer n hn.1 hn.2
  | nil => exact Readable_nil lib m hm
  | cons a d _ _ iha ihd => exact .cons a d iha ihd

theorem renderTail_intChain (lib : FloatLib) (m : Machine) (hm : m.nilInterned) (ns : List Int) :
    renderTail lib m.inp (makeChain (ns.map lispObject.integer) m.inp.nil_) =
      joinElts (ns.map formatInt) ++ [')'] := by
  induction ns with
  | nil =>
    obtain ⟨s, _, hn, _⟩ := hm
    simp only [List.map_nil, makeChain, List.foldr_nil, joinElts, List.nil_append]
    rw [renderTail_atom lib m.inp _ (by rw [hn]; intro a d hh; cases hh)]
    simp
  | cons n ns ih =>
    simp only [makeChain, makeCons, List.map_cons, List.foldr_cons, joinElts] at ih ⊢
    rw [renderTail, ih, render_atom lib m.inp _ (by intro a d hh; cases hh)]
    simp [renderAtom]

theorem IntTree_intChain (inp : interpreter) (ns : List Int) (h : ∀ n ∈ ns, inInt64 n) :
    IntTree inp (makeChain (ns.map lispObject.integer) inp.nil_) := by
  induction ns with
  | nil => exact .nil
  | cons n ns ih =>
    exact .cons _ _ (.integer n (h n (by simp))) (ih (fun k hk => h k (by simp [hk])))

theorem Readable_roundtrip (lib : FloatLib) (m : Machine) (v : lispObject)
    (hr : Readable lib m v) :
    Print lib m.inp v = .ret (render lib m.inp v, none) ∧
    ReadString lib m (render lib m.inp v) = .ret ((v, none), m) :=
  ⟨Print_render lib m.inp v (hr.printable), ReadString_of_Reads lib m m _ v
    (Reads_render lib m v hr)⟩

/-- C3: on the objects built from integers, the canonical nil and cons cells, `Print`
succeeds and `ReadString` of the printed text returns the object, the machine unchanged. -/
theorem reader_inverts_printer (lib : FloatLib) (m : Machine) (hm : m.nilInterned)
    (v : lispObject) (hv : IntTree m.inp v) :
    Print lib m.inp v = .ret (render lib m.inp v, none) ∧
    ReadString lib m (render lib m.inp v) = .ret ((v, none), m) := by
  exact Readable_roundtrip lib m v (IntTree.readable lib m hm v hv)

theorem reader_inverts_printer_witness :
    freshMachine.nilInterned ∧
    IntTree freshMachine.inp (.cons (.cons (.integer 1) (.integer (-2))) freshMachine.inp.nil_) ∧
    Print noFloats freshMachine.inp
        (.cons (.cons (.integer 1) (.integer (-2))) freshMachine.inp.nil_) =
      .ret ("((1 . -2))".toList, none) ∧
    ReadString noFloats freshMachine "((1 . -2))".toList =
      .ret ((.cons (.cons (.integer 1) (.integer (-2))) freshMachine.inp.nil_, none),
        freshMachine) := by
  have ht : IntTree freshMachine.inp
      (.cons (.cons (.integer 1) (.integer (-2))) freshMachine.inp.nil_) :=
    .cons _ _ (.cons _ _ (.integer 1 (by decide)) (.integer (-2) (by decide))) .nil
  have h := reader_inverts_printer noFloats freshMachine freshMachine_nilInterned _ ht
  have e : render noFloats freshMachine.inp
      (.cons (.cons (.integer 1) (.integer (-2))) freshMachine.inp.nil_) =
        "((1 . -2))".toList := by decide
  rw [e] at h
  exact ⟨freshMachine_nilInterned, ht, h.1, h.2⟩

/-- C4: the text of a non-empty list of 64-bit integers, a space between them, in
parentheses, reads as the chain of the integers in order ending in the canonical nil, and
that chain prints as the text. -/
theorem read_integer_list (lib : FloatLib) (m : Machine) (hm : m.nilInterned) (n1 : Int)
    (ns : List Int) (h : ∀ n ∈ n1 :: ns, inInt64 n) :
    ReadString lib m ('(' :: formatInt n1 ++ joinElts (ns.map formatInt) ++ [')']) =
      .ret ((makeChain ((n1 :: ns).map lispObject.integer) m.inp.nil_, none), m) ∧
    Print lib m.inp (makeChain ((n1 :: ns).map lispObject.integer) m.inp.nil_) =
      .ret ('(' :: formatInt n1 ++ joinElts (ns.map formatInt) ++ [')'], none) := by
  have ht := IntTree_intChain m.inp (n1 :: ns) h
  have hr : render lib m.inp (makeChain ((n1 :: ns).map lispObject.integer) m.inp.nil_) =
      '(' :: formatInt n1 ++ joinElts (ns.map formatInt) ++ [')'] := by
    have := renderTail_intChain lib m hm ns
    simp only [makeChain, makeCons, List.map_cons, List.foldr_cons] at this ⊢
    rw [render, this, render_atom lib m.inp _ (by intro a d hh; cases hh)]
    simp [renderAtom]
  have := Readable_roundtrip lib m _ (IntTree.readable lib m hm _ ht)
  rw [hr] at this
  exact ⟨this.2, this.1⟩

theorem read_integer_list_witness :
    freshMachine.nilInterned ∧ (∀ n ∈ [(1 : Int), 2, 3], inInt64 n) ∧
    ReadString noFloats freshMachine "(1 2 3)".toList =
      .ret ((.cons (.integer 1) (.cons (.integer 2) (.cons (.integer 3) freshMachine.inp.nil_)),
        none), freshMachine) ∧
    Print noFloats freshMachine.inp
        (.cons (.integer 1) (.cons (.integer 2) (.cons (.integer 3) freshMachine.inp.nil_))) =
      .ret ("(1 2 3)".toList, none) := by
  have hr : ∀ n ∈ [(1 : Int), 2, 3], inInt64 n := by decide
  have h := read_integer_list noFloats freshMachine freshMachine_nilInterned 1 [2, 3] hr
  have e : '(' :: formatInt 1 ++ joinElts ([2, 3].map formatInt) ++ [')'] = "(1 2 3)".toList := by
    decide
  rw [e] at h
  exact ⟨freshMachine_nilInterned, hr, h.1, h.2⟩

/-- C5: the text of two 64-bit integers with a dot between spaces, in parentheses, reads as
one cons cell with the first as car and the second as cdr, and that cell prints as the
text. -/
theorem read_dotted_pair (lib : FloatLib) (m : Machine) (hm : m.nilInterned) (a b : Int)
    (ha : inInt64 a) (hb : inInt64 b) :
    ReadString lib m ('(' :: formatInt a ++ ' ' :: '.' :: ' ' :: formatInt b ++ [')']) =
      .ret ((.cons (.integer a) (.integer b), none), m) ∧
    Print lib m.inp (.cons (.integer a) (.integer b)) =
      .ret ('(' :: formatInt a ++ ' ' :: '.' :: ' ' :: formatInt b ++ [')'], none) := by
  have ht : IntTree m.inp (.cons (.integer a) (.integer b)) :=
    .cons _ _ (.integer a ha) (.integer b hb)
  have hne : lispObject.integer b ≠ m.inp.nil_ := by
    obtain ⟨s, _, hn, _⟩ := hm
    rw [hn]; intro hh; cases hh
  have hr : render lib m.inp (.cons (.integer a) (.integer b)) =
      '(' :: formatInt a ++ ' ' :: '.' :: ' ' :: formatInt b ++ [')'] := by
    rw [render, renderTail_atom lib m.inp _ (by intro x d hh; cases hh),
      render_atom lib m.inp _ (by intro x d hh; cases hh)]
    simp [renderAtom, hne]
  have := Readable_roundtrip lib m _ (IntTree.readable lib m hm _ ht)
  rw [hr] at this
  exact ⟨this.2, this.1⟩

theorem read_dotted_pair_witness :
    freshMachine.nilInterned ∧ inInt64 1 ∧ inInt64 2 ∧
    ReadString noFloats freshMachine "(1 . 2)".toList =
      .ret ((.cons (.integer 1) (.integer 2), none), freshMachine) ∧
    Print noFloats freshMachine.inp (.cons (.integer 1) (.integer 2)) =
      .ret ("(1 . 2)".toList, none) := by
  have h := read_dotted_pair noFloats freshMachine freshMachine_nilInterned 1 2 (by decide)
    (by decide)
  have e : '(' :: formatInt 1 ++ ' ' :: '.' :: ' ' :: formatInt 2 ++ [')'] = "(1 . 2)".toList := by
    decide
  rw [e] at h
  exact ⟨freshMachine_nilInterned, by decide, by decide, h.1, h.2⟩

/-- C8: a string literal that is not closed (an opening double quote, then a text without a
double quote and without a backslash, then the end of the input) makes `ReadString` return
the error `eof reading string` and the nil object; the run does not panic. -/
theorem unterminated_string (lib : FloatLib) (m : Machine) (s : List Char) (h : plainString s) :
    ReadString lib m (Char.ofNat 34 :: s) = .ret ((.null, some "eof reading string"), m) := by
  have hq : ((Char.ofNat 34).toNat : Int) = 34 := rfl
  have hl := readStringLoop_plain s [] [Char.ofNat 34] [] (2 * s.length + 2) h
    (Or.inl rfl) (by omega)
  have h1 : read1 lib ((2 * s.length + 2) + 1) m (ctxAt [] (Char.ofNat 34 :: s)) =
      .ret ((.null, eofRune, some "eof reading string"), m, ctxAt (Char.ofNat 34 :: s) []) := by
    rw [read1]
    simp only [read_ctxAt_cons, hq, Run.ret_bind, List.nil_append]
    simp only [List.append_nil] at hl
    rw [hl]
    simp [eofRune, peekRune, afterRead]
  have h0 : read0 lib ((2 * s.length + 2 + 1) + 1) m (ctxAt [] (Char.ofNat 34 :: s)) =
      .ret ((.null, some "eof reading string"), m, ctxAt (Char.ofNat 34 :: s) []) := by
    rw [read0, h1]
    simp
  simp only [ReadString, List.length_cons]
  rw [show 2 * (s.length + 1) + 2 = (2 * s.length + 2 + 1) + 1 by omega]
  simp only [ctxAt, List.nil_append, List.length_nil] at h0
  rw [h0]
  rfl

theorem unterminated_string_witness :
    plainString "abc".toList ∧
    ReadString noFloats freshMachine (Char.ofNat 34 :: "abc".toList) =
      .ret ((.null, some "eof reading string"), freshMachine) :=
  ⟨by decide, unterminated_string noFloats freshMachine "abc".toList (by decide)⟩

theorem readEscapeOctal_digits (left : Nat) :
    ∀ (ds : List Char) (num : Int) (pre rest : List Char), (∀ ch ∈ ds, octalDigit ch) →
      ds.length ≤ left →
      (ds.length = left ∨ ¬ (48 ≤ peekRune rest ∧ peekRune rest ≤ 55)) →
      readEscapeOctal left num (ctxAt pre (ds ++ rest)) =
        .ret (octalFrom num ds, ctxAt (pre ++ ds) rest) := by
  induction left with
  | zero =>
    intro ds num pre rest _ hl _
    have : ds = [] := List.eq_nil_of_length_eq_zero (by omega)
    subst this
    simp [readEscapeOctal, octalFrom]
  | succ left ih =>
    intro ds num pre rest hd hl hend
    cases ds with
    | nil =>
      have hno : ¬ (48 ≤ peekRune rest ∧ peekRune rest ≤ 55) := by
        rcases hend with h | h
        · simp at h
        · exact h
      simp [readEscapeOctal, read_ctxAt, hno, unread_afterRead, octalFrom]
    | cons a ds =>
      have ha := hd a (by simp)
      have ha' : 48 ≤ (a.toNat : Int) ∧ (a.toNat : Int) ≤ 55 := by
        unfold octalDigit at ha; omega
      have := ih ds (num * 8 + ((a.toNat : Int) - 48)) (pre ++ [a]) rest
        (fun ch hch => hd ch (by simp [hch])) (by simp at hl; omega)
        (by rcases hend with h | h
            · left; simp at h; omega
            · right; exact h)
      simp only [List.cons_append, readEscapeOctal, read_ctxAt_cons, Run.ret_bind, ha', and_self,
        if_true, this, octalFrom, List.foldl_cons, List.append_assoc, List.singleton_append,
        List.nil_append]

theorem readEscape_octal (a : Char) (ha : octalDigit a) (pre t : List Char) (stringp : Bool) :
    readEscape (ctxAt pre (a :: t)) stringp =
      (readEscapeOctal 2 ((a.toNat : Int) - 48) (ctxAt (pre ++ [a]) t)).bind (fun r =>
        .ret ((if 0x80 ≤ r.1 ∧ r.1 < 0x100 then byte8toChar r.1 else r.1, none), r.2)) := by
  unfold octalDigit at ha
  obtain ⟨h1, h2⟩ := ha
  unfold readEscape
  simp only [read_ctxAt_cons, Run.ret_bind]
  interval_cases h : a.toNat <;> simp [eofRune] <;> rfl

theorem charEnd_not_octal (c : Int) (h : charEnd c) : ¬ (48 ≤ c ∧ c ≤ 55) := by
  unfold charEnd at h
  simp only [charSpecial, List.mem_cons, List.mem_singleton, List.not_mem_nil, or_false] at h
  omega

theorem readCharLiteral_octal (d rest pre : List Char) (hd : ∀ ch ∈ d, octalDigit ch)
    (h1 : 1 ≤ d.length) (h3 : d.length ≤ 3) (hv : octalValue d < 128)
    (hend : charEnd (peekRune rest)) :
    readCharLiteral (ctxAt pre (Char.ofNat 92 :: d ++ rest)) =
      .ret ((.integer (octalValue d), 0, none), ctxAt (pre ++ Char.ofNat 92 :: d) rest) := by
  cases d with
  | nil => simp at h1
  | cons a ds =>
    have hb : ((Char.ofNat 92).toNat : Int) = 92 := rfl
    have hoct := readEscapeOctal_digits 2 ds ((a.toNat : Int) - 48) (pre ++ [Char.ofNat 92] ++ [a])
      rest (fun ch hch => hd ch (by simp [hch])) (by simp at h3; omega)
      (Or.inr (charEnd_not_octal _ hend))
    have hval : octalFrom ((a.toNat : Int) - 48) ds = octalValue (a :: ds) := by
      simp [octalValue, octalFrom]
    rw [hval] at hoct
    have hnb : charByte8 (octalValue (a :: ds)) = false := by
      unfold charByte8 max5ByteChar
      simp only [decide_eq_false_iff_not]
      omega
    have hn80 : ¬ (0x80 ≤ octalValue (a :: ds) ∧ octalValue (a :: ds) < 0x100) := by omega
    unfold charEnd at hend
    unfold readCharLiteral
    simp only [List.cons_append, read_ctxAt_cons, hb, Run.ret_bind]
    simp only [readEscape_octal a (hd a (by simp)), hoct, Run.bind, hn80, if_false]
    simp [eofRune, hnb, read_ctxAt, unread_afterRead, hend, makeInteger]

/-- C7: a question mark, a backslash and one to three octal digits of value below 0x80,
followed by the end of the input or by a legal terminator, read as the integer of that
value. -/
theorem octal_character_literal (lib : FloatLib) (m : Machine) (d rest : List Char)
    (hd : ∀ ch ∈ d, octalDigit ch) (h1 : 1 ≤ d.length) (h3 : d.length ≤ 3)
    (hv : octalValue d < 0x80) (hend : charEnd (peekRune rest)) :
    ReadString lib m ('?' :: Char.ofNat 92 :: d ++ rest) =
      .ret ((.integer (octalValue d), none), m) := by
  have hq : (('?' : Char).toNat : Int) = 63 := rfl
  have hc := readCharLiteral_octal d rest ['?'] hd h1 h3 hv hend
  have h1 : ∀ fuel, read1 lib (fuel + 1) m (ctxAt [] ('?' :: Char.ofNat 92 :: d ++ rest)) =
      .ret ((.integer (octalValue d), 0, none), m, ctxAt ('?' :: Char.ofNat 92 :: d) rest) := by
    intro fuel
    rw [read1]
    simp only [List.cons_append, read_ctxAt_cons, hq, Run.ret_bind, List.nil_append] at hc ⊢
    simp [eofRune, hc]
  have h0 : ∀ fuel, read0 lib (fuel + 2) m (ctxAt [] ('?' :: Char.ofNat 92 :: d ++ rest)) =
      .ret ((.integer (octalValue d), none), m, ctxAt ('?' :: Char.ofNat 92 :: d) rest) := by
    intro fuel
    rw [read0, h1]
    simp
  simp only [ReadString]
  have := h0 (2 * ('?' :: Char.ofNat 92 :: d ++ rest).length)
  simp only [ctxAt, List.nil_append, List.length_nil] at this
  rw [this]
  rfl

theorem octal_character_literal_witness :
    (∀ ch ∈ "101".toList, octalDigit ch) ∧ octalValue "101".toList = 65 ∧
    charEnd (peekRune []) ∧
    ReadString noFloats freshMachine ('?' :: Char.ofNat 92 :: "101".toList ++ []) =
      .ret ((.integer 65, none), freshMachine) := by
  have h := octal_character_literal noFloats freshMachine "101".toList [] (by decide)
    (by decide) (by decide) (by decide) (by decide)
  have e : octalValue "101".toList = 65 := by decide
  rw [e] at h
  exact ⟨by decide, e, by decide, h⟩

theorem freshMachine_tableNamed : freshMachine.tableNamed := by
  intro k s h
  have e : freshMachine.inp.obarray =
      [(['t'], { addr := 1, name := ['t'] }), (['n', 'i', 'l'], { addr := 0, name := ['n', 'i', 'l'] })] :=
    rfl
  rw [e] at h
  simp only [List.lookup] at h
  split at h
  · cases h; rename_i hk; exact (show k = _ by simpa using hk).symm
  · split at h
    · cases h; rename_i hk; exact (show k = _ by simpa using hk).symm
    · cases h

theorem intern_name (m : Machine) (a : GoString) (h : m.tableNamed) : (intern m a).1.name = a := by
  unfold intern
  cases hl : m.inp.obarray.lookup a with
  | some s => exact h a s hl
  | none => rfl

theorem intern_tableNamed (m : Machine) (a : GoString) (h : m.tableNamed) :
    (intern m a).2.tableNamed := by
  unfold intern
  cases hl : m.inp.obarray.lookup a with
  | some s => exact h
  | none =>
    intro k s hk
    simp only [makeSymbol, List.lookup] at hk
    split at hk
    · cases hk; rename_i hka; exact (show k = _ by simpa using hka).symm
    · exact h k s hk

/-- C9 (amended): an unescaped atom text that does not start with a question mark, is not
a dot taken for the dotted-pair marker, and is accepted neither by the integer parse nor by
the double parse reads as the symbol the table holds under that text, whose name is the
text; and the decimal text of a 64-bit integer reads as that integer. -/
theorem atom_symbol_or_integer (lib : FloatLib) (m : Machine) (a : List Char) (n : Int)
    (ht : m.tableNamed) (ha : plainAtom a) (hi : strconv.ParseInt a = none)
    (hfl : lib.ParseFloat a = none) (hn : inInt64 n) :
    (ReadString lib m a = .ret ((.symbol (intern m a).1, none), (intern m a).2) ∧
      (intern m a).2.inp.obarray.lookup a = some (intern m a).1 ∧ (intern m a).1.name = a) ∧
    ReadString lib m (formatInt n) = .ret ((.integer n, none), m) :=
  ⟨⟨ReadString_of_Reads lib m _ a _ (Reads_symbol lib m a ha hi hfl), intern_lookup m a,
    intern_name m a ht⟩,
   ReadString_of_Reads lib m m _ _ (Reads_formatInt lib m n hn.1 hn.2)⟩

theorem atom_symbol_or_integer_witness :
    freshMachine.tableNamed ∧ plainAtom "123abc".toList ∧
    strconv.ParseInt "123abc".toList = none ∧ noFloats.ParseFloat "123abc".toList = none ∧
    inInt64 (-9223372036854775808) ∧
    ReadString noFloats freshMachine "123abc".toList =
      .ret ((.symbol { addr := 2, name := "123abc".toList }, none),
        (intern freshMachine "123abc".toList).2) ∧
    ReadString noFloats freshMachine "-9223372036854775808".toList =
      .ret ((.integer (-9223372036854775808), none), freshMachine) := by
  have h := atom_symbol_or_integer noFloats freshMachine "123abc".toList (-9223372036854775808)
    freshMachine_tableNamed (by decide) (by decide) rfl (by decide)
  have e1 : (intern freshMachine "123abc".toList).1 = { addr := 2, name := "123abc".toList } := by
    decide
  have e2 : formatInt (-9223372036854775808) = "-9223372036854775808".toList := by decide
  rw [e1, e2] at h
  exact ⟨freshMachine_tableNamed, by decide, by decide, rfl, by decide, h.1.1, h.2⟩

/-- C9 as stated fails: the text `?ab` has no whitespace, no delimiter and no backslash and
is no number, and `ReadString` returns the error of a malformed character literal. -/
theorem atom_symbol_counterexample :
    unescapedAtom "?ab".toList ∧ strconv.ParseInt "?ab".toList = none ∧
    noFloats.ParseFloat "?ab".toList = none ∧
    ReadString noFloats freshMachine "?ab".toList =
      .ret ((.null, some "invalid syntax for '?'"), freshMachine) := by
  refine ⟨by decide, by decide, rfl, by decide⟩

@[simp] theorem View.ctx_get (c : readContext) : View.ctx.get c = c := rfl

@[simp] theorem View.ctx_set (b c : readContext) : View.ctx.set b c = c := rfl

@[simp] theorem View.ctx_isErr (c : readContext) : View.ctx.isErr c = True := rfl

@[simp] theorem View.val_get {α : Type} (e : α → Prop) (b : α × readContext) :
    (View.val e).get b = b.2 := rfl

@[simp] theorem View.val_set {α : Type} (e : α → Prop) (b : α × readContext) (c : readContext) :
    (View.val e).set b c = (b.1, c) := rfl

@[simp] theorem View.val_isErr {α : Type} (e : α → Prop) (b : α × readContext) :
    (View.val e).isErr b = e b.1 := rfl

@[simp] theorem View.mach_get {α : Type} (e : α → Prop) (b : α × Machine × readContext) :
    (View.mach e).get b = b.2.2 := rfl

@[simp] theorem View.mach_set {α : Type} (e : α → Prop) (b : α × Machine × readContext)
    (c : readContext) : (View.mach e).set b c = (b.1, b.2.1, c) := rfl

@[simp] theorem View.mach_isErr {α : Type} (e : α → Prop) (b : α × Machine × readContext) :
    (View.mach e).isErr b = e b.1 := rfl

theorem EndErr.rel {β : Type} (w : Window) (V : View β) (x x' : Run β) (h : EndErr w V x) :
    Rel w V x x' :=
  fun b hb => ⟨(h b hb).1, Or.inr (h b hb).2⟩

theorem Rel_ret {β : Type} (w : Window) (V : View β) (b : β) (h : w.ok (V.get b)) :
    Rel w V (.ret b) (.ret (V.set b (w.shift (V.get b)))) := by
  intro b' hb
  cases hb
  exact ⟨h, Or.inl rfl⟩

theorem EndErr_ret {β : Type} (w : Window) (V : View β) (b : β) (h : w.ok (V.get b))
    (he : (V.get b).i = w.s.length) (hr : V.isErr b) : EndErr w V (.ret b) := by
  intro b' hb
  cases hb
  exact ⟨h, he, hr⟩

theorem Rel_ite {β : Type} (w : Window) (V : View β) (c : Prop) [Decidable c]
    (a b a' b' : Run β) (ht : c → Rel w V a a') (hf : ¬ c → Rel w V b b') :
    Rel w V (if c then a else b) (if c then a' else b') := by
  by_cases h : c
  · rw [if_pos h, if_pos h]; exact ht h
  · rw [if_neg h, if_neg h]; exact hf h

theorem EndErr_ite {β : Type} (w : Window) (V : View β) (c : Prop) [Decidable c]
    (a b : Run β) (ht : c → EndErr w V a) (hf : ¬ c → EndErr w V b) :
    EndErr w V (if c then a else b) := by
  by_cases h : c
  · rw [if_pos h]; exact ht h
  · rw [if_neg h]; exact hf h

theorem bind_eq_ret {β γ : Type} (x : Run β) (k : β → Run γ) (c : γ) (h : (x >>= k) = .ret c) :
    ∃ b, x = .ret b ∧ k b = .ret c := by
  cases x with
  | ret b => exact ⟨b, rfl, h⟩
  | panic msg => cases h
  | outOfFuel => cases h

theorem Rel_bind {β γ : Type} (w : Window) (V : View β) (V' : View γ) (x x' : Run β)
    (k k' : β → Run γ) (hx : Rel w V x x')
    (hk : ∀ b, w.ok (V.get b) → Rel w V' (k b) (k' (V.set b (w.shift (V.get b)))))
    (he : ∀ b, w.ok (V.get b) → (V.get b).i = w.s.length → V.isErr b → EndErr w V' (k b)) :
    Rel w V' (x >>= k) (x' >>= k') := by
  intro c hc
  obtain ⟨b, hb, hkb⟩ := bind_eq_ret x k c hc
  obtain ⟨hok, h | h⟩ := hx b hb
  · have := hk b hok c hkb
    rw [h]
    exact this
  · have := he b hok h.1 h.2 c hkb
    exact ⟨this.1, Or.inr this.2⟩

theorem EndErr_bind {β γ : Type} (w : Window) (V : View β) (V' : View γ) (x : Run β)
    (k : β → Run γ) (hx : EndErr w V x)
    (he : ∀ b, w.ok (V.get b) → (V.get b).i = w.s.length → V.isErr b → EndErr w V' (k b)) :
    EndErr w V' (x >>= k) := by
  intro c hc
  obtain ⟨b, hb, hkb⟩ := bind_eq_ret x k c hc
  obtain ⟨hok, h1, h2⟩ := hx b hb
  exact he b hok h1 h2 c hkb

theorem read_eq (ctx : readContext) (h : ctx.i ≤ ctx.runes.length) :
    ctx.read = .ret (curRune ctx, advance ctx) := by
  unfold readContext.read curRune advance
  by_cases he : ctx.i = ctx.runes.length
  · simp [he]
  · have hlt : ctx.i < ctx.runes.length := by omega
    simp [he, List.getElem?_eq_getElem hlt]

theorem unread_advance (ctx : readContext) (h : ctx.i ≤ ctx.runes.length) :
    (advance ctx).unread (curRune ctx) = .ret ctx := by
  unfold readContext.unread curRune advance
  by_cases he : ctx.i = ctx.runes.length
  · simp [he]
  · have hlt : ctx.i < ctx.runes.length := by omega
    simp [he, List.getElem?_eq_getElem hlt, eofRune]

theorem Window.ok_advance (w : Window) (ctx : readContext) (h : w.ok ctx) : w.ok (advance ctx) := by
  obtain ⟨h1, h2⟩ := h
  unfold advance
  by_cases he : ctx.i = ctx.runes.length
  · simp [he, Window.ok, h1]
  · rw [h1] at he
    have : ctx.i + 1 ≤ w.s.length := by omega
    simp only [he, if_false, Window.ok, h1, true_and]
    exact this

theorem curRune_eof_iff (w : Window) (ctx : readContext) (h : w.ok ctx) :
    curRune ctx = eofRune ↔ ctx.i = w.s.length := by
  obtain ⟨h1, h2⟩ := h
  unfold curRune
  by_cases he : ctx.i = w.s.length
  · simp [he, h1]
  · have hlt : ctx.i < ctx.runes.length := by rw [h1]; omega
    simp only [List.get?_eq_getElem?, List.getElem?_eq_getElem hlt, he, iff_false]
    exact toNat_ne_eof _

theorem Window.shift_le (w : Window) (ctx : readContext) (h : w.ok ctx) :
    (w.shift ctx).i ≤ (w.shift ctx).runes.length := by
  obtain ⟨h1, h2⟩ := h
  simp [Window.shift]
  omega

theorem curRune_shift (w : Window) (ctx : readContext) (h : w.ok ctx)
    (hlt : ctx.i ≠ w.s.length) : curRune (w.shift ctx) = curRune ctx := by
  obtain ⟨h1, h2⟩ := h
  have hl : ctx.i < w.s.length := by omega
  unfold curRune Window.shift
  simp only [List.get?_eq_getElem?, h1]
  rw [List.append_assoc, List.getElem?_append_right (by omega)]
  simp [List.getElem?_append_left hl]

theorem advance_shift (w : Window) (ctx : readContext) (h : w.ok ctx)
    (hlt : ctx.i ≠ w.s.length) : advance (w.shift ctx) = w.shift (advance ctx) := by
  obtain ⟨h1, h2⟩ := h
  have hl : ctx.i < w.s.length := by omega
  unfold advance Window.shift
  have e1 : ¬ (w.p.length + ctx.i = (w.p ++ w.s ++ w.ext).length) := by simp; omega
  have e2 : ¬ (ctx.i = ctx.runes.length) := by rw [h1]; omega
  simp only [e1, e2, if_false]
  rfl

theorem curRune_shift_end (w : Window) (ctx : readContext) (hi : ctx.i = w.s.length) :
    curRune (w.shift ctx) = peekRune w.ext := by
  unfold curRune Window.shift
  simp only [List.get?_eq_getElem?, hi]
  rw [List.getElem?_append_right (by simp)]
  cases w.ext with
  | nil => simp [peekRune]
  | cons c r => simp [peekRune]

theorem Rel_read_bind {γ : Type} (w : Window) (V' : View γ) (ctx : readContext)
    (k k' : Int × readContext → Run γ) (hok : w.ok ctx)
    (heof : ∀ ctx1, w.ok ctx1 → ctx1.i = w.s.length → EndErr w V' (k (eofRune, ctx1)))
    (hk : ∀ c ctx1, c ≠ eofRune → w.ok ctx1 → Rel w V' (k (c, ctx1)) (k' (c, w.shift ctx1))) :
    Rel w V' (ctx.read >>= k) ((w.shift ctx).read >>= k') := by
  have hle : ctx.i ≤ ctx.runes.length := by rw [hok.1]; exact hok.2
  rw [read_eq ctx hle, read_eq _ (w.shift_le ctx hok)]
  simp only [Run.ret_bind]
  by_cases he : ctx.i = w.s.length
  · have hc := (curRune_eof_iff w ctx hok).2 he
    have ha : advance ctx = ctx := by simp [advance, he, hok.1]
    rw [hc, ha]
    exact EndErr.rel w V' _ _ (heof ctx hok he)
  · have hc : curRune ctx ≠ eofRune := fun h => he ((curRune_eof_iff w ctx hok).1 h)
    rw [curRune_shift w ctx hok he, advance_shift w ctx hok he]
    exact hk _ _ hc (w.ok_advance ctx hok)

theorem readEscapeOctal_rel (w : Window) (hw : w.extOk) (left : Nat) :
    ∀ (num : Int) (ctx : readContext), w.ok ctx →
      Rel w (View.val (fun _ => False)) (readEscapeOctal left num ctx)
        (readEscapeOctal left num (w.shift ctx)) := by
  induction left with
  | zero =>
    intro num ctx hok
    simp only [readEscapeOctal]
    exact Rel_ret w (View.val _) (num, ctx) hok
  | succ left ih =>
    intro num ctx hok
    have hle : ctx.i ≤ ctx.runes.length := by rw [hok.1]; exact hok.2
    simp only [readEscapeOctal]
    rw [read_eq ctx hle, read_eq _ (w.shift_le ctx hok)]
    simp only [Run.ret_bind]
    by_cases he : ctx.i = w.s.length
    · have hc := (curRune_eof_iff w ctx hok).2 he
      have hc' := curRune_shift_end w ctx he
      have h1 : ¬ (48 ≤ curRune ctx ∧ curRune ctx ≤ 55) := by rw [hc]; decide
      have h2 : ¬ (48 ≤ curRune (w.shift ctx) ∧ curRune (w.shift ctx) ≤ 55) := by
        rw [hc']; unfold Window.extOk at hw; omega
      simp only [h1, h2, if_false, unread_advance ctx hle,
        unread_advance _ (w.shift_le ctx hok), Run.ret_bind, Run.pure_eq]
      exact Rel_ret w (View.val _) (num, ctx) hok
    · rw [curRune_shift w ctx hok he, advance_shift w ctx hok he]
      by_cases hoct : 48 ≤ curRune ctx ∧ curRune ctx ≤ 55
      · simp only [hoct, and_self, if_true]
        exact ih _ _ (w.ok_advance ctx hok)
      · have hu := unread_advance _ (w.shift_le ctx hok)
        rw [curRune_shift w ctx hok he, advance_shift w ctx hok he] at hu
        simp only [hoct, if_false, unread_advance ctx hle, hu, Run.ret_bind, Run.pure_eq]
        exact Rel_ret w (View.val _) (num, ctx) hok

theorem readEscape_rel (w : Window) (hw : w.extOk) (stringp : Bool) (ctx : readContext)
    (hok : w.ok ctx) :
    Rel w (View.val (fun r : Int × error => r.2 ≠ none)) (readEscape ctx stringp)
      (readEscape (w.shift ctx) stringp) := by
  unfold readEscape
  apply Rel_read_bind w _ ctx _ _ hok
  · intro ctx1 h1 he
    simp only [if_true]
    exact EndErr_ret w (View.val _) ((0, some "eof"), ctx1) h1 he (by simp)
  · intro c ctx1 hc h1
    dsimp only
    rw [if_neg hc, if_neg hc]
    repeat' (apply Rel_ite w <;> intro)
    all_goals first
      | exact Rel_ret w (View.val _) (_, ctx1) h1
      | skip
    · apply Rel_bind w (View.val (fun _ => False)) _ _ _ _ _
        (readEscapeOctal_rel w hw 2 (c - 48) ctx1 h1)
      · intro b hb
        exact Rel_ret w (View.val _) (_, b.2) hb
      · intro b _ _ hf
        exact absurd hf (by simp [View.val])

theorem Rel_outOfFuel {β : Type} (w : Window) (V : View β) (x' : Run β) :
    Rel w V .outOfFuel x' := by
  intro b hb; cases hb

theorem skipComment_rel (w : Window) (F : Nat) :
    ∀ (F' : Nat), F ≤ F' → ∀ (ctx : readContext), w.ok ctx →
      Rel w View.ctx (skipComment F ctx) (skipComment F' (w.shift ctx)) := by
  induction F with
  | zero => intro F' _ ctx _; exact Rel_outOfFuel w _ _
  | succ F ih =>
    intro F' hF ctx hok
    obtain ⟨F', rfl⟩ : ∃ f, F' = f + 1 := ⟨F' - 1, by omega⟩
    simp only [skipComment]
    apply Rel_read_bind w _ ctx _ _ hok
    · intro ctx1 h1 he
      dsimp only
      rw [if_pos (Or.inl rfl)]
      exact EndErr_ret w View.ctx ctx1 h1 he trivial
    · intro c ctx1 _ h1
      dsimp only
      apply Rel_ite w <;> intro
      · exact Rel_ret w View.ctx ctx1 h1
      · exact ih F' (by omega) ctx1 h1

theorem readStringLoop_rel (w : Window) (hw : w.extOk) (F : Nat) :
    ∀ (F' : Nat), F ≤ F' → ∀ (builder : GoString) (ctx : readContext), w.ok ctx →
      Rel w (View.val failedString) (readStringLoop F builder ctx)
        (readStringLoop F' builder (w.shift ctx)) := by
  induction F with
  | zero => intro F' _ builder ctx _; exact Rel_outOfFuel w _ _
  | succ F ih =>
    intro F' hF builder ctx hok
    obtain ⟨F', rfl⟩ : ∃ f, F' = f + 1 := ⟨F' - 1, by omega⟩
    simp only [readStringLoop]
    apply Rel_read_bind w _ ctx _ _ hok
    · intro ctx1 h1 he
      dsimp only
      rw [if_pos (Or.inl rfl)]
      exact EndErr_ret w (View.val _) ((eofRune, builder, none), ctx1) h1 he (Or.inr rfl)
    · intro c ctx1 _ h1
      dsimp only
      apply Rel_ite w <;> intro
      · exact Rel_ret w (View.val _) ((c, builder, none), ctx1) h1
      · apply Rel_ite w <;> intro
        · apply Rel_bind w (View.val (fun r : Int × error => r.2 ≠ none)) _ _ _ _ _
            (readEscape_rel w hw true ctx1 h1)
          · intro b hb
            dsimp only
            apply Rel_ite w <;> intro
            · exact Rel_ret w (View.val _) ((b.1.1, builder, b.1.2), b.2) hb
            · apply Rel_ite w <;> intro
              · exact ih F' (by omega) _ _ hb
              · exact ih F' (by omega) _ _ hb
          · intro b hb he hf
            dsimp only
            simp only [View.val_isErr] at hf
            rw [if_pos hf]
            exact EndErr_ret w (View.val _) ((b.1.1, builder, b.1.2), b.2) hb he (Or.inl hf)
        · exact ih F' (by omega) _ _ h1

/-- The runes under the cursor in the input and in the longer input: the same rune, or the
end of the input and whitespace. -/
theorem curRune_cases (w : Window) (hw : w.extOk) (ctx : readContext) (hok : w.ok ctx) :
    curRune (w.shift ctx) = curRune ctx ∨
      (curRune ctx = eofRune ∧ curRune (w.shift ctx) ≤ 32) := by
  by_cases he : ctx.i = w.s.length
  · right
    exact ⟨(curRune_eof_iff w ctx hok).2 he, by rw [curRune_shift_end w ctx he]; exact hw⟩
  · left
    exact curRune_shift w ctx hok he

theorem readCharLiteral_rel (w : Window) (hw : w.extOk) (ctx : readContext) (hok : w.ok ctx) :
    Rel w (View.val failed1) (readCharLiteral ctx) (readCharLiteral (w.shift ctx)) := by
  unfold readCharLiteral
  apply Rel_read_bind w _ ctx _ _ hok
  · intro ctx1 h1 he
    dsimp only
    rw [if_pos rfl]
    exact EndErr_ret w (View.val failed1)
      ((lispObject.null, 0, some "eof reading character"), ctx1) h1 he ⟨by simp, by simp⟩
  · intro c ctx1 hc h1
    dsimp only
    rw [if_neg hc, if_neg hc]
    apply Rel_ite w <;> intro
    · exact Rel_ret w (View.val failed1) ((makeInteger c, 0, none), ctx1) h1
    · apply Rel_bind w (View.val (fun r : Int × error => r.2 ≠ none)) _ _ _ _ _
      · apply Rel_ite w <;> intro
        · exact readEscape_rel w hw false ctx1 h1
        · exact Rel_ret w (View.val _) ((c, none), ctx1) h1
      · intro b hb
        simp only [View.val_get, View.val_set] at hb ⊢
        apply Rel_ite w <;> intro
        · exact Rel_ret w (View.val failed1) ((lispObject.null, 0, b.1.2), b.2) hb
        · have hb' : w.ok b.2 := hb
          have hle : b.2.i ≤ b.2.runes.length := by rw [hb'.1]; exact hb'.2
          rw [read_eq b.2 hle, read_eq _ (w.shift_le b.2 hb')]
          simp only [Run.ret_bind, unread_advance b.2 hle,
            unread_advance _ (w.shift_le b.2 hb')]
          rcases curRune_cases w hw b.2 hb' with h | ⟨h1', h2'⟩
          · rw [h]
            apply Rel_ite w <;> intro
            · exact Rel_ret w (View.val failed1) ((_, 0, none), b.2) hb'
            · exact Rel_ret w (View.val failed1) ((_, 0, _), b.2) hb'
          · rw [if_pos (Or.inl (by rw [h1']; decide)), if_pos (Or.inl h2')]
            exact Rel_ret w (View.val failed1) ((_, 0, none), b.2) hb'
      · intro b hb he hf
        dsimp only
        simp only [View.val_isErr] at hf
        rw [if_pos hf]
        exact EndErr_ret w (View.val failed1) ((lispObject.null, 0, b.1.2), b.2) hb he
          ⟨hf, by simp⟩

theorem readAtomLoop_succ (fuel : Nat) (c : Int) (quoted : Bool) (builder : GoString)
    (ctx : readContext) :
    readAtomLoop (fuel + 1) c quoted builder ctx =
      if c = 92 then
        ctx.read >>= fun r =>
          if r.1 = eofRune then .ret ((r.1, quoted, builder, some "eof reading atom"), r.2)
          else readAtomStep fuel r.1 true builder r.2
      else readAtomStep fuel c quoted builder ctx := by
  rw [readAtomLoop]
  by_cases h : c = 92
  · simp only [h, if_true]
    cases hr : ctx.read with
    | ret r =>
      simp only [Run.ret_bind]
      by_cases he : r.1 = eofRune
      · simp [he]
      · simp [he, readAtomStep]
    | panic msg => rfl
    | outOfFuel => rfl
  · simp [h, readAtomStep]

theorem readAtomStep_rel (w : Window) (hw : w.extOk) (F F' : Nat)
    (ih : ∀ (c : Int) (quoted : Bool) (builder : GoString) (ctx : readContext), w.ok ctx →
      AtomRel w (readAtomLoop F c quoted builder ctx)
        (readAtomLoop F' c quoted builder (w.shift ctx)))
    (c : Int) (quoted : Bool) (builder : GoString) (ctx : readContext) (hok : w.ok ctx) :
    AtomRel w (readAtomStep F c quoted builder ctx)
      (readAtomStep F' c quoted builder (w.shift ctx)) := by
  have hle : ctx.i ≤ ctx.runes.length := by rw [hok.1]; exact hok.2
  unfold readAtomStep
  rw [read_eq ctx hle, read_eq _ (w.shift_le ctx hok)]
  simp only [Run.ret_bind]
  by_cases he : ctx.i = w.s.length
  · have hc := (curRune_eof_iff w ctx hok).2 he
    have hc' : curRune (w.shift ctx) ≤ 32 := by rw [curRune_shift_end w ctx he]; exact hw
    have ha : advance ctx = ctx := by simp [advance, he, hok.1]
    rw [if_pos (Or.inl (by rw [hc]; decide)), if_pos (Or.inl hc')]
    intro r ctx2 h
    cases h
    refine ⟨w.ok_advance ctx hok, Or.inl ⟨rfl, _, _, ctx, rfl, ?_, hok, ?_⟩⟩
    · exact unread_advance ctx hle
    · exact unread_advance _ (w.shift_le ctx hok)
  · rw [curRune_shift w ctx hok he, advance_shift w ctx hok he]
    by_cases hend : curRune ctx ≤ 32 ∨ curRune ctx = nbsp ∨ curRune ctx ∈ atomSpecial
    · rw [if_pos hend, if_pos hend]
      intro r ctx2 h
      cases h
      refine ⟨w.ok_advance ctx hok, Or.inl ⟨rfl, _, _, ctx, rfl, ?_, hok, ?_⟩⟩
      · exact unread_advance ctx hle
      · have := unread_advance _ (w.shift_le ctx hok)
        rw [curRune_shift w ctx hok he, advance_shift w ctx hok he] at this
        exact this
    · rw [if_neg hend, if_neg hend]
      exact ih _ _ _ _ (w.ok_advance ctx hok)

theorem readAtomLoop_rel (w : Window) (hw : w.extOk) (F : Nat) :
    ∀ (F' : Nat), F ≤ F' → ∀ (c : Int) (quoted : Bool) (builder : GoString)
      (ctx : readContext), w.ok ctx →
      AtomRel w (readAtomLoop F c quoted builder ctx)
        (readAtomLoop F' c quoted builder (w.shift ctx)) := by
  induction F with
  | zero =>
    intro F' _ c quoted builder ctx _ r ctx2 h
    simp [readAtomLoop] at h
  | succ F ih =>
    intro F' hF c quoted builder ctx hok
    obtain ⟨F', rfl⟩ : ∃ f, F' = f + 1 := ⟨F' - 1, by omega⟩
    have hstep := readAtomStep_rel w hw F F' (ih F' (by omega))
    have hle : ctx.i ≤ ctx.runes.length := by rw [hok.1]; exact hok.2
    rw [readAtomLoop_succ, readAtomLoop_succ]
    by_cases h92 : c = 92
    · rw [if_pos h92, if_pos h92, read_eq ctx hle, read_eq _ (w.shift_le ctx hok)]
      simp only [Run.ret_bind]
      by_cases he : ctx.i = w.s.length
      · have hc := (curRune_eof_iff w ctx hok).2 he
        have ha : advance ctx = ctx := by simp [advance, he, hok.1]
        rw [if_pos hc]
        intro r ctx2 h
        cases h
        exact ⟨w.ok_advance ctx hok, Or.inr ⟨by rw [ha]; exact he, by simp⟩⟩
      · have hc : curRune ctx ≠ eofRune := fun h => he ((curRune_eof_iff w ctx hok).1 h)
        rw [curRune_shift w ctx hok he, advance_shift w ctx hok he, if_neg hc, if_neg hc]
        exact hstep _ _ _ _ (w.ok_advance ctx hok)
    · rw [if_neg h92, if_neg h92]
      exact hstep _ _ _ _ hok

theorem readAtom_rel (lib : FloatLib) (w : Window) (hw : w.extOk) (F F' : Nat) (hF : F ≤ F')
    (m : Machine) (c : Int) (ctx : readContext) (hok : w.ok ctx) :
    Rel w (View.mach failed0) (readAtom lib F m c ctx) (readAtom lib F' m c (w.shift ctx)) := by
  intro b hb
  unfold readAtom at hb ⊢
  obtain ⟨⟨r, ctx2⟩, hl, hk⟩ := bind_eq_ret _ _ _ hb
  obtain ⟨hok2, h | h⟩ := readAtomLoop_rel w hw F F' hF c false [] ctx hok r ctx2 hl
  · obtain ⟨herr, c', ctx2', ctx3, hl', hu, hok3, hu'⟩ := h
    obtain ⟨rc, rq, rs, re⟩ := r
    simp only at herr hl' hu
    subst herr
    simp only [hl', Run.ret_bind, hu', ne_eq, not_true_eq_false, if_false] at hk ⊢
    rw [hu] at hk
    simp only [Run.ret_bind] at hk
    by_cases hnum : ¬ rq = true ∧ (stringToNumber lib rs).2 = none
    · rw [if_pos hnum] at hk ⊢
      cases hk
      exact ⟨hok3, Or.inl rfl⟩
    · rw [if_neg hnum] at hk ⊢
      cases hk
      exact ⟨hok3, Or.inl rfl⟩
  · obtain ⟨rc, rq, rs, re⟩ := r
    simp only at h
    simp only [h.2, ne_eq, not_false_eq_true, if_true] at hk
    cases hk
    exact ⟨hok2, Or.inr ⟨h.1, h.2⟩⟩

theorem read1_end (lib : FloatLib) (w : Window) (F : Nat) (m : Machine) (ctx : readContext)
    (hok : w.ok ctx) (he : ctx.i = w.s.length) :
    EndErr w (View.mach failed1) (read1 lib F m ctx) := by
  cases F with
  | zero => intro b hb; simp [read1] at hb
  | succ F =>
    have hle : ctx.i ≤ ctx.runes.length := by rw [hok.1]; exact hok.2
    have hc := (curRune_eof_iff w ctx hok).2 he
    have ha : advance ctx = ctx := by simp [advance, he, hok.1]
    rw [read1, read_eq ctx hle, hc, ha]
    simp only [Run.ret_bind, if_true]
    exact EndErr_ret w (View.mach failed1) ((lispObject.null, 0, some "eof on read1"), m, ctx)
      hok he ⟨by simp, by simp⟩

theorem read0_rel_step (lib : FloatLib) (w : Window) (F F' : Nat)
    (ih : ReaderRel lib w F F') (m : Machine) (ctx : readContext) (hok : w.ok ctx) :
    Rel w (View.mach failed0) (read0 lib (F + 1) m ctx) (read0 lib (F' + 1) m (w.shift ctx)) := by
  rw [read0, read0]
  apply Rel_bind w (View.mach failed1) _ _ _ _ _ (ih m ctx hok).1
  · intro b hb
    simp only [View.mach_get, View.mach_set] at hb ⊢
    apply Rel_ite w <;> intro
    · exact Rel_ret w (View.mach failed0) ((lispObject.null, b.1.2.2), b.2.1, b.2.2) hb
    · apply Rel_ite w <;> intro
      · exact Rel_ret w (View.mach failed0) ((lispObject.null, _), b.2.1, b.2.2) hb
      · exact Rel_ret w (View.mach failed0) ((b.1.1, none), b.2.1, b.2.2) hb
  · intro b hb he hf
    simp only [View.mach_get, View.mach_isErr] at hb he hf ⊢
    rw [if_pos hf.1]
    exact EndErr_ret w (View.mach failed0) ((lispObject.null, b.1.2.2), b.2.1, b.2.2) hb he hf.1

theorem readList_rel_step (lib : FloatLib) (w : Window) (F F' : Nat)
    (ih : ReaderRel lib w F F') (m : Machine) (ctx : readContext) (hok : w.ok ctx)
    (elts : List lispObject) :
    Rel w (View.mach failed0) (readList lib (F + 1) m ctx elts)
      (readList lib (F' + 1) m (w.shift ctx) elts) := by
  have hdot : ∀ (val : lispObject) (m1 : Machine) (ctx1 : readContext), w.ok ctx1 →
      Rel w (View.mach failed0)
        (read1 lib F m1 ctx1 >>= fun r =>
          if r.1.2.1 = 41 then .ret ((val, none), r.2.1, r.2.2)
          else .ret ((lispObject.null, some "'.' in wrong context"), r.2.1, r.2.2))
        (read1 lib F' m1 (w.shift ctx1) >>= fun r =>
          if r.1.2.1 = 41 then .ret ((val, none), r.2.1, r.2.2)
          else .ret ((lispObject.null, some "'.' in wrong context"), r.2.1, r.2.2)) := by
    intro val m1 ctx1 h1
    apply Rel_bind w (View.mach failed1) _ _ _ _ _ (ih m1 ctx1 h1).1
    · intro b hb
      simp only [View.mach_get, View.mach_set] at hb ⊢
      apply Rel_ite w <;> intro
      · exact Rel_ret w (View.mach failed0) ((val, none), b.2.1, b.2.2) hb
      · exact Rel_ret w (View.mach failed0) ((lispObject.null, _), b.2.1, b.2.2) hb
    · intro b hb he hf
      simp only [View.mach_get, View.mach_isErr] at hb he hf ⊢
      rw [if_neg hf.2]
      exact EndErr_ret w (View.mach failed0) ((lispObject.null, _), b.2.1, b.2.2) hb he
        (by simp [failed0])
  have hdotEnd : ∀ (val : lispObject) (m1 : Machine) (ctx1 : readContext), w.ok ctx1 →
      ctx1.i = w.s.length →
      EndErr w (View.mach failed0)
        (read1 lib F m1 ctx1 >>= fun r =>
          if r.1.2.1 = 41 then .ret ((val, none), r.2.1, r.2.2)
          else .ret ((lispObject.null, some "'.' in wrong context"), r.2.1, r.2.2)) := by
    intro val m1 ctx1 h1 he1
    apply EndErr_bind w (View.mach failed1) _ _ _ (read1_end lib w F m1 ctx1 h1 he1)
    intro b hb he hf
    simp only [View.mach_get, View.mach_isErr] at hb he hf ⊢
    rw [if_neg hf.2]
    exact EndErr_ret w (View.mach failed0) ((lispObject.null, _), b.2.1, b.2.2) hb he
      (by simp [failed0])
  rw [readList, readList]
  apply Rel_bind w (View.mach failed1) _ _ _ _ _ (ih m ctx hok).1
  · intro b hb
    simp only [View.mach_get, View.mach_set] at hb ⊢
    apply Rel_ite w <;> intro
    · exact Rel_ret w (View.mach failed0) ((lispObject.null, b.1.2.2), b.2.1, b.2.2) hb
    · apply Rel_ite w <;> intro
      · apply Rel_ite w <;> intro
        · exact Rel_ret w (View.mach failed0) ((_, none), b.2.1, b.2.2) hb
        · apply Rel_ite w <;> intro
          · apply Rel_bind w (View.mach failed0) _ _ _ _ _ (ih b.2.1 b.2.2 hb).2.2
            · intro b2 hb2
              simp only [View.mach_get, View.mach_set] at hb2 ⊢
              apply Rel_ite w <;> intro
              · exact Rel_ret w (View.mach failed0) ((lispObject.null, b2.1.2), b2.2.1, b2.2.2) hb2
              · exact hdot _ b2.2.1 b2.2.2 hb2
            · intro b2 hb2 he2 hf2
              simp only [View.mach_get, View.mach_isErr] at hb2 he2 hf2 ⊢
              apply EndErr_ite w <;> intro
              · exact EndErr_ret w (View.mach failed0) ((lispObject.null, b2.1.2), b2.2.1, b2.2.2)
                  hb2 he2 hf2
              · exact hdotEnd _ b2.2.1 b2.2.2 hb2 he2
          · exact Rel_ret w (View.mach failed0) ((lispObject.null, _), b.2.1, b.2.2) hb
      · exact (ih b.2.1 b.2.2 hb).2.1 _
  · intro b hb he hf
    simp only [View.mach_get, View.mach_isErr] at hb he hf ⊢
    rw [if_pos hf.1]
    exact EndErr_ret w (View.mach failed0) ((lispObject.null, b.1.2.2), b.2.1, b.2.2) hb he hf.1

theorem read1_rel_step (lib : FloatLib) (w : Window) (hw : w.extOk) (F F' : Nat) (hF : F ≤ F')
    (ih : ReaderRel lib w F F') (m : Machine) (ctx : readContext) (hok : w.ok ctx) :
    Rel w (View.mach failed1) (read1 lib (F + 1) m ctx) (read1 lib (F' + 1) m (w.shift ctx)) := by
  have hatom : ∀ (c : Int) (ctx1 : readContext), w.ok ctx1 →
      Rel w (View.mach failed1)
        (readAtom lib F m c ctx1 >>= fun r => .ret ((r.1.1, 0, r.1.2), r.2.1, r.2.2))
        (readAtom lib F' m c (w.shift ctx1) >>= fun r =>
          .ret ((r.1.1, 0, r.1.2), r.2.1, r.2.2)) := by
    intro c ctx1 h1
    apply Rel_bind w (View.mach failed0) _ _ _ _ _ (readAtom_rel lib w hw F F' hF m c ctx1 h1)
    · intro b hb
      exact Rel_ret w (View.mach failed1) ((b.1.1, 0, b.1.2), b.2.1, b.2.2) hb
    · intro b hb he hf
      exact EndErr_ret w (View.mach failed1) ((b.1.1, 0, b.1.2), b.2.1, b.2.2) hb he
        ⟨hf, by simp⟩
  rw [read1, read1]
  apply Rel_read_bind w _ ctx _ _ hok
  · intro ctx1 h1 he
    dsimp only
    rw [if_pos rfl]
    exact EndErr_ret w (View.mach failed1) ((lispObject.null, 0, some "eof on read1"), m, ctx1)
      h1 he ⟨by simp, by simp⟩
  · intro c ctx1 hc h1
    dsimp only
    rw [if_neg hc, if_neg hc]
    -- (
    apply Rel_ite w <;> intro
    · apply Rel_bind w (View.mach failed0) _ _ _ _ _ ((ih m ctx1 h1).2.1 [])
      · intro b hb
        exact Rel_ret w (View.mach failed1) ((b.1.1, 0, b.1.2), b.2.1, b.2.2) hb
      · intro b hb he hf
        exact EndErr_ret w (View.mach failed1) ((b.1.1, 0, b.1.2), b.2.1, b.2.2) hb he
          ⟨hf, by simp⟩
    -- [
    apply Rel_ite w <;> intro
    · exact Rel_ret w (View.mach failed1) ((lispObject.null, 0, _), m, ctx1) h1
    -- ) ]
    apply Rel_ite w <;> intro
    · exact Rel_ret w (View.mach failed1) ((lispObject.null, c, none), m, ctx1) h1
    -- #
    apply Rel_ite w <;> intro
    · exact Rel_ret w (View.mach failed1) ((lispObject.null, 0, _), m, ctx1) h1
    -- ;
    apply Rel_ite w <;> intro
    · apply Rel_bind w View.ctx _ _ _ _ _ (skipComment_rel w F F' hF ctx1 h1)
      · intro b hb
        exact (ih m b hb).1
      · intro b hb he _
        exact read1_end lib w F m b hb he
    -- quote
    apply Rel_ite w <;> intro
    · apply Rel_bind w (View.mach failed0) _ _ _ _ _ (ih m ctx1 h1).2.2
      · intro b hb
        simp only [View.mach_get, View.mach_set] at hb ⊢
        apply Rel_ite w <;> intro
        · exact Rel_ret w (View.mach failed1) ((lispObject.null, 0, b.1.2), b.2.1, b.2.2) hb
        · exact Rel_ret w (View.mach failed1) ((_, 0, none), _, b.2.2) hb
      · intro b hb he hf
        simp only [View.mach_get, View.mach_isErr] at hb he hf ⊢
        rw [if_pos (show b.1.2 ≠ none from hf)]
        exact EndErr_ret w (View.mach failed1) ((lispObject.null, 0, b.1.2), b.2.1, b.2.2) hb he
          ⟨hf, by simp⟩
    -- ,
    apply Rel_ite w <;> intro
    · exact Rel_ret w (View.mach failed1) ((lispObject.null, 0, _), m, ctx1) h1
    -- ?
    apply Rel_ite w <;> intro
    · apply Rel_bind w (View.val failed1) _ _ _ _ _ (readCharLiteral_rel w hw ctx1 h1)
      · intro b hb
        exact Rel_ret w (View.mach failed1) (b.1, m, b.2) hb
      · intro b hb he hf
        exact EndErr_ret w (View.mach failed1) (b.1, m, b.2) hb he hf
    -- string
    apply Rel_ite w <;> intro
    · apply Rel_bind w (View.val failedString) _ _ _ _ _
        (readStringLoop_rel w hw F F' hF [] ctx1 h1)
      · intro b hb
        simp only [View.val_get, View.val_set] at hb ⊢
        apply Rel_ite w <;> intro
        · exact Rel_ret w (View.mach failed1) ((lispObject.null, 0, b.1.2.2), m, b.2) hb
        · apply Rel_ite w <;> intro
          · exact Rel_ret w (View.mach failed1) ((lispObject.null, b.1.1, _), m, b.2) hb
          · exact Rel_ret w (View.mach failed1) ((makeString b.1.2.1, 0, none), m, b.2) hb
      · intro b hb he hf
        simp only [View.val_get, View.val_isErr] at hb he hf ⊢
        apply EndErr_ite w <;> intro herr
        · exact EndErr_ret w (View.mach failed1) ((lispObject.null, 0, b.1.2.2), m, b.2) hb he
            ⟨herr, by simp⟩
        · have hceof : b.1.1 = eofRune := by
            rcases hf with h | h
            · exact absurd h herr
            · exact h
          rw [if_pos hceof]
          exact EndErr_ret w (View.mach failed1) ((lispObject.null, b.1.1, _), m, b.2) hb he
            ⟨by simp, by simp [hceof, eofRune]⟩
    -- .
    apply Rel_ite w <;> intro
    · have hle : ctx1.i ≤ ctx1.runes.length := by rw [h1.1]; exact h1.2
      rw [read_eq ctx1 hle, read_eq _ (w.shift_le ctx1 h1)]
      simp only [Run.ret_bind, unread_advance ctx1 hle, unread_advance _ (w.shift_le ctx1 h1)]
      rcases curRune_cases w hw ctx1 h1 with h | ⟨h1', h2'⟩
      · rw [h]
        apply Rel_ite w <;> intro
        · exact Rel_ret w (View.mach failed1) ((lispObject.null, c, none), m, ctx1) h1
        · exact hatom c ctx1 h1
      · rw [if_pos (Or.inl (by rw [h1']; decide)), if_pos (Or.inl h2')]
        exact Rel_ret w (View.mach failed1) ((lispObject.null, c, none), m, ctx1) h1
    -- whitespace
    apply Rel_ite w <;> intro
    · exact (ih m ctx1 h1).1
    · exact hatom c ctx1 h1

theorem reader_rel (lib : FloatLib) (w : Window) (hw : w.extOk) (F : Nat) :
    ∀ (F' : Nat), F ≤ F' → ReaderRel lib w F F' := by
  induction F with
  | zero =>
    intro F' _ m ctx _
    refine ⟨?_, fun elts => ?_, ?_⟩
    · rw [read1]; exact Rel_outOfFuel w _ _
    · rw [readList]; exact Rel_outOfFuel w _ _
    · rw [read0]; exact Rel_outOfFuel w _ _
  | succ F ih =>
    intro F' hF m ctx hok
    obtain ⟨F', rfl⟩ : ∃ f, F' = f + 1 := ⟨F' - 1, by omega⟩
    have ih' := ih F' (by omega)
    exact ⟨read1_rel_step lib w hw F F' (by omega) ih' m ctx hok,
      fun elts => readList_rel_step lib w F F' ih' m ctx hok elts,
      read0_rel_step lib w F F' ih' m ctx hok⟩

theorem ReadString_eq_ret (lib : FloatLib) (m m' : Machine) (s : List Char)
    (r : lispObject × error) (h : ReadString lib m s = .ret (r, m')) :
    ∃ ctx2, read0 lib (2 * s.length + 2) m { runes := s, i := 0 } = .ret (r, m', ctx2) := by
  unfold ReadString at h
  obtain ⟨b, hb, hk⟩ := bind_eq_ret _ _ _ h
  obtain ⟨r2, m2, ctx2⟩ := b
  cases hk
  exact ⟨ctx2, hb⟩

theorem ReadString_of_read0 (lib : FloatLib) (m m' : Machine) (s : List Char)
    (r : lispObject × error) (ctx2 : readContext)
    (h : read0 lib (2 * s.length + 2) m { runes := s, i := 0 } = .ret (r, m', ctx2)) :
    ReadString lib m s = .ret (r, m') := by
  unfold ReadString
  simp only [h]
  rfl

theorem intern_nil_ (m : Machine) (name : GoString) : (intern m name).2.inp.nil_ = m.inp.nil_ := by
  unfold intern
  cases m.inp.obarray.lookup name <;> rfl

/-- C10: when `ReadString` succeeds on a text, it returns the same object, and leaves the
same machine, on the text followed by a space and anything else. -/
theorem read_ignores_rest (lib : FloatLib) (m m' : Machine) (s rest : List Char)
    (v : lispObject) (h : ReadString lib m s = .ret ((v, none), m')) :
    ReadString lib m (s ++ ' ' :: rest) = .ret ((v, none), m') := by
  obtain ⟨ctx2, h0⟩ := ReadString_eq_ret lib m m' s _ h
  let w : Window := { s := s, p := [], ext := ' ' :: rest }
  have hw : w.extOk := by
    show peekRune (' ' :: rest) ≤ 32
    exact le_refl _
  have hok : w.ok { runes := s, i := 0 } := ⟨rfl, Nat.zero_le _⟩
  have hrel := (reader_rel lib w hw (2 * s.length + 2) (2 * (s ++ ' ' :: rest).length + 2)
    (by simp) m _ hok).2.2
  obtain ⟨_, hr | hr⟩ := hrel _ h0
  · have e : w.shift { runes := s, i := 0 } = { runes := s ++ ' ' :: rest, i := 0 } := by
      simp [Window.shift, w]
    rw [e] at hr
    exact ReadString_of_read0 lib m m' _ _ _ hr
  · exact absurd rfl hr.2

theorem read_ignores_rest_witness :
    ReadString noFloats freshMachine "(1 . 2)".toList =
      .ret ((.cons (.integer 1) (.integer 2), none), freshMachine) ∧
    ReadString noFloats freshMachine ("(1 . 2)".toList ++ ' ' :: ") [ #x".toList) =
      .ret ((.cons (.integer 1) (.integer 2), none), freshMachine) :=
  ⟨by decide, read_ignores_rest noFloats freshMachine freshMachine "(1 . 2)".toList
    ") [ #x".toList _ (by decide)⟩

/-- C6: when `ReadString` succeeds on a text with the object `v`, it succeeds on the
apostrophe followed by the text and returns the list of the symbol interned under `quote`
and of `v`, ending in the canonical nil. -/
theorem quote_reads_as_list (lib : FloatLib) (m m' : Machine) (X : List Char) (v : lispObject)
    (h : ReadString lib m X = .ret ((v, none), m')) :
    ReadString lib m (Char.ofNat 39 :: X) =
      .ret ((.cons (.symbol (intern m' ['q', 'u', 'o', 't', 'e']).1) (.cons v m'.inp.nil_), none),
        (intern m' ['q', 'u', 'o', 't', 'e']).2) ∧
    (intern m' ['q', 'u', 'o', 't', 'e']).2.inp.obarray.lookup ['q', 'u', 'o', 't', 'e'] =
      some (intern m' ['q', 'u', 'o', 't', 'e']).1 := by
  refine ⟨?_, intern_lookup m' _⟩
  obtain ⟨ctx2, h0⟩ := ReadString_eq_ret lib m m' X _ h
  let w : Window := { s := X, p := [Char.ofNat 39], ext := [] }
  have hw : w.extOk := by
    show peekRune [] ≤ 32
    decide
  have hok : w.ok { runes := X, i := 0 } := ⟨rfl, Nat.zero_le _⟩
  have hrel := (reader_rel lib w hw (2 * X.length + 2) (2 * X.length + 2) (le_refl _) m _
    hok).2.2
  obtain ⟨_, hr | hr⟩ := hrel _ h0
  · have e : w.shift { runes := X, i := 0 } = ctxAt [Char.ofNat 39] X := by
      simp [Window.shift, w, ctxAt]
    rw [e] at hr
    have hq : ((Char.ofNat 39).toNat : Int) = 39 := rfl
    have h1 : read1 lib ((2 * X.length + 2) + 1) m (ctxAt [] (Char.ofNat 39 :: X)) =
        .ret ((.cons (.symbol (intern m' ['q', 'u', 'o', 't', 'e']).1) (.cons v m'.inp.nil_),
          0, none), (intern m' ['q', 'u', 'o', 't', 'e']).2,
          (View.mach failed0).get ((v, none), m', w.shift ctx2)) := by
      rw [read1]
      simp only [read_ctxAt_cons, hq, Run.ret_bind, List.nil_append]
      rw [hr]
      simp [eofRune, makeList, makeCons, intern_nil_]
    have h2 : read0 lib ((2 * X.length + 2 + 1) + 1) m (ctxAt [] (Char.ofNat 39 :: X)) =
        .ret ((.cons (.symbol (intern m' ['q', 'u', 'o', 't', 'e']).1) (.cons v m'.inp.nil_),
          none), (intern m' ['q', 'u', 'o', 't', 'e']).2,
          (View.mach failed0).get ((v, none), m', w.shift ctx2)) := by
      rw [read0, h1]
      simp
    refine ReadString_of_read0 lib m _ _ _ (w.shift ctx2) ?_
    simp only [List.length_cons]
    rw [show 2 * (X.length + 1) + 2 = (2 * X.length + 2 + 1) + 1 by omega]
    exact h2
  · exact absurd rfl hr.2

theorem quote_reads_as_list_witness :
    ReadString noFloats freshMachine "foo".toList =
      .ret ((.symbol { addr := 2, name := "foo".toList }, none),
        (intern freshMachine "foo".toList).2) ∧
    ReadString noFloats freshMachine (Char.ofNat 39 :: "foo".toList) =
      .ret ((.cons (.symbol { addr := 3, name := "quote".toList })
          (.cons (.symbol { addr := 2, name := "foo".toList }) freshMachine.inp.nil_), none),
        (intern (intern freshMachine "foo".toList).2 "quote".toList).2) := by
  have h0 : ReadString noFloats freshMachine "foo".toList =
      .ret ((.symbol { addr := 2, name := "foo".toList }, none),
        (intern freshMachine "foo".toList).2) := by decide
  have h := quote_reads_as_list noFloats freshMachine _ "foo".toList _ h0
  exact ⟨h0, h.1⟩

theorem read1_blank (lib : FloatLib) (m : Machine) (pre : List Char) (c : Char)
    (t : List Char) (fuel : Nat) (hc : blankChar c) :
    read1 lib (fuel + 1) m (ctxAt pre (c :: t)) = read1 lib fuel m (ctxAt (pre ++ [c]) t) := by
  have hb : (c.toNat : Int) ≤ 32 ∨ (c.toNat : Int) = nbsp := by
    unfold blankChar at hc
    unfold nbsp
    omega
  have hne : ∀ k : Int, 32 < k → k ≠ 160 → (c.toNat : Int) ≠ k := by
    intro k h1 h2
    unfold nbsp at hb
    omega
  rw [read1]
  simp only [read_ctxAt_cons, Run.ret_bind]
  rw [if_neg (toNat_ne_eof c), if_neg (hne 40 (by decide) (by decide)),
    if_neg (hne 91 (by decide) (by decide)),
    if_neg (by simp [hne 41, hne 93]),
    if_neg (hne 35 (by decide) (by decide)), if_neg (hne 59 (by decide) (by decide)),
    if_neg (by simp [hne 39, hne 96]),
    if_neg (hne 44 (by decide) (by decide)), if_neg (hne 63 (by decide) (by decide)),
    if_neg (hne 34 (by decide) (by decide)), if_neg (hne 46 (by decide) (by decide)),
    if_pos hb]

theorem atomEnd_blank (c : Char) (rest : List Char) (h : blankChar c) :
    atomEnd (peekRune (c :: rest)) := by
  unfold blankChar at h
  unfold atomEnd peekRune nbsp
  simp only
  omega

theorem Machine.extends_refl (m : Machine) : m.extends m := ⟨rfl, fun _ _ h => h⟩

theorem Machine.extends_trans (m2 m1 m : Machine) (h2 : m2.extends m1) (h1 : m1.extends m) :
    m2.extends m :=
  ⟨h2.1.trans h1.1, fun k s h => h2.2 k s (h1.2 k s h)⟩

theorem intern_extends (m : Machine) (a : GoString) : (intern m a).2.extends m := by
  refine ⟨intern_nil_ m a, fun k s h => ?_⟩
  unfold intern
  cases hl : m.inp.obarray.lookup a with
  | some sym => exact h
  | none =>
    have hne : (k == a) = false := by
      rw [beq_eq_false_iff_ne]
      intro e
      rw [e, hl] at h
      cases h
    simp [makeSymbol, List.lookup, hne, h]

theorem Readable_mono (lib : FloatLib) (m m1 : Machine) (h : m1.extends m) (v : lispObject)
    (hv : Readable lib m v) : Readable lib m1 v := by
  induction hv with
  | integer n hlo hhi => exact .integer n hlo hhi
  | string_ s hs => exact .string_ s hs
  | symbol s hs hi hfl hl => exact .symbol s hs hi hfl (h.2 _ _ hl)
  | cons a d _ _ iha ihd => exact .cons a d iha ihd

theorem Keeps_ret {α : Type} (m : Machine) (a : α) (ctx : readContext) :
    Keeps m (.ret (a, m, ctx)) := by
  intro b hb
  cases hb
  exact ⟨m.extends_refl, fun h => h⟩

theorem Keeps_trans {α : Type} (m m1 : Machine) (x : Run (α × Machine × readContext))
    (h1 : m1.extends m) (h2 : m.tableNamed → m1.tableNamed) (hx : Keeps m1 x) : Keeps m x := by
  intro b hb
  obtain ⟨he, ht⟩ := hx b hb
  exact ⟨b.2.1.extends_trans m1 m he h1, fun h => ht (h2 h)⟩

theorem Keeps_ite {α : Type} (m : Machine) (c : Prop) [Decidable c]
    (a b : Run (α × Machine × readContext)) (ht : c → Keeps m a) (hf : ¬ c → Keeps m b) :
    Keeps m (if c then a else b) := by
  by_cases h : c
  · rw [if_pos h]; exact ht h
  · rw [if_neg h]; exact hf h

theorem Keeps_bind {α β : Type} (m : Machine) (x : Run (α × Machine × readContext))
    (k : α × Machine × readContext → Run (β × Machine × readContext)) (hx : Keeps m x)
    (hk : ∀ b, Keeps b.2.1 (k b)) : Keeps m (x >>= k) := by
  intro c hc
  obtain ⟨b, hb, hkb⟩ := bind_eq_ret x k c hc
  obtain ⟨he, ht⟩ := hx b hb
  exact Keeps_trans m b.2.1 (k b) he ht (hk b) c hkb

theorem Keeps_bind_val {α β : Type} (m : Machine) (x : Run α)
    (k : α → Run (β × Machine × readContext)) (hk : ∀ b, Keeps m (k b)) :
    Keeps m (x >>= k) := by
  intro c hc
  obtain ⟨b, _, hkb⟩ := bind_eq_ret x k c hc
  exact hk b c hkb

theorem Keeps_intern {α : Type} (m : Machine) (name : GoString)
    (f : lispSymbol × Machine → α) (ctx : readContext) :
    Keeps m (.ret (f (intern m name), (intern m name).2, ctx)) := by
  intro b hb
  cases hb
  exact ⟨intern_extends m name, intern_tableNamed m name⟩

theorem readAtom_keeps (lib : FloatLib) (F : Nat) (m : Machine) (c : Int) (ctx : readContext) :
    Keeps m (readAtom lib F m c ctx) := by
  unfold readAtom
  apply Keeps_bind_val
  intro b
  dsimp only
  apply Keeps_ite <;> intro
  · exact Keeps_ret m _ _
  · apply Keeps_bind_val
    intro ctx1
    apply Keeps_ite <;> intro
    · exact Keeps_ret m _ _
    · exact Keeps_intern m b.1.2.2.1 (fun r => (lispObject.symbol r.1, none)) ctx1

theorem reader_keeps (lib : FloatLib) (F : Nat) :
    ∀ (m : Machine) (ctx : readContext),
      Keeps m (read1 lib F m ctx) ∧ (∀ elts, Keeps m (readList lib F m ctx elts)) ∧
        Keeps m (read0 lib F m ctx) := by
  induction F with
  | zero =>
    intro m ctx
    refine ⟨?_, fun elts => ?_, ?_⟩
    · rw [read1]; intro b hb; cases hb
    · rw [readList]; intro b hb; cases hb
    · rw [read0]; intro b hb; cases hb
  | succ F ih =>
    intro m ctx
    have hatom : ∀ (c : Int) (ctx1 : readContext),
        Keeps m (readAtom lib F m c ctx1 >>= fun r => .ret ((r.1.1, (0 : Int), r.1.2), r.2.1, r.2.2)) := by
      intro c ctx1
      apply Keeps_bind m _ _ (readAtom_keeps lib F m c ctx1)
      intro b
      exact Keeps_ret _ _ _
    refine ⟨?_, fun elts => ?_, ?_⟩
    · rw [read1]
      apply Keeps_bind_val
      intro r
      dsimp only
      apply Keeps_ite <;> intro
      · exact Keeps_ret m _ _
      apply Keeps_ite <;> intro
      · apply Keeps_bind m _ _ ((ih m r.2).2.1 [])
        intro b
        exact Keeps_ret _ _ _
      apply Keeps_ite <;> intro
      · exact Keeps_ret m _ _
      apply Keeps_ite <;> intro
      · exact Keeps_ret m _ _
      apply Keeps_ite <;> intro
      · exact Keeps_ret m _ _
      apply Keeps_ite <;> intro
      · apply Keeps_bind_val
        intro ctx1
        exact (ih m ctx1).1
      apply Keeps_ite <;> intro
      · apply Keeps_bind m _ _ (ih m r.2).2.2
        intro b
        dsimp only
        apply Keeps_ite <;> intro
        · exact Keeps_ret _ _ _
        · exact Keeps_intern b.2.1 _
            (fun s => (makeList s.2.inp (lispObject.symbol s.1) [b.1.1], (0 : Int), none)) b.2.2
      apply Keeps_ite <;> intro
      · exact Keeps_ret m _ _
      apply Keeps_ite <;> intro
      · apply Keeps_bind_val
        intro b
        exact Keeps_ret m _ _
      apply Keeps_ite <;> intro
      · apply Keeps_bind_val
        intro b
        dsimp only
        apply Keeps_ite <;> intro
        · exact Keeps_ret m _ _
        · apply Keeps_ite <;> intro
          · exact Keeps_ret m _ _
          · exact Keeps_ret m _ _
      apply Keeps_ite <;> intro
      · apply Keeps_bind_val
        intro b
        apply Keeps_bind_val
        intro ctx1
        apply Keeps_ite <;> intro
        · exact Keeps_ret m _ _
        · exact hatom _ _
      apply Keeps_ite <;> intro
      · exact (ih m r.2).1
      · exact hatom _ _
    · rw [readList]
      apply Keeps_bind m _ _ (ih m ctx).1
      intro b
      dsimp only
      apply Keeps_ite <;> intro
      · exact Keeps_ret _ _ _
      apply Keeps_ite <;> intro
      · apply Keeps_ite <;> intro
        · exact Keeps_ret _ _ _
        apply Keeps_ite <;> intro
        · apply Keeps_bind _ _ _ (ih b.2.1 b.2.2).2.2
          intro b2
          dsimp only
          apply Keeps_ite <;> intro
          · exact Keeps_ret _ _ _
          · apply Keeps_bind _ _ _ (ih b2.2.1 b2.2.2).1
            intro b3
            dsimp only
            apply Keeps_ite <;> intro
            · exact Keeps_ret _ _ _
            · exact Keeps_ret _ _ _
        · exact Keeps_ret _ _ _
      · exact (ih b.2.1 b.2.2).2.1 _
    · rw [read0]
      apply Keeps_bind m _ _ (ih m ctx).1
      intro b
      dsimp only
      apply Keeps_ite <;> intro
      · exact Keeps_ret _ _ _
      · apply Keeps_ite <;> intro
        · exact Keeps_ret _ _ _
        · exact Keeps_ret _ _ _

theorem nilInterned_of_extends (m m1 : Machine) (h : m1.extends m) (hn : m.nilInterned) :
    m1.nilInterned := by
  obtain ⟨s, hs, hnil, hl⟩ := hn
  exact ⟨s, hs, h.1.trans hnil, h.2 _ _ hl⟩

/-- Whatever `ReadString` returns, the machine it leaves holds what the machine held, and
the two properties of the table that `NewInterpreter` sets up are kept. -/
theorem ReadString_keeps (lib : FloatLib) (m m' : Machine) (s : List Char)
    (r : lispObject × error) (h : ReadString lib m s = .ret (r, m')) :
    m'.extends m ∧ (m.nilInterned → m'.nilInterned) ∧ (m.tableNamed → m'.tableNamed) := by
  obtain ⟨ctx2, h0⟩ := ReadString_eq_ret lib m m' s r h
  obtain ⟨he, ht⟩ := (reader_keeps lib _ m _).2.2 _ h0
  exact ⟨he, nilInterned_of_extends m m' he, ht⟩

theorem NewInterpreter_nilInterned (h : Heap) : (NewInterpreter h).nilInterned := by
  refine ⟨{ addr := h.symbols.length, name := ['n', 'i', 'l'] }, rfl, ?_, ?_⟩
  · simp [NewInterpreter, initialDefinitions, intern, makeSymbol, List.lookup]
  · simp [NewInterpreter, initialDefinitions, intern, makeSymbol, List.lookup]

theorem NewInterpreter_tableNamed (h : Heap) : (NewInterpreter h).tableNamed := by
  intro k s hk
  simp only [NewInterpreter, initialDefinitions, intern, makeSymbol, List.lookup] at hk
  split at hk
  · cases hk; rename_i hkk; exact (show k = _ by simpa using hkk).symm
  · split at hk
    · cases hk; rename_i hkk; exact (show k = _ by simpa using hkk).symm
    · cases hk

/-! ## Readings that do not depend on the floating-point library -/

set_option maxRecDepth 100000 in

/-- Whatever the floating-point library, `?ab` is rejected as a malformed character
literal. -/
theorem question_ab_any_library (lib : FloatLib) :
    ReadString lib freshMachine "?ab".toList =
      .ret ((.null, some "invalid syntax for '?'"), freshMachine) := by
  rfl

set_option maxRecDepth 100000 in

/-- Whatever the floating-point library, the literal of one escaped backslash reads as the
string of one backslash, whose printed text does not read. -/
theorem escaped_backslash_any_library (lib : FloatLib) :
    ReadString lib freshMachine [Char.ofNat 34, Char.ofNat 92, Char.ofNat 92, Char.ofNat 34] =
      .ret ((.string_ [Char.ofNat 92], none), freshMachine) ∧
    Print lib freshMachine.inp (.string_ [Char.ofNat 92]) =
      .ret ([Char.ofNat 34, Char.ofNat 92, Char.ofNat 34], none) ∧
    ReadString lib freshMachine [Char.ofNat 34, Char.ofNat 92, Char.ofNat 34] =
      .ret ((.null, some "eof reading string"), freshMachine) := by
  exact ⟨rfl, rfl, rfl⟩

/-! ## Blanks and comments before an expression -/

theorem skipComment_line (body : List Char) :
    ∀ (pre rest : List Char) (fuel : Nat), (∀ ch ∈ body, ch.toNat ≠ 10) →
      body.length + 1 ≤ fuel →
      skipComment fuel (ctxAt pre (body ++ Char.ofNat 10 :: rest)) =
        .ret (ctxAt (pre ++ body ++ [Char.ofNat 10]) rest) := by
  induction body with
  | nil =>
    intro pre rest fuel _ hf
    obtain ⟨fuel, rfl⟩ : ∃ f, fuel = f + 1 := ⟨fuel - 1, by omega⟩
    have hn : ((Char.ofNat 10).toNat : Int) = 10 := rfl
    simp [skipComment, read_ctxAt_cons, hn]
  | cons b body ih =>
    intro pre rest fuel hb hf
    obtain ⟨fuel, rfl⟩ : ∃ f, fuel = f + 1 := ⟨fuel - 1, by omega⟩
    have h10 : ¬ ((b.toNat : Int) = 10) := by have := hb b (by simp); omega
    have := ih (pre ++ [b]) rest fuel (fun ch hch => hb ch (by simp [hch]))
      (by simp at hf; omega)
    simp only [List.cons_append, skipComment, read_ctxAt_cons, Run.ret_bind, toNat_ne_eof, h10,
      or_self, if_false]
    simpa using this

theorem skipComment_end (body : List Char) :
    ∀ (pre : List Char) (fuel : Nat), (∀ ch ∈ body, ch.toNat ≠ 10) → body.length + 1 ≤ fuel →
      skipComment fuel (ctxAt pre body) = .ret (ctxAt (pre ++ body) []) := by
  induction body with
  | nil =>
    intro pre fuel _ hf
    obtain ⟨fuel, rfl⟩ : ∃ f, fuel = f + 1 := ⟨fuel - 1, by omega⟩
    simp [skipComment, read_ctxAt_nil]
  | cons b body ih =>
    intro pre fuel hb hf
    obtain ⟨fuel, rfl⟩ : ∃ f, fuel = f + 1 := ⟨fuel - 1, by omega⟩
    have h10 : ¬ ((b.toNat : Int) = 10) := by have := hb b (by simp); omega
    have := ih (pre ++ [b]) fuel (fun ch hch => hb ch (by simp [hch])) (by simp at hf; omega)
    simp only [skipComment, read_ctxAt_cons, Run.ret_bind, toNat_ne_eof, h10, or_self, if_false]
    simpa using this

theorem read1_semicolon (lib : FloatLib) (m : Machine) (pre t : List Char) (fuel : Nat) :
    read1 lib (fuel + 1) m (ctxAt pre (';' :: t)) =
      (skipComment fuel (ctxAt (pre ++ [';']) t) >>= fun ctx => read1 lib fuel m ctx) := by
  have hc : ((';' : Char).toNat : Int) = 59 := rfl
  rw [read1]
  simp only [read_ctxAt_cons, hc, Run.ret_bind]
  simp [eofRune]

theorem read1_eof (lib : FloatLib) (m : Machine) (pre : List Char) (fuel : Nat) :
    read1 lib (fuel + 1) m (ctxAt pre []) =
      .ret ((.null, 0, some "eof on read1"), m, ctxAt pre []) := by
  rw [read1]
  simp [read_ctxAt_nil]

theorem read1_bracket (lib : FloatLib) (m : Machine) (pre rest : List Char) (fuel : Nat) :
    read1 lib (fuel + 1) m (ctxAt pre (']' :: rest)) =
      .ret ((.null, 93, none), m, ctxAt (pre ++ [']']) rest) := by
  have hc : ((']' : Char).toNat : Int) = 93 := rfl
  unfold read1
  simp only [read_ctxAt_cons, hc, Run.ret_bind]
  simp [eofRune]

/-- With enough budget, `read1` skips a run of blanks and comments and goes on after it. -/
theorem read1_skipped (lib : FloatLib) (m : Machine) (s : List Char) (hs : Skipped s) :
    ∀ (pre rest : List Char) (fuel : Nat), 2 * s.length < fuel →
      ∃ fuel', fuel ≤ fuel' + s.length ∧
        read1 lib fuel m (ctxAt pre (s ++ rest)) = read1 lib fuel' m (ctxAt (pre ++ s) rest) := by
  induction hs with
  | nil => intro pre rest fuel _; exact ⟨fuel, by simp, by simp⟩
  | blank c s hc _ ih =>
    intro pre rest fuel hf
    obtain ⟨fuel, rfl⟩ : ∃ f, fuel = f + 1 := ⟨fuel - 1, by omega⟩
    obtain ⟨fuel', h1, h2⟩ := ih (pre ++ [c]) rest fuel (by simp at hf; omega)
    refine ⟨fuel', by simp; omega, ?_⟩
    simp only [List.cons_append]
    rw [read1_blank lib m pre c _ fuel hc, h2]
    simp
  | comment body s hb _ ih =>
    intro pre rest fuel hf
    obtain ⟨fuel, rfl⟩ : ∃ f, fuel = f + 1 := ⟨fuel - 1, by omega⟩
    simp only [List.length_cons, List.length_append] at hf
    obtain ⟨fuel', h1, h2⟩ := ih (pre ++ ';' :: body ++ [Char.ofNat 10]) rest fuel (by omega)
    refine ⟨fuel', by simp; omega, ?_⟩
    have hsk := skipComment_line body (pre ++ [';']) (s ++ rest) fuel hb (by omega)
    simp only [List.cons_append, List.append_assoc, List.singleton_append, List.nil_append]
      at hsk h2 ⊢
    rw [read1_semicolon, hsk]
    simp only [Run.ret_bind]
    rw [h2]

theorem ReadString_of_read1 (lib : FloatLib) (m m' : Machine) (t : List Char)
    (r : lispObject × Int × error) (ctx2 : readContext)
    (h : read1 lib (2 * t.length + 1) m (ctxAt [] t) = .ret (r, m', ctx2)) :
    ReadString lib m t =
      .ret ((if r.2.2 ≠ none then (.null, r.2.2)
        else if r.2.1 ≠ 0 then (.null, errorf "unexpected character: " r.2.1)
        else (r.1, none)), m') := by
  simp only [ctxAt, List.nil_append, List.length_nil] at h
  have e : read0 lib ((2 * t.length + 1) + 1) m { runes := t, i := 0 } =
      .ret ((if r.2.2 ≠ none then (.null, r.2.2)
        else if r.2.1 ≠ 0 then (.null, errorf "unexpected character: " r.2.1)
        else (r.1, none)), m', ctx2) := by
    rw [read0]
    simp only [h, Run.ret_bind]
    by_cases h1 : r.2.2 ≠ none
    · rw [if_pos h1, if_pos h1]; rfl
    · by_cases h2 : r.2.1 ≠ 0
      · rw [if_neg h1, if_neg h1, if_pos h2, if_pos h2]; rfl
      · rw [if_neg h1, if_neg h1, if_neg h2, if_neg h2]; rfl
  simp only [ReadString, show 2 * t.length + 2 = (2 * t.length + 1) + 1 by omega, e]
  rfl

/-- C11: when the first character after blanks and comments is a closing parenthesis or a
closing bracket, `ReadString` returns the error "unexpected character" for it and no
object; on a text of blanks and comments only it returns the end-of-input error of
`read1`. The machine is left as it was. -/
theorem unexpected_closing_delimiter (lib : FloatLib) (m : Machine) (s rest t : List Char)
    (c : Char) (hs : Skipped s) (hc : c = ')' ∨ c = ']') (ht : OnlySkipped t) :
    ReadString lib m (s ++ c :: rest) =
      .ret ((.null, errorf "unexpected character: " (c.toNat : Int)), m) ∧
    ReadString lib m t = .ret ((.null, some "eof on read1"), m) := by
  constructor
  · obtain ⟨fuel', h1, h2⟩ := read1_skipped lib m s hs [] (c :: rest)
      (2 * (s ++ c :: rest).length + 1) (by simp; omega)
    obtain ⟨fuel', rfl⟩ : ∃ f, fuel' = f + 1 := ⟨fuel' - 1, by simp at h1; omega⟩
    rcases hc with rfl | rfl
    · rw [read1_close] at h2
      exact ReadString_of_read1 lib m m _ _ _ h2
    · rw [read1_bracket] at h2
      exact ReadString_of_read1 lib m m _ _ _ h2
  · cases ht with
    | closed _ hs =>
      obtain ⟨fuel', h1, h2⟩ := read1_skipped lib m t hs [] [] (2 * (t ++ []).length + 1)
        (by simp)
      obtain ⟨fuel', rfl⟩ : ∃ f, fuel' = f + 1 := ⟨fuel' - 1, by simp at h1; omega⟩
      rw [read1_eof] at h2
      have := ReadString_of_read1 lib m m (t ++ []) _ _ h2
      simpa using this
    | open_ s body hs hb =>
      obtain ⟨fuel', h1, h2⟩ := read1_skipped lib m s hs [] (';' :: body)
        (2 * (s ++ ';' :: body).length + 1) (by simp; omega)
      obtain ⟨fuel', rfl⟩ : ∃ f, fuel' = f + 2 := ⟨fuel' - 2, by simp at h1; omega⟩
      rw [read1_semicolon, skipComment_end body _ _ hb (by simp at h1; omega)] at h2
      simp only [Run.ret_bind] at h2
      rw [read1_eof] at h2
      exact ReadString_of_read1 lib m m _ _ _ h2

theorem unexpected_closing_delimiter_witness :
    Skipped " ; a)\n\t".toList ∧ OnlySkipped "\n ; (x".toList ∧
    ReadString noFloats freshMachine " ; a)\n\t] (".toList =
      .ret ((.null, some "unexpected character: ']'"), freshMachine) ∧
    ReadString noFloats freshMachine "\n ; (x".toList =
      .ret ((.null, some "eof on read1"), freshMachine) := by
  have hs : Skipped " ; a)\n\t".toList :=
    .blank _ _ (by decide) (.comment " a)".toList _ (by decide)
      (.blank _ _ (by decide) .nil))
  have ht : OnlySkipped "\n ; (x".toList :=
    .open_ "\n ".toList " (x".toList (.blank _ _ (by decide) (.blank _ _ (by decide) .nil))
      (by decide)
  exact ⟨hs, ht,
    unexpected_closing_delimiter noFloats freshMachine _ " (".toList _ ']' hs (Or.inr rfl) ht⟩

/-! ## The bootstrap of the symbol table, and the cursor -/

theorem NewInterpreter_eq (h : Heap) :
    NewInterpreter h =
      Machine.mk
        (Heap.mk (h.symbols ++
          [symbolSlots.mk (.symbol (bootNil h.symbols.length)) .null,
           symbolSlots.mk (.symbol (bootT h.symbols.length)) .null]))
        (interpreter.mk
          [(['t'], bootT h.symbols.length), (['n', 'i', 'l'], bootNil h.symbols.length)]
          (.symbol (bootNil h.symbols.length))) := by
  simp [NewInterpreter, initialDefinitions, intern, makeSymbol, setValue, List.lookup, bootNil,
    bootT]
  rw [List.getElem_append_right (by omega)]
  simp

/-- Interning allocates at the end of the heap: the slots of the instances already there are
left as they are. -/
theorem valueSlot_intern (m : Machine) (name : GoString) (s : lispSymbol)
    (h : s.addr < m.heap.symbols.length) :
    valueSlot (intern m name).2.heap s = valueSlot m.heap s := by
  unfold intern
  cases m.inp.obarray.lookup name with
  | some sym => rfl
  | none =>
    simp only [makeSymbol, valueSlot, List.get?_eq_getElem?]
    rw [List.getElem?_append_left h]

theorem intern_inp_of_lookup (heap : Heap) (inp : interpreter) (name : GoString)
    (s : lispSymbol) (h : inp.obarray.lookup name = some s) :
    intern (Machine.mk heap inp) name = (s, Machine.mk heap inp) := by
  unfold intern
  simp [h]

theorem selfValued_NewInterpreter (h : Heap) (back : List symbolSlots) (heap : Heap)
    (hh : heap.symbols = (NewInterpreter h).heap.symbols ++ back) :
    (NewInterpreter h).inp.obarray.lookup ['n', 'i', 'l'] = some (bootNil h.symbols.length) ∧
    (NewInterpreter h).inp.obarray.lookup ['t'] = some (bootT h.symbols.length) ∧
    valueSlot heap (bootNil h.symbols.length) = some (.symbol (bootNil h.symbols.length)) ∧
    valueSlot heap (bootT h.symbols.length) = some (.symbol (bootT h.symbols.length)) := by
  rw [NewInterpreter_eq] at hh ⊢
  refine ⟨by simp [List.lookup], by simp [List.lookup], ?_, ?_⟩
  · simp only [valueSlot, hh, bootNil, List.get?_eq_getElem?, List.append_assoc]
    rw [List.getElem?_append_right (by omega)]
    simp
  · simp only [valueSlot, hh, bootT, List.get?_eq_getElem?, List.append_assoc]
    rw [List.getElem?_append_right (by omega)]
    simp

theorem selfValued_intern (m : Machine) (inp : interpreter) (name k : GoString)
    (h : selfValued m.heap inp k) : selfValued (intern m name).2.heap inp k := by
  obtain ⟨s, hs, hv⟩ := h
  refine ⟨s, hs, ?_⟩
  have hlt : s.addr < m.heap.symbols.length := by
    unfold valueSlot at hv
    rw [List.get?_eq_getElem?] at hv
    by_contra hge
    rw [List.getElem?_eq_none (by omega)] at hv
    cases hv
  rw [valueSlot_intern m name s hlt, hv]

theorem lookup_NewInterpreter (h : Heap) (k : GoString) (s : lispSymbol)
    (hk : (NewInterpreter h).inp.obarray.lookup k = some s) :
    h.symbols.length ≤ s.addr ∧ s.addr < h.symbols.length + 2 := by
  rw [NewInterpreter_eq] at hk
  simp only [List.lookup] at hk
  split at hk
  · cases hk; simp [bootT]
  · split at hk
    · cases hk; simp [bootNil]
    · cases hk

theorem NewInterpreter_length (h : Heap) :
    (NewInterpreter h).heap.symbols.length = h.symbols.length + 2 := by
  rw [NewInterpreter_eq]
  simp

/-- The symbol `intern` returns is in the table or is allocated at the end of the heap. -/
theorem intern_addr (m : Machine) (name : GoString) :
    m.inp.obarray.lookup name = some (intern m name).1 ∨
      (intern m name).1.addr = m.heap.symbols.length := by
  unfold intern
  cases h : m.inp.obarray.lookup name with
  | some sym => exact Or.inl rfl
  | none => exact Or.inr rfl

/-- C12: after `NewInterpreter` the symbols interned under `nil` and `t` hold themselves in
their value slots, and `nil_` is the symbol of the table under `nil`, which `intern` returns. A second interpreter
shares no symbol instance with the first; constructing it, and interning a name in either
interpreter, leaves the table of the other and the value slots of `nil` and `t` of the
other as they are. -/
theorem bootstrap_nil_and_t (h : Heap) (extra : List symbolSlots) (name : GoString) :
    (selfValued (NewInterpreter h).heap (NewInterpreter h).inp ['n', 'i', 'l'] ∧
      selfValued (NewInterpreter h).heap (NewInterpreter h).inp ['t'] ∧
      ∃ s, (NewInterpreter h).inp.obarray.lookup ['n', 'i', 'l'] = some s ∧
        (NewInterpreter h).inp.nil_ = .symbol s ∧
        intern (NewInterpreter h) ['n', 'i', 'l'] = (s, NewInterpreter h)) ∧
    (∀ k1 k2 s1 s2, (NewInterpreter h).inp.obarray.lookup k1 = some s1 →
      (secondInterpreter h extra).inp.obarray.lookup k2 = some s2 → s1.addr ≠ s2.addr) ∧
    (selfValued (secondInterpreter h extra).heap (NewInterpreter h).inp ['n', 'i', 'l'] ∧
      selfValued (secondInterpreter h extra).heap (NewInterpreter h).inp ['t']) ∧
    (selfValued (intern (secondInterpreter h extra) name).2.heap (NewInterpreter h).inp
        ['n', 'i', 'l'] ∧
      selfValued (intern (secondInterpreter h extra) name).2.heap (NewInterpreter h).inp ['t'] ∧
      ∀ k s1, (NewInterpreter h).inp.obarray.lookup k = some s1 →
        (intern (secondInterpreter h extra) name).1.addr ≠ s1.addr) ∧
    (selfValued (intern (Machine.mk (secondInterpreter h extra).heap (NewInterpreter h).inp)
        name).2.heap (secondInterpreter h extra).inp ['n', 'i', 'l'] ∧
      selfValued (intern (Machine.mk (secondInterpreter h extra).heap (NewInterpreter h).inp)
        name).2.heap (secondInterpreter h extra).inp ['t'] ∧
      ∀ k s2, (secondInterpreter h extra).inp.obarray.lookup k = some s2 →
        (intern (Machine.mk (secondInterpreter h extra).heap (NewInterpreter h).inp)
          name).1.addr ≠ s2.addr) := by
  have hlen := NewInterpreter_length h
  have hlen2 : (secondInterpreter h extra).heap.symbols.length =
      h.symbols.length + 2 + extra.length + 2 := by
    unfold secondInterpreter
    rw [NewInterpreter_length]
    simp [hlen]
  -- the first interpreter, in its own heap and in the heap after the second is constructed
  have h1 := selfValued_NewInterpreter h [] (NewInterpreter h).heap (by simp)
  have h12 := selfValued_NewInterpreter h
    (extra ++ [symbolSlots.mk (.symbol (bootNil (h.symbols.length + 2 + extra.length))) .null,
      symbolSlots.mk (.symbol (bootT (h.symbols.length + 2 + extra.length))) .null])
    (secondInterpreter h extra).heap
    (by unfold secondInterpreter; rw [NewInterpreter_eq (Heap.mk _)]; simp [hlen])
  -- the second interpreter in its own heap
  have h2 := selfValued_NewInterpreter (Heap.mk ((NewInterpreter h).heap.symbols ++ extra))
    [] (secondInterpreter h extra).heap (by unfold secondInterpreter; simp)
  have s1nil : selfValued (NewInterpreter h).heap (NewInterpreter h).inp ['n', 'i', 'l'] :=
    ⟨_, h1.1, h1.2.2.1⟩
  have s1t : selfValued (NewInterpreter h).heap (NewInterpreter h).inp ['t'] :=
    ⟨_, h1.2.1, h1.2.2.2⟩
  have s12nil : selfValued (secondInterpreter h extra).heap (NewInterpreter h).inp
      ['n', 'i', 'l'] := ⟨_, h12.1, h12.2.2.1⟩
  have s12t : selfValued (secondInterpreter h extra).heap (NewInterpreter h).inp ['t'] :=
    ⟨_, h12.2.1, h12.2.2.2⟩
  have s2nil : selfValued (secondInterpreter h extra).heap (secondInterpreter h extra).inp
      ['n', 'i', 'l'] := ⟨_, h2.1, h2.2.2.1⟩
  have s2t : selfValued (secondInterpreter h extra).heap (secondInterpreter h extra).inp
      ['t'] := ⟨_, h2.2.1, h2.2.2.2⟩
  have hfirst : ∀ k s1, (NewInterpreter h).inp.obarray.lookup k = some s1 →
      s1.addr < h.symbols.length + 2 := fun k s1 hk => (lookup_NewInterpreter h k s1 hk).2
  have hsecond : ∀ k s2, (secondInterpreter h extra).inp.obarray.lookup k = some s2 →
      h.symbols.length + 2 + extra.length ≤ s2.addr ∧
        s2.addr < h.symbols.length + 2 + extra.length + 2 := by
    intro k s2 hk
    have := lookup_NewInterpreter _ k s2 hk
    simpa [hlen] using this
  refine ⟨⟨s1nil, s1t, bootNil h.symbols.length, h1.1, ?_, ?_⟩, ?_, ⟨s12nil, s12t⟩,
    ⟨?_, ?_, ?_⟩, ⟨?_, ?_, ?_⟩⟩
  · rw [NewInterpreter_eq]
  · exact intern_inp_of_lookup _ _ _ _ h1.1
  · intro k1 k2 s1 s2 hk1 hk2
    have := hfirst k1 s1 hk1
    have := (hsecond k2 s2 hk2).1
    omega
  · exact selfValued_intern _ _ name _ s12nil
  · exact selfValued_intern _ _ name _ s12t
  · intro k s1 hk
    have := hfirst k s1 hk
    rcases intern_addr (secondInterpreter h extra) name with hi | hi
    · have := (hsecond name _ hi).1
      omega
    · rw [hi, hlen2]
      omega
  · exact selfValued_intern (Machine.mk _ _) _ name _ s2nil
  · exact selfValued_intern (Machine.mk _ _) _ name _ s2t
  · intro k s2 hk
    have := (hsecond k s2 hk).2
    rcases intern_addr (Machine.mk (secondInterpreter h extra).heap (NewInterpreter h).inp)
      name with hi | hi
    · have := hfirst name _ hi
      have := (hsecond k s2 hk).1
      omega
    · rw [hi]
      simp only [hlen2]
      omega

/-- C13 (amended): `unread` of the end-of-input sentinel leaves the cursor as it is; `unread`
of another rune panics exactly at position 0 and otherwise moves the position back by one,
so a second `unread` in a row moves it back a second time and panics only when the first
one has brought the position to 0. -/
theorem unread_moves_back (ctx : readContext) (c : Int) (hc : c ≠ eofRune) :
    ctx.unread eofRune = .ret ctx ∧
    ctx.unread c =
      (if ctx.i = 0 then .panic "nothing to unread" else .ret { ctx with i := ctx.i - 1 }) ∧
    (ctx.unread c >>= fun ctx1 => ctx1.unread c) =
      (if ctx.i ≤ 1 then .panic "nothing to unread" else .ret { ctx with i := ctx.i - 2 }) := by
  refine ⟨by simp [readContext.unread], by simp [readContext.unread, hc], ?_⟩
  unfold readContext.unread
  rw [if_neg hc]
  by_cases h0 : ctx.i = 0
  · rw [if_pos h0, if_pos (by omega)]
    rfl
  · rw [if_neg h0]
    simp only [Run.ret_bind]
    by_cases h1 : ctx.i = 1
    · simp [h1, hc]
    · have h2 : ¬ ctx.i ≤ 1 := by omega
      have h3 : ¬ ctx.i - 1 = 0 := by omega
      have h4 : ctx.i - 1 - 1 = ctx.i - 2 := by omega
      simp only [h2, h3, hc, if_false, h4]

theorem unread_moves_back_witness :
    (98 : Int) ≠ eofRune ∧
    (readContext.mk "ab".toList 2).unread eofRune = .ret (readContext.mk "ab".toList 2) ∧
    (readContext.mk "ab".toList 2).unread 98 = .ret (readContext.mk "ab".toList 1) ∧
    ((readContext.mk "ab".toList 2).unread 98 >>= fun ctx1 => ctx1.unread 98) =
      .ret (readContext.mk "ab".toList 0) :=
  ⟨by decide, unread_moves_back (readContext.mk "ab".toList 2) 98 (by decide)⟩

/-- C13 as stated fails: after two reads of the text `ab`, two calls of `unread` in a row
with the rune read last do not panic; they bring the cursor back to the start. -/
theorem second_unread_counterexample :
    (98 : Int) ≠ eofRune ∧
    ((readContext.mk "ab".toList 0).read >>= fun r1 =>
      r1.2.read >>= fun r2 =>
        r2.2.unread r2.1 >>= fun ctx3 => ctx3.unread r2.1) =
      .ret (readContext.mk "ab".toList 0) := by
  decide

/-! ## The printer on every object -/

theorem prin1_value (lib : FloatLib) (inp : interpreter) (obj : lispObject) (h : Value obj) :
    prin1 lib inp obj =
      (if rendersVector inp obj then .ret (.null, prin1Unimplemented)
        else .ret (.string_ (render lib inp obj), none)) ∧
    ∀ s, prin1Loop lib inp obj s =
      (if tailRendersVector inp obj then .ret (.null, prin1Unimplemented)
        else .ret (.string_ (s ++ renderTail lib inp obj), none)) := by
  induction h with
  | cons a d _ _ iha ihd =>
    constructor
    · rw [prin1, iha.1]
      by_cases ha : rendersVector inp a = true
      · simp [ha, rendersVector, prin1Unimplemented]
      · by_cases hd : tailRendersVector inp d = true
        · simp [ha, hd, rendersVector, stringValue, ihd.2]
        · simp [ha, hd, rendersVector, stringValue, ihd.2, render]
    · intro s
      rw [prin1Loop, iha.1]
      by_cases ha : rendersVector inp a = true
      · simp [ha, tailRendersVector, prin1Unimplemented]
      · by_cases hd : tailRendersVector inp d = true
        · simp [ha, hd, tailRendersVector, stringValue, ihd.2]
        · simp [ha, hd, tailRendersVector, stringValue, ihd.2, renderTail]
  | symbol s =>
    constructor
    · simp [prin1, prin1Atom, render, renderAtom, makeString, rendersVector]
    · intro t
      simp only [prin1Loop, prin1End, prin1Atom, renderTail, renderAtom, makeString,
        tailRendersVector]
      by_cases hn : lispObject.symbol s = inp.nil_ <;> simp [hn, stringValue]
  | integer n =>
    constructor
    · simp [prin1, prin1Atom, render, renderAtom, makeString, rendersVector]
    · intro t
      simp only [prin1Loop, prin1End, prin1Atom, renderTail, renderAtom, makeString,
        tailRendersVector]
      by_cases hn : lispObject.integer n = inp.nil_ <;> simp [hn, stringValue]
  | string_ n =>
    constructor
    · simp [prin1, prin1Atom, render, renderAtom, makeString, rendersVector]
    · intro t
      simp only [prin1Loop, prin1End, prin1Atom, renderTail, renderAtom, makeString,
        tailRendersVector]
      by_cases hn : lispObject.string_ n = inp.nil_ <;> simp [hn, stringValue]
  | float n =>
    constructor
    · simp [prin1, prin1Atom, render, renderAtom, makeString, rendersVector]
    · intro t
      simp only [prin1Loop, prin1End, prin1Atom, renderTail, renderAtom, makeString,
        tailRendersVector]
      by_cases hn : lispObject.float n = inp.nil_ <;> simp [hn, stringValue]
  | vectorLike n =>
    constructor
    · simp [prin1, prin1Atom, rendersVector, prin1Unimplemented]
    · intro t
      simp only [prin1Loop, prin1End, prin1Atom, tailRendersVector, renderTail]
      by_cases hn : lispObject.vectorLike n = inp.nil_ <;>
        simp [hn, prin1Unimplemented, makeString]

theorem renderTail_chain (lib : FloatLib) (inp : interpreter) (vs : List lispObject)
    (d : lispObject) (hd : ∀ a b, d ≠ .cons a b) :
    renderTail lib inp (makeChain vs d) =
      joinElts (vs.map (render lib inp)) ++
        (if d = inp.nil_ then [')'] else ' ' :: '.' :: ' ' :: render lib inp d ++ [')']) := by
  induction vs with
  | nil =>
    cases d with
    | cons a b => exact absurd rfl (hd a b)
    | _ => simp [makeChain, renderTail, joinElts, render]
  | cons v vs ih =>
    simp only [makeChain, List.foldr_cons, makeCons, List.map_cons, joinElts] at ih ⊢
    rw [renderTail, ih]
    simp

/-- C14: on an object without a nil interface value in it, `Print` returns the reference
rendering, or the error of `prin1` (with the empty text) exactly when a vector-like is
among what is rendered. The reference rendering of a symbol is its name, of an integer its
decimal form, of a string the string between double quotes, and of a chain of cells with
the cars `v1 :: vs` and the terminal cdr `d` the renderings of the cars, a space between
them, in parentheses, with a dot between spaces and the rendering of `d` before the closing
parenthesis unless `d` is `nil_`. -/
theorem print_reference (lib : FloatLib) (inp : interpreter) (obj : lispObject)
    (h : Value obj) :
    Print lib inp obj =
      (if rendersVector inp obj then .ret ([], prin1Unimplemented)
        else .ret (render lib inp obj, none)) ∧
    (∀ s, render lib inp (.symbol s) = s.name) ∧
    (∀ n, render lib inp (.integer n) = formatInt n) ∧
    (∀ s, render lib inp (.string_ s) = Char.ofNat 34 :: s ++ [Char.ofNat 34]) ∧
    ∀ v1 vs d, (∀ a b, d ≠ .cons a b) →
      render lib inp (makeChain (v1 :: vs) d) =
        '(' :: render lib inp v1 ++ joinElts (vs.map (render lib inp)) ++
          (if d = inp.nil_ then [')'] else ' ' :: '.' :: ' ' :: render lib inp d ++ [')']) := by
  refine ⟨?_, fun s => by simp [render, renderAtom], fun n => by simp [render, renderAtom],
    fun s => by simp [render, renderAtom], fun v1 vs d hd => ?_⟩
  · unfold Print
    rw [(prin1_value lib inp obj h).1]
    by_cases hv : rendersVector inp obj = true
    · simp [hv, prin1Unimplemented]
    · simp [hv, stringValue]
  · have := renderTail_chain lib inp vs d hd
    simp only [makeChain, List.foldr_cons, makeCons] at this ⊢
    rw [render, this]
    simp

theorem print_reference_witness :
    Value (.cons (.integer 1) (.cons (.string_ ['a']) (.symbol (lispSymbol.mk 7 ['x'])))) ∧
    Print noFloats freshMachine.inp
        (.cons (.integer 1) (.cons (.string_ ['a']) (.symbol (lispSymbol.mk 7 ['x'])))) =
      .ret (['(', '1', ' ', Char.ofNat 34, 'a', Char.ofNat 34, ' ', '.', ' ', 'x', ')'], none) ∧
    Value (.cons (.integer 1) (.cons (.vectorLike 0) freshMachine.inp.nil_)) ∧
    Print noFloats freshMachine.inp (.cons (.integer 1) (.cons (.vectorLike 0)
        freshMachine.inp.nil_)) = .ret ([], some "prin1 unimplemented") := by
  have v1 : Value (.cons (.integer 1) (.cons (.string_ ['a'])
      (.symbol (lispSymbol.mk 7 ['x'])))) :=
    .cons _ _ (.integer 1) (.cons _ _ (.string_ _) (.symbol _))
  have v2 : Value (.cons (.integer 1) (.cons (.vectorLike 0) freshMachine.inp.nil_)) :=
    .cons _ _ (.integer 1) (.cons _ _ (.vectorLike 0) (.symbol _))
  have h1 := (print_reference noFloats freshMachine.inp _ v1).1
  have h2 := (print_reference noFloats freshMachine.inp _ v2).1
  exact ⟨v1, h1.trans (by decide), v2, h2.trans (by decide)⟩

/-! ## Escaped atoms and the dot -/

theorem atomChar_ne (c0 : Char) (h0 : atomChar c0) :
    (c0.toNat : Int) ≠ 40 ∧ (c0.toNat : Int) ≠ 91 ∧ (c0.toNat : Int) ≠ 41 ∧
    (c0.toNat : Int) ≠ 93 ∧ (c0.toNat : Int) ≠ 35 ∧ (c0.toNat : Int) ≠ 59 ∧
    (c0.toNat : Int) ≠ 39 ∧ (c0.toNat : Int) ≠ 96 ∧ (c0.toNat : Int) ≠ 44 ∧
    (c0.toNat : Int) ≠ 34 ∧ ¬ (c0.toNat : Int) ≤ 32 ∧ (c0.toNat : Int) ≠ 160 := by
  have hne := h0.1
  unfold atomEnd at hne
  simp only [atomSpecial, nbsp, List.mem_cons, List.mem_singleton, not_or, List.not_mem_nil,
    not_false_eq_true, and_true] at hne
  obtain ⟨h32, h160, h34, h39, h59, h40, h41, h91, h93, h35, h96, h44⟩ := hne
  exact ⟨h40, h91, h41, h93, h35, h59, h39, h96, h44, h34, h32, h160⟩

/-- The loop of `readAtom` started on a backslash: the character after it is taken as it
is, the atom is marked as escaped and goes on to the next rune that ends an atom. -/
theorem readAtomLoop_escaped (a0 : Char) (body pre rest : List Char) (fuel : Nat)
    (hbody : ∀ ch ∈ body, atomChar ch) (hend : atomEnd (peekRune rest))
    (hf : body.length + 2 ≤ fuel) :
    readAtomLoop fuel 92 false [] (ctxAt pre (a0 :: body ++ rest)) =
      .ret ((peekRune rest, true, a0 :: body, none), afterRead (pre ++ a0 :: body) rest) := by
  obtain ⟨fuel, rfl⟩ : ∃ f, fuel = f + 1 := ⟨fuel - 1, by omega⟩
  have heof := toNat_ne_eof a0
  rw [readAtomLoop]
  simp only [if_true, List.cons_append, read_ctxAt_cons, Run.ret_bind, heof, if_false,
    Run.pure_eq, ne_eq, not_true_eq_false, runeToChar_toNat, List.nil_append]
  cases body with
  | nil =>
    unfold atomEnd at hend
    simp [read_ctxAt, hend]
  | cons b body =>
    have hb := hbody b (by simp)
    have hb1 : ¬ ((b.toNat : Int) ≤ 32 ∨ (b.toNat : Int) = nbsp ∨ (b.toNat : Int) ∈ atomSpecial) :=
      hb.1
    have := readAtomLoop_plain body b true [a0] (pre ++ [a0] ++ [b]) rest fuel hb.2
      (fun ch hch => hbody ch (by simp [hch])) hend (by simp at hf; omega)
    simp only [List.cons_append, read_ctxAt_cons, Run.ret_bind, hb1, if_false]
    rw [this]
    simp

/-- A backslash and an atom text read as the symbol of that name. -/
theorem Reads_escaped (lib : FloatLib) (m : Machine) (a : List Char) (h : unescapedAtom a) :
    Reads lib m (Char.ofNat 92 :: a) (.symbol (intern m a).1) (intern m a).2 := by
  obtain ⟨hne, hall⟩ := h
  cases a with
  | nil => exact absurd rfl hne
  | cons a0 body =>
    intro pre rest fuel hend hf
    obtain ⟨fuel, rfl⟩ : ∃ f, fuel = f + 1 := ⟨fuel - 1, by omega⟩
    have hl := readAtomLoop_escaped a0 body (pre ++ [Char.ofNat 92]) rest fuel
      (fun ch hch => hall ch (by simp [hch])) hend (by simp at hf; omega)
    have hc : ((Char.ofNat 92).toNat : Int) = 92 := rfl
    rw [read1]
    simp only [List.cons_append, read_ctxAt_cons, hc, Run.ret_bind]
    simp only [eofRune, nbsp, show ¬ ((92 : Int) = -1) by decide, show ¬ ((92 : Int) = 40) by decide,
      show ¬ ((92 : Int) = 91) by decide, show ¬ ((92 : Int) = 41 ∨ (92 : Int) = 93) by decide,
      show ¬ ((92 : Int) = 35) by decide, show ¬ ((92 : Int) = 59) by decide,
      show ¬ ((92 : Int) = 39 ∨ (92 : Int) = 96) by decide, show ¬ ((92 : Int) = 44) by decide,
      show ¬ ((92 : Int) = 63) by decide, show ¬ ((92 : Int) = 34) by decide,
      show ¬ ((92 : Int) = 46) by decide, show ¬ ((92 : Int) ≤ 32 ∨ (92 : Int) = 160) by decide,
      if_false]
    simp only [List.cons_append] at hl
    unfold readAtom
    rw [hl]
    simp only [Run.ret_bind, ne_eq, not_true_eq_false, if_false, unread_afterRead]
    simp

/-- C15: a backslash followed by a non-empty text of ordinary atom characters reads as the
interned symbol of that name, also when the text is a number. -/
theorem escaped_atom_is_symbol (lib : FloatLib) (m : Machine) (a : List Char)
    (ha : unescapedAtom a) (ht : m.tableNamed) :
    ReadString lib m (Char.ofNat 92 :: a) =
      .ret ((.symbol (intern m a).1, none), (intern m a).2) ∧
    (intern m a).1.name = a ∧
    (intern m a).2.inp.obarray.lookup a = some (intern m a).1 :=
  ⟨ReadString_of_Reads lib m _ _ _ (Reads_escaped lib m a ha), intern_name m a ht,
    intern_lookup m a⟩

theorem escaped_atom_is_symbol_witness :
    unescapedAtom "123".toList ∧ freshMachine.tableNamed ∧
    strconv.ParseInt "123".toList = some 123 ∧
    ReadString noFloats freshMachine (Char.ofNat 92 :: "123".toList) =
      .ret ((.symbol (lispSymbol.mk 2 "123".toList), none),
        (intern freshMachine "123".toList).2) ∧
    (intern freshMachine "123".toList).2.inp.obarray.lookup "123".toList =
      some (lispSymbol.mk 2 "123".toList) := by
  have h := escaped_atom_is_symbol noFloats freshMachine "123".toList (by decide)
    freshMachine_tableNamed
  have e : (intern freshMachine "123".toList).1 = lispSymbol.mk 2 "123".toList := by decide
  rw [e] at h
  exact ⟨by decide, freshMachine_tableNamed, by decide, h.1, h.2.2⟩

theorem atomValue_dot (lib : FloatLib) (m : Machine) :
    atomValue lib m ['.'] = (.symbol (intern m ['.']).1, (intern m ['.']).2) := by
  have hi : strconv.ParseInt ['.'] = none := by decide
  have hfl : lib.ParseFloat ['.'] = none := by
    cases h : lib.ParseFloat ['.'] with
    | none => rfl
    | some f =>
      rcases lib.numeral _ f h with h1 | h1
      · exact absurd h1 (by decide)
      · exact absurd h1 (by decide)
  simp [atomValue, stringToNumber, hi, hfl]

/-- The dot before a rune that makes it the dotted-pair marker. -/
theorem read1_dot_marker (lib : FloatLib) (m : Machine) (pre t : List Char) (fuel : Nat)
    (ht : peekRune t ≤ 32 ∨ peekRune t ∈ dotSpecial) :
    read1 lib (fuel + 1) m (ctxAt pre ('.' :: t)) =
      .ret ((.null, 46, none), m, ctxAt (pre ++ ['.']) t) := by
  have hc : (('.' : Char).toNat : Int) = 46 := rfl
  rw [read1]
  simp only [read_ctxAt_cons, hc, Run.ret_bind]
  simp only [eofRune, show ¬ ((46 : Int) = -1) by decide, show ¬ ((46 : Int) = 40) by decide,
    show ¬ ((46 : Int) = 91) by decide, show ¬ ((46 : Int) = 41 ∨ (46 : Int) = 93) by decide,
    show ¬ ((46 : Int) = 35) by decide, show ¬ ((46 : Int) = 59) by decide,
    show ¬ ((46 : Int) = 39 ∨ (46 : Int) = 96) by decide, show ¬ ((46 : Int) = 44) by decide,
    show ¬ ((46 : Int) = 63) by decide, show ¬ ((46 : Int) = 34) by decide, if_false, if_true,
    read_ctxAt, Run.ret_bind, unread_afterRead, ht]
  rfl

/-- C16 (amended): a dot before the end of the input, a rune up to 0x20 or one of the
characters of `dotSpecial` is the dotted-pair marker: `read1` returns it, leaves the machine
as it is and the cursor after the dot. Before any other rune, the closing parenthesis, the
closing bracket and the no-break space among them, the dot begins an ordinary atom; alone,
it reads as the symbol named by a dot. -/
theorem dot_marker_or_atom (lib : FloatLib) (m : Machine) (pre t body rest : List Char)
    (fuel : Nat) (ht : peekRune t ≤ 32 ∨ peekRune t ∈ dotSpecial)
    (hbody : ∀ ch ∈ body, atomChar ch) (hend : atomEnd (peekRune rest))
    (hnext : ¬ (peekRune (body ++ rest) ≤ 32 ∨ peekRune (body ++ rest) ∈ dotSpecial)) :
    read1 lib (fuel + 1) m (ctxAt pre ('.' :: t)) =
      .ret ((.null, 46, none), m, ctxAt (pre ++ ['.']) t) ∧
    read1 lib (fuel + body.length + 2) m (ctxAt pre ('.' :: body ++ rest)) =
      .ret (((atomValue lib m ('.' :: body)).1, 0, none), (atomValue lib m ('.' :: body)).2,
        ctxAt (pre ++ '.' :: body) rest) ∧
    atomValue lib m ['.'] = (.symbol (intern m ['.']).1, (intern m ['.']).2) := by
  refine ⟨read1_dot_marker lib m pre t fuel ht, ?_, atomValue_dot lib m⟩
  exact read1_atom lib m '.' body pre rest _ (by decide) ⟨by decide, fun _ => hnext⟩ hbody hend
    (by omega)

theorem dot_marker_or_atom_witness :
    (peekRune "?a".toList ≤ 32 ∨ peekRune "?a".toList ∈ dotSpecial) ∧
    atomEnd (peekRune ")".toList) ∧
    ¬ (peekRune ")".toList ≤ 32 ∨ peekRune ")".toList ∈ dotSpecial) ∧
    read1 noFloats 1 freshMachine (ctxAt [] ".?a".toList) =
      .ret ((.null, 46, none), freshMachine, ctxAt ['.'] "?a".toList) ∧
    read1 noFloats 2 freshMachine (ctxAt [] ".)".toList) =
      .ret ((.symbol (lispSymbol.mk 2 ['.']), 0, none), (intern freshMachine ['.']).2,
        ctxAt ['.'] [')']) := by
  have h := dot_marker_or_atom noFloats freshMachine [] "?a".toList [] [')'] 0 (by decide)
    (by decide) (by decide) (by decide)
  have e : atomValue noFloats freshMachine ['.'] =
      (.symbol (lispSymbol.mk 2 ['.']), (intern freshMachine ['.']).2) := by decide
  rw [e] at h
  exact ⟨by decide, by decide, by decide, h.1, h.2.1⟩

/-- C16 as stated fails: a dot immediately followed by a closing parenthesis is not the
dotted-pair marker; `read1` reads it as the symbol named by a dot, so `(a .)` is a list of
two symbols. -/
theorem dot_before_close_counterexample :
    read1 noFloats 2 freshMachine (ctxAt [] ".)".toList) =
      .ret ((.symbol (lispSymbol.mk 2 ['.']), 0, none), (intern freshMachine ['.']).2,
        ctxAt ['.'] [')']) ∧
    ReadString noFloats freshMachine "(a .)".toList =
      .ret ((.cons (.symbol (lispSymbol.mk 2 ['a']))
          (.cons (.symbol (lispSymbol.mk 3 ['.'])) freshMachine.inp.nil_), none),
        (intern (intern freshMachine ['a']).2 ['.']).2) := by
  decide

/-! ## The reader returns: cursor bounds and budget -/

theorem Lands_ret {β : Type} (get : β → readContext) (runes : List Char) (lo : Nat)
    (adv : β → Prop) (b : β) (hr : (get b).runes = runes) (hlo : lo ≤ (get b).i)
    (hhi : (get b).i ≤ runes.length) (ha : adv b → lo < (get b).i) :
    Lands get runes lo adv (.ret b) :=
  ⟨b, rfl, hr, hlo, hhi, ha⟩

theorem Lands_ite {β : Type} (get : β → readContext) (runes : List Char) (lo : Nat)
    (adv : β → Prop) (c : Prop) [Decidable c] (a b : Run β)
    (ht : c → Lands get runes lo adv a) (hf : ¬ c → Lands get runes lo adv b) :
    Lands get runes lo adv (if c then a else b) := by
  by_cases h : c
  · rw [if_pos h]; exact ht h
  · rw [if_neg h]; exact hf h

theorem Lands_bind {β γ : Type} (get : β → readContext) (get' : γ → readContext)
    (runes : List Char) (lo lo' : Nat) (adv : β → Prop) (adv' : γ → Prop) (x : Run β)
    (k : β → Run γ) (hx : Lands get runes lo' adv x)
    (hk : ∀ b, (get b).runes = runes → lo' ≤ (get b).i → (get b).i ≤ runes.length →
      (adv b → lo' < (get b).i) → Lands get' runes lo adv' (k b)) :
    Lands get' runes lo adv' (x >>= k) := by
  obtain ⟨b, hb, hr, hlo, hhi, ha⟩ := hx
  rw [hb]
  exact hk b hr hlo hhi ha

theorem Lands_weaken {β : Type} (get : β → readContext) (runes : List Char) (lo lo' : Nat)
    (adv adv' : β → Prop) (x : Run β) (h : Lands get runes lo' adv' x) (hle : lo ≤ lo')
    (ha : ∀ b, adv b → adv' b) : Lands get runes lo adv x := by
  obtain ⟨b, hb, hr, hlo, hhi, hadv⟩ := h
  exact ⟨b, hb, hr, by omega, hhi, fun hb' => by have := hadv (ha b hb'); omega⟩

theorem Lands_lt {β : Type} (get : β → readContext) (runes : List Char) (lo lo' : Nat)
    (adv adv' : β → Prop) (x : Run β) (h : Lands get runes lo' adv' x) (hlt : lo < lo') :
    Lands get runes lo adv x := by
  obtain ⟨b, hb, hr, hlo, hhi, _⟩ := h
  exact ⟨b, hb, hr, by omega, hhi, fun _ => by omega⟩

theorem read_at_end (ctx : readContext) (h : ctx.i = ctx.runes.length) :
    ctx.read = .ret (eofRune, ctx) := by
  simp [readContext.read, h]

theorem read_before_end (ctx : readContext) (h : ctx.i < ctx.runes.length) :
    ∃ ch : Char, ctx.read = .ret ((ch.toNat : Int), { ctx with i := ctx.i + 1 }) := by
  have hne : ¬ ctx.i = ctx.runes.length := by omega
  refine ⟨ctx.runes[ctx.i], ?_⟩
  simp [readContext.read, hne, List.getElem?_eq_getElem h]

theorem unread_eof (ctx : readContext) : ctx.unread eofRune = .ret ctx := by
  simp [readContext.unread]

theorem unread_after_read (ctx : readContext) (c : Int) (h : c ≠ eofRune) :
    ({ ctx with i := ctx.i + 1 } : readContext).unread c = .ret ctx := by
  simp [readContext.unread, h]

/-- A `read` within bounds returns: the sentinel with the cursor as it is at the end of the
input, and otherwise the rune of a character with the cursor one place further. -/
theorem Lands_read_bind {γ : Type} (get' : γ → readContext) (runes : List Char) (lo : Nat)
    (adv' : γ → Prop) (ctx : readContext) (k : Int × readContext → Run γ)
    (hr : ctx.runes = runes) (hi : ctx.i ≤ runes.length)
    (heof : ctx.i = runes.length → Lands get' runes lo adv' (k (eofRune, ctx)))
    (hk : ∀ ch : Char, ctx.i < runes.length →
      Lands get' runes lo adv' (k ((ch.toNat : Int), { ctx with i := ctx.i + 1 }))) :
    Lands get' runes lo adv' (ctx.read >>= k) := by
  by_cases he : ctx.i = runes.length
  · rw [read_at_end ctx (by rw [hr]; exact he)]
    exact heof he
  · have hlt : ctx.i < runes.length := by omega
    obtain ⟨ch, hch⟩ := read_before_end ctx (by rw [hr]; exact hlt)
    rw [hch]
    exact hk ch hlt

theorem skipComment_lands (runes : List Char) (F : Nat) :
    ∀ (ctx : readContext), ctx.runes = runes → ctx.i ≤ runes.length →
      runes.length - ctx.i + 1 ≤ F →
      Lands (fun c => c) runes ctx.i (fun _ => False) (skipComment F ctx) := by
  induction F with
  | zero => intro ctx _ _ hf; omega
  | succ F ih =>
    intro ctx hr hi hf
    rw [skipComment]
    apply Lands_read_bind _ runes _ _ ctx _ hr hi
    · intro _
      simp only [true_or, if_true]
      exact Lands_ret _ runes _ _ ctx hr (le_refl _) hi (fun h => h.elim)
    · intro ch hlt
      dsimp only
      apply Lands_ite <;> intro
      · exact Lands_ret _ runes _ _ _ hr (by simp) (by simpa using hlt) (fun h => h.elim)
      · exact Lands_weaken _ runes _ _ _ _ _
          (ih { ctx with i := ctx.i + 1 } hr (by simpa using hlt) (by simp; omega))
          (by simp) (fun _ h => h)

theorem readEscapeOctal_lands (runes : List Char) (left : Nat) :
    ∀ (num : Int) (ctx : readContext), ctx.runes = runes → ctx.i ≤ runes.length →
      Lands (fun b : Int × readContext => b.2) runes ctx.i (fun _ => False)
        (readEscapeOctal left num ctx) := by
  induction left with
  | zero =>
    intro num ctx hr hi
    rw [readEscapeOctal]
    exact Lands_ret _ runes _ _ (num, ctx) hr (le_refl _) hi (fun h => h.elim)
  | succ left ih =>
    intro num ctx hr hi
    rw [readEscapeOctal]
    apply Lands_read_bind _ runes _ _ ctx _ hr hi
    · intro _
      have : ¬ (48 ≤ eofRune ∧ eofRune ≤ 55) := by decide
      simp only [this, if_false, unread_eof, Run.ret_bind]
      exact Lands_ret _ runes _ _ (num, ctx) hr (le_refl _) hi (fun h => h.elim)
    · intro ch hlt
      dsimp only
      apply Lands_ite <;> intro
      · exact Lands_weaken _ runes _ _ _ _ _
          (ih _ { ctx with i := ctx.i + 1 } hr (by simpa using hlt)) (by simp) (fun _ h => h)
      · rw [unread_after_read ctx _ (toNat_ne_eof ch)]
        exact Lands_ret _ runes _ _ (num, ctx) hr (le_refl _) hi (fun h => h.elim)

theorem readEscape_lands (runes : List Char) (ctx : readContext) (stringp : Bool)
    (hr : ctx.runes = runes) (hi : ctx.i ≤ runes.length) :
    Lands (fun b : (Int × error) × readContext => b.2) runes ctx.i (fun _ => False)
      (readEscape ctx stringp) := by
  rw [readEscape]
  apply Lands_read_bind _ runes _ _ ctx _ hr hi
  · intro _
    simp only [if_true]
    exact Lands_ret _ runes _ _ (_, ctx) hr (le_refl _) hi (fun h => h.elim)
  · intro ch hlt
    have hret : ∀ a : Int × error,
        Lands (fun b : (Int × error) × readContext => b.2) runes ctx.i (fun _ => False)
          (.ret (a, { ctx with i := ctx.i + 1 })) := fun a =>
      Lands_ret _ runes _ _ (a, _) hr (by simp) (by simpa using hlt) (fun h => h.elim)
    dsimp only
    apply Lands_ite <;> intro
    · exact hret _
    apply Lands_ite <;> intro
    · exact hret _
    apply Lands_ite <;> intro
    · exact hret _
    apply Lands_ite <;> intro
    · exact hret _
    apply Lands_ite <;> intro
    · exact hret _
    apply Lands_ite <;> intro
    · exact hret _
    apply Lands_ite <;> intro
    · exact hret _
    apply Lands_ite <;> intro
    · exact hret _
    apply Lands_ite <;> intro
    · exact hret _
    apply Lands_ite <;> intro
    · exact hret _
    apply Lands_ite <;> intro
    · exact hret _
    apply Lands_ite <;> intro
    · apply Lands_ite <;> intro
      · exact hret _
      · exact hret _
    apply Lands_ite <;> intro
    · exact hret _
    apply Lands_ite <;> intro
    · apply Lands_bind _ _ runes _ _ _ _ _ _
        (readEscapeOctal_lands runes 2 _ { ctx with i := ctx.i + 1 } hr (by simpa using hlt))
      intro b hb1 hb2 hb3 _
      exact Lands_ret _ runes _ _ (_, b.2) hb1 (by simp at hb2 ⊢; omega) hb3 (fun h => h.elim)
    apply Lands_ite <;> intro
    · exact hret _
    · exact hret _

theorem readStringLoop_lands (runes : List Char) (F : Nat) :
    ∀ (builder : GoString) (ctx : readContext), ctx.runes = runes → ctx.i ≤ runes.length →
      runes.length - ctx.i + 1 ≤ F →
      Lands (fun b : (Int × GoString × error) × readContext => b.2) runes ctx.i
        (fun _ => False) (readStringLoop F builder ctx) := by
  induction F with
  | zero => intro _ ctx _ _ hf; omega
  | succ F ih =>
    intro builder ctx hr hi hf
    rw [readStringLoop]
    apply Lands_read_bind _ runes _ _ ctx _ hr hi
    · intro _
      simp only [true_or, if_true]
      exact Lands_ret _ runes _ _ (_, ctx) hr (le_refl _) hi (fun h => h.elim)
    · intro ch hlt
      have hloop : ∀ (builder : GoString) (ctx1 : readContext), ctx1.runes = runes →
          ctx.i + 1 ≤ ctx1.i → ctx1.i ≤ runes.length →
          Lands (fun b : (Int × GoString × error) × readContext => b.2) runes ctx.i
            (fun _ => False) (readStringLoop F builder ctx1) := fun builder ctx1 h1 h2 h3 =>
        Lands_weaken _ runes _ _ _ _ _ (ih builder ctx1 h1 h3 (by omega)) (by omega)
          (fun _ h => h)
      dsimp only
      apply Lands_ite <;> intro
      · exact Lands_ret _ runes _ _ (_, _) hr (by simp) (by simpa using hlt) (fun h => h.elim)
      apply Lands_ite <;> intro
      · apply Lands_bind _ _ runes _ _ _ _ _ _
          (readEscape_lands runes { ctx with i := ctx.i + 1 } true hr (by simpa using hlt))
        intro b hb1 hb2 hb3 _
        dsimp only
        apply Lands_ite <;> intro
        · exact Lands_ret _ runes _ _ (_, b.2) hb1 (by simp at hb2 ⊢; omega) hb3
            (fun h => h.elim)
        apply Lands_ite <;> intro
        · exact hloop _ _ hb1 (by simpa using hb2) hb3
        · exact hloop _ _ hb1 (by simpa using hb2) hb3
      · exact hloop _ _ hr (by simp) (by simpa using hlt)

theorem readCharLiteral_lands (runes : List Char) (ctx : readContext)
    (hr : ctx.runes = runes) (hi : ctx.i ≤ runes.length) :
    Lands (fun b : (lispObject × Int × error) × readContext => b.2) runes ctx.i
      (fun _ => False) (readCharLiteral ctx) := by
  rw [readCharLiteral]
  apply Lands_read_bind _ runes _ _ ctx _ hr hi
  · intro _
    simp only [if_true]
    exact Lands_ret _ runes _ _ (_, ctx) hr (le_refl _) hi (fun h => h.elim)
  · intro ch hlt
    have hnext : ∀ (c : Int) (ctx1 : readContext), ctx1.runes = runes → ctx.i ≤ ctx1.i →
        ctx1.i ≤ runes.length →
        Lands (fun b : (lispObject × Int × error) × readContext => b.2) runes ctx.i
          (fun _ => False)
          (ctx1.read >>= fun r => r.2.unread r.1 >>= fun ctx2 =>
            if r.1 ≤ 32 ∨ r.1 ∈ charSpecial then
              (.ret ((makeInteger c, 0, none), ctx2) :
                Run ((lispObject × Int × error) × readContext))
            else .ret ((.null, 0, some "invalid syntax for '?'"), ctx2)) := by
      intro c ctx1 h1 h2 h3
      apply Lands_read_bind _ runes _ _ ctx1 _ h1 h3
      · intro _
        simp only [unread_eof, Run.ret_bind]
        apply Lands_ite <;> intro
        · exact Lands_ret _ runes _ _ (_, ctx1) h1 h2 h3 (fun h => h.elim)
        · exact Lands_ret _ runes _ _ (_, ctx1) h1 h2 h3 (fun h => h.elim)
      · intro ch2 _
        simp only [unread_after_read ctx1 _ (toNat_ne_eof ch2), Run.ret_bind]
        apply Lands_ite <;> intro
        · exact Lands_ret _ runes _ _ (_, ctx1) h1 h2 h3 (fun h => h.elim)
        · exact Lands_ret _ runes _ _ (_, ctx1) h1 h2 h3 (fun h => h.elim)
    dsimp only
    apply Lands_ite <;> intro
    · exact Lands_ret _ runes _ _ (_, _) hr (by simp) (by simpa using hlt) (fun h => h.elim)
    apply Lands_ite <;> intro
    · exact Lands_ret _ runes _ _ (_, _) hr (by simp) (by simpa using hlt) (fun h => h.elim)
    by_cases h92 : (ch.toNat : Int) = 92
    · rw [if_pos h92]
      apply Lands_bind _ _ runes _ _ _ _ _ _
        (readEscape_lands runes { ctx with i := ctx.i + 1 } false hr (by simpa using hlt))
      intro b hb1 hb2 hb3 _
      dsimp only
      apply Lands_ite <;> intro
      · exact Lands_ret _ runes _ _ (_, b.2) hb1 (by simp at hb2 ⊢; omega) hb3 (fun h => h.elim)
      · exact hnext _ b.2 hb1 (by simp at hb2 ⊢; omega) hb3
    · rw [if_neg h92]
      simp only [Run.pure_eq, Run.ret_bind]
      apply Lands_ite <;> intro
      · exact Lands_ret _ runes _ _ (_, _) hr (by simp) (by simpa using hlt) (fun h => h.elim)
      · exact hnext _ { ctx with i := ctx.i + 1 } hr (by simp) (by simpa using hlt)

theorem AtomStop_weaken (runes : List Char) (lo lo' : Nat)
    (b : (Int × Bool × GoString × error) × readContext) (h : AtomStop runes lo' b)
    (hle : lo ≤ lo') : AtomStop runes lo b := by
  obtain ⟨h1, h2, h3, h4⟩ := h
  refine ⟨h1, by omega, h3, fun he => ?_⟩
  obtain ⟨ctx0, e1, e2, e3, e4⟩ := h4 he
  exact ⟨ctx0, e1, e2, by omega, e4⟩

theorem readAtomLoop_stops (runes : List Char) (F : Nat) :
    ∀ (c : Int) (quoted : Bool) (builder : GoString) (ctx : readContext),
      ctx.runes = runes → ctx.i ≤ runes.length → runes.length - ctx.i + 1 ≤ F →
      ∃ b, readAtomLoop F c quoted builder ctx = .ret b ∧ AtomStop runes ctx.i b := by
  induction F with
  | zero => intro _ _ _ ctx _ _ hf; omega
  | succ F ih =>
    intro c quoted builder ctx hr hi hf
    -- the rest of the body, once the rune to write is known
    have hrest : ∀ (c1 : Int) (q1 : Bool) (ctx1 : readContext), ctx1.runes = runes →
        ctx.i ≤ ctx1.i → ctx1.i ≤ runes.length →
        ∃ b, (ctx1.read >>= fun r =>
            if r.1 ≤ 32 ∨ r.1 = nbsp ∨ r.1 ∈ atomSpecial then
              (.ret ((r.1, q1, builder ++ [runeToChar c1], none), r.2) :
                Run ((Int × Bool × GoString × error) × readContext))
            else readAtomLoop F r.1 q1 (builder ++ [runeToChar c1]) r.2) = .ret b ∧
          AtomStop runes ctx.i b := by
      intro c1 q1 ctx1 h1 h2 h3
      by_cases he : ctx1.i = runes.length
      · rw [read_at_end ctx1 (by rw [h1]; exact he)]
        refine ⟨((eofRune, q1, builder ++ [runeToChar c1], none), ctx1), ?_, h1, h2, h3,
          fun _ => ⟨ctx1, unread_eof ctx1, h1, h2, h3⟩⟩
        simp [eofRune]
      · have hlt : ctx1.i < runes.length := by omega
        obtain ⟨ch, hch⟩ := read_before_end ctx1 (by rw [h1]; exact hlt)
        rw [hch]
        simp only [Run.ret_bind]
        by_cases hend : (ch.toNat : Int) ≤ 32 ∨ (ch.toNat : Int) = nbsp ∨
            (ch.toNat : Int) ∈ atomSpecial
        · rw [if_pos hend]
          exact ⟨_, rfl, h1, by simp; omega, by simpa using hlt,
            fun _ => ⟨ctx1, unread_after_read ctx1 _ (toNat_ne_eof ch), h1, h2, h3⟩⟩
        · rw [if_neg hend]
          obtain ⟨b, hb, hs⟩ := ih (ch.toNat : Int) q1 (builder ++ [runeToChar c1])
            { ctx1 with i := ctx1.i + 1 } h1 (by simpa using hlt) (by simp; omega)
          exact ⟨b, hb, AtomStop_weaken runes _ _ b hs (by simp; omega)⟩
    rw [readAtomLoop]
    by_cases h92 : c = 92
    · rw [if_pos h92]
      by_cases he : ctx.i = runes.length
      · rw [read_at_end ctx (by rw [hr]; exact he)]
        refine ⟨((eofRune, quoted, builder, some "eof reading atom"), ctx), ?_, hr, le_refl _,
          hi, fun h => by cases h⟩
        simp
      · have hlt : ctx.i < runes.length := by omega
        obtain ⟨ch, hch⟩ := read_before_end ctx (by rw [hr]; exact hlt)
        rw [hch]
        simp only [Run.ret_bind, toNat_ne_eof, if_false, Run.pure_eq, ne_eq, not_true_eq_false]
        exact hrest (ch.toNat : Int) true { ctx with i := ctx.i + 1 } hr (by simp)
          (by simpa using hlt)
    · rw [if_neg h92]
      simp only [Run.ret_bind, Run.pure_eq, ne_eq, not_true_eq_false, if_false]
      exact hrest c quoted ctx hr (le_refl _) hi

theorem readAtom_lands (lib : FloatLib) (runes : List Char) (F : Nat) (m : Machine) (c : Int)
    (ctx : readContext) (hr : ctx.runes = runes) (hi : ctx.i ≤ runes.length)
    (hf : runes.length - ctx.i + 1 ≤ F) :
    Lands (fun b : (lispObject × error) × Machine × readContext => b.2.2) runes ctx.i
      (fun _ => False) (readAtom lib F m c ctx) := by
  obtain ⟨b, hb, h1, h2, h3, h4⟩ := readAtomLoop_stops runes F c false [] ctx hr hi hf
  rw [readAtom, hb]
  simp only [Run.ret_bind]
  by_cases he : b.1.2.2.2 = none
  · obtain ⟨ctx0, e1, e2, e3, e4⟩ := h4 he
    simp only [he, ne_eq, not_true_eq_false, if_false, e1, Run.ret_bind]
    apply Lands_ite <;> intro
    · exact Lands_ret _ runes _ _ (_, m, ctx0) e2 e3 e4 (fun h => h.elim)
    · exact Lands_ret _ runes _ _ (_, _, ctx0) e2 e3 e4 (fun h => h.elim)
  · simp only [ne_eq, he, not_false_eq_true, if_true]
    exact Lands_ret _ runes _ _ (_, m, b.2) h1 h2 h3 (fun h => h.elim)

/-- With a budget of twice the runes left and one more (two more for `readList` and `read0`)
the functions of the reader return, the cursor within bounds and not before the place it
started from; a `read1` that returns no error has moved the cursor. -/
theorem reader_lands (lib : FloatLib) (runes : List Char) (F : Nat) :
    ∀ (m : Machine) (ctx : readContext), ctx.runes = runes → ctx.i ≤ runes.length →
      (2 * (runes.length - ctx.i) + 1 ≤ F →
        Lands cursor1 runes ctx.i (fun b => b.1.2.2 = none) (read1 lib F m ctx)) ∧
      (∀ elts, 2 * (runes.length - ctx.i) + 2 ≤ F →
        Lands cursor0 runes ctx.i (fun _ => False) (readList lib F m ctx elts)) ∧
      (2 * (runes.length - ctx.i) + 2 ≤ F →
        Lands cursor0 runes ctx.i (fun _ => False) (read0 lib F m ctx)) := by
  induction F with
  | zero =>
    intro m ctx _ _
    exact ⟨fun h => by omega, fun _ h => by omega, fun h => by omega⟩
  | succ F ih =>
    intro m ctx hr hi
    refine ⟨fun hf => ?_, fun elts hf => ?_, fun hf => ?_⟩
    · rw [read1]
      apply Lands_read_bind _ runes _ _ ctx _ hr hi
      · intro _
        simp only [if_true]
        exact Lands_ret cursor1 runes _ _ (_, m, ctx) hr (le_refl _) hi (fun h => by cases h)
      · intro ch hlt
        have hi1 : ctx.i + 1 ≤ runes.length := hlt
        have hret : ∀ (a : lispObject × Int × error) (m1 : Machine),
            Lands cursor1 runes (ctx.i + 1) (fun _ => False)
              (.ret (a, m1, { ctx with i := ctx.i + 1 })) := fun a m1 =>
          Lands_ret cursor1 runes _ _ (a, m1, _) hr (le_refl _) hi1 (fun h => h.elim)
        have hatom : ∀ (c : Int),
            Lands cursor1 runes (ctx.i + 1) (fun _ => False)
              (readAtom lib F m c { ctx with i := ctx.i + 1 } >>= fun r =>
                .ret ((r.1.1, (0 : Int), r.1.2), r.2.1, r.2.2)) := by
          intro c
          apply Lands_bind _ cursor1 runes _ _ _ _ _ _
            (readAtom_lands lib runes F m c { ctx with i := ctx.i + 1 } hr hi1
              (by simp only; omega))
          intro b hb1 hb2 hb3 _
          exact Lands_ret cursor1 runes _ _ (_, b.2.1, b.2.2) hb1 hb2 hb3 (fun h => h.elim)
        apply Lands_lt cursor1 runes ctx.i (ctx.i + 1) _ (fun _ => False) _ ?_ (by omega)
        dsimp only
        apply Lands_ite <;> intro
        · exact hret _ _
        apply Lands_ite <;> intro
        · apply Lands_bind _ cursor1 runes _ _ _ _ _ _
            ((ih m { ctx with i := ctx.i + 1 } hr hi1).2.1 [] (by simp only; omega))
          intro b hb1 hb2 hb3 _
          exact Lands_ret cursor1 runes _ _ (_, b.2.1, b.2.2) hb1 hb2 hb3 (fun h => h.elim)
        apply Lands_ite <;> intro
        · exact hret _ _
        apply Lands_ite <;> intro
        · exact hret _ _
        apply Lands_ite <;> intro
        · exact hret _ _
        apply Lands_ite <;> intro
        · apply Lands_bind _ cursor1 runes _ _ _ _ _ _
            (skipComment_lands runes F { ctx with i := ctx.i + 1 } hr hi1 (by simp only; omega))
          intro ctx2 hb1 hb2 hb3 _
          exact Lands_weaken cursor1 runes _ _ _ _ _
            ((ih m ctx2 hb1 hb3).1 (by simp only at hb2; omega)) hb2 (fun _ h => h.elim)
        apply Lands_ite <;> intro
        · apply Lands_bind _ cursor1 runes _ _ _ _ _ _
            ((ih m { ctx with i := ctx.i + 1 } hr hi1).2.2 (by simp only; omega))
          intro b hb1 hb2 hb3 _
          dsimp only
          apply Lands_ite <;> intro
          · exact Lands_ret cursor1 runes _ _ (_, b.2.1, b.2.2) hb1 hb2 hb3 (fun h => h.elim)
          · exact Lands_ret cursor1 runes _ _ (_, _, b.2.2) hb1 hb2 hb3 (fun h => h.elim)
        apply Lands_ite <;> intro
        · exact hret _ _
        apply Lands_ite <;> intro
        · apply Lands_bind _ cursor1 runes _ _ _ _ _ _
            (readCharLiteral_lands runes { ctx with i := ctx.i + 1 } hr hi1)
          intro b hb1 hb2 hb3 _
          exact Lands_ret cursor1 runes _ _ (_, m, b.2) hb1 hb2 hb3 (fun h => h.elim)
        apply Lands_ite <;> intro
        · apply Lands_bind _ cursor1 runes _ _ _ _ _ _
            (readStringLoop_lands runes F [] { ctx with i := ctx.i + 1 } hr hi1
              (by simp only; omega))
          intro b hb1 hb2 hb3 _
          dsimp only
          apply Lands_ite <;> intro
          · exact Lands_ret cursor1 runes _ _ (_, m, b.2) hb1 hb2 hb3 (fun h => h.elim)
          apply Lands_ite <;> intro
          · exact Lands_ret cursor1 runes _ _ (_, m, b.2) hb1 hb2 hb3 (fun h => h.elim)
          · exact Lands_ret cursor1 runes _ _ (_, m, b.2) hb1 hb2 hb3 (fun h => h.elim)
        apply Lands_ite <;> intro
        · apply Lands_read_bind _ runes _ _ { ctx with i := ctx.i + 1 } _ hr hi1
          · intro _
            simp only [unread_eof, Run.ret_bind]
            apply Lands_ite <;> intro
            · exact hret _ _
            · exact hatom _
          · intro ch2 _
            simp only [unread_after_read _ _ (toNat_ne_eof ch2), Run.ret_bind]
            apply Lands_ite <;> intro
            · exact hret _ _
            · exact hatom _
        apply Lands_ite <;> intro
        · exact Lands_weaken cursor1 runes _ _ _ _ _
            ((ih m { ctx with i := ctx.i + 1 } hr hi1).1 (by simp only; omega)) (le_refl _)
            (fun _ h => h.elim)
        · exact hatom _
    · rw [readList]
      apply Lands_bind cursor1 cursor0 runes _ _ _ _ _ _ ((ih m ctx hr hi).1 (by omega))
      intro b hb1 hb2 hb3 hb4
      dsimp only
      apply Lands_ite <;> intro
      · exact Lands_ret cursor0 runes _ _ (_, b.2.1, b.2.2) hb1 hb2 hb3 (fun h => h.elim)
      rename_i hne
      have hadv : ctx.i < b.2.2.i := hb4 (by simpa using hne)
      have hb3' : b.2.2.i ≤ runes.length := hb3
      apply Lands_ite <;> intro
      · apply Lands_ite <;> intro
        · exact Lands_ret cursor0 runes _ _ (_, b.2.1, b.2.2) hb1 hb2 hb3 (fun h => h.elim)
        apply Lands_ite <;> intro
        · apply Lands_bind cursor0 cursor0 runes _ _ _ _ _ _
            ((ih b.2.1 b.2.2 hb1 hb3).2.2 (by omega))
          intro b2 h21 h22 h23 _
          dsimp only
          apply Lands_ite <;> intro
          · exact Lands_ret cursor0 runes _ _ (_, b2.2.1, b2.2.2) h21
              (by simp only [cursor0] at h22 ⊢; omega) h23 (fun h => h.elim)
          · apply Lands_bind cursor1 cursor0 runes _ _ _ _ _ _
              ((ih b2.2.1 b2.2.2 h21 h23).1 (by simp only [cursor0] at h22; omega))
            intro b3 h31 h32 h33 _
            dsimp only
            apply Lands_ite <;> intro
            · exact Lands_ret cursor0 runes _ _ (_, b3.2.1, b3.2.2) h31
                (by simp only [cursor0, cursor1] at h22 h32 ⊢; omega) h33 (fun h => h.elim)
            · exact Lands_ret cursor0 runes _ _ (_, b3.2.1, b3.2.2) h31
                (by simp only [cursor0, cursor1] at h22 h32 ⊢; omega) h33 (fun h => h.elim)
        · exact Lands_ret cursor0 runes _ _ (_, b.2.1, b.2.2) hb1 hb2 hb3 (fun h => h.elim)
      · exact Lands_weaken cursor0 runes _ _ _ _ _
          ((ih b.2.1 b.2.2 hb1 hb3).2.1 _ (by omega)) hb2 (fun _ h => h)
    · rw [read0]
      apply Lands_bind cursor1 cursor0 runes _ _ _ _ _ _ ((ih m ctx hr hi).1 (by omega))
      intro b hb1 hb2 hb3 _
      dsimp only
      apply Lands_ite <;> intro
      · exact Lands_ret cursor0 runes _ _ (_, b.2.1, b.2.2) hb1 hb2 hb3 (fun h => h.elim)
      apply Lands_ite <;> intro
      · exact Lands_ret cursor0 runes _ _ (_, b.2.1, b.2.2) hb1 hb2 hb3 (fun h => h.elim)
      · exact Lands_ret cursor0 runes _ _ (_, b.2.1, b.2.2) hb1 hb2 hb3 (fun h => h.elim)

/-! ## The dot case of lists -/

theorem Yields_ret {β : Type} (P : β → Prop) (b : β) (h : P b) : Yields P (.ret b) := by
  intro b' hb
  cases hb
  exact h

theorem Yields_ite {β : Type} (P : β → Prop) (c : Prop) [Decidable c] (a b : Run β)
    (ht : c → Yields P a) (hf : ¬ c → Yields P b) : Yields P (if c then a else b) := by
  by_cases h : c
  · rw [if_pos h]; exact ht h
  · rw [if_neg h]; exact hf h

theorem Yields_bind {β γ : Type} (Q : β → Prop) (P : γ → Prop) (x : Run β) (k : β → Run γ)
    (hx : Yields Q x) (hk : ∀ a, Q a → Yields P (k a)) : Yields P (x >>= k) := by
  intro c hc
  obtain ⟨a, ha, hka⟩ := bind_eq_ret x k c hc
  exact hk a (hx a ha) c hka

theorem Yields_bind_any {β γ : Type} (P : γ → Prop) (x : Run β) (k : β → Run γ)
    (hk : ∀ a, Yields P (k a)) : Yields P (x >>= k) := by
  intro c hc
  obtain ⟨a, _, hka⟩ := bind_eq_ret x k c hc
  exact hk a c hka

theorem char_of_toNat (ch : Char) (n : Nat) (h : (ch.toNat : Int) = (n : Int)) :
    ch = runeToChar (n : Int) := by
  rw [← h, runeToChar_toNat]

theorem not_Closes_nil : ¬ Closes [] := by
  rintro ⟨s, rest, _, h⟩
  cases s <;> simp at h

theorem Closes_blank (c : Char) (t : List Char) (hc : blankChar c) (h : Closes t) :
    Closes (c :: t) := by
  obtain ⟨s, rest, hs, rfl⟩ := h
  exact ⟨c :: s, rest, .blank c s hc hs, rfl⟩

theorem Closes_comment (body t : List Char) (hb : ∀ ch ∈ body, ch.toNat ≠ 10) (h : Closes t) :
    Closes (';' :: body ++ Char.ofNat 10 :: t) := by
  obtain ⟨s, rest, hs, rfl⟩ := h
  exact ⟨';' :: body ++ Char.ofNat 10 :: s, rest, .comment body s hb hs, by simp⟩

/-- What the comment loop leaves: the cursor after the end of the line, or at the end of an
input without one. -/
theorem skipComment_yields (F : Nat) :
    ∀ (pre t : List Char),
      Yields (fun ctx2 =>
        (∃ body t', t = body ++ Char.ofNat 10 :: t' ∧ (∀ ch ∈ body, ch.toNat ≠ 10) ∧
          ctx2 = ctxAt (pre ++ body ++ [Char.ofNat 10]) t') ∨
        ((∀ ch ∈ t, ch.toNat ≠ 10) ∧ ctx2 = ctxAt (pre ++ t) []))
        (skipComment F (ctxAt pre t)) := by
  induction F with
  | zero => intro pre t b hb; rw [skipComment] at hb; cases hb
  | succ F ih =>
    intro pre t
    cases t with
    | nil =>
      rw [skipComment, read_ctxAt_nil]
      simp only [Run.ret_bind, true_or, if_true]
      exact Yields_ret _ _ (Or.inr ⟨by simp, by simp⟩)
    | cons c t =>
      rw [skipComment, read_ctxAt_cons]
      simp only [Run.ret_bind]
      apply Yields_ite <;> intro hc
      · have h10 : (c.toNat : Int) = ((10 : Nat) : Int) := by
          rcases hc with hc | hc
          · exact absurd hc (toNat_ne_eof c)
          · simpa using hc
        have hch : c = Char.ofNat 10 := char_of_toNat c 10 h10
        exact Yields_ret _ _ (Or.inl ⟨[], t, by simp [hch], by simp, by simp [hch]⟩)
      · have h10 : c.toNat ≠ 10 := by
          intro h
          exact hc (Or.inr (by simp [h]))
        intro b hb
        rcases ih (pre ++ [c]) t b hb with ⟨body, t', e1, e2, e3⟩ | ⟨e1, e2⟩
        · refine Or.inl ⟨c :: body, t', by simp [e1], ?_, by simp [e3]⟩
          intro ch hch
          rcases List.mem_cons.1 hch with rfl | hch
          · exact h10
          · exact e2 ch hch
        · refine Or.inr ⟨?_, by simp [e2]⟩
          intro ch hch
          rcases List.mem_cons.1 hch with rfl | hch
          · exact h10
          · exact e1 ch hch

theorem readCharLiteral_token (ctx : readContext) :
    Yields (fun b => b.1.2.1 = 0) (readCharLiteral ctx) := by
  rw [readCharLiteral]
  refine Yields_bind_any _ _ _ (fun r => ?_)
  dsimp only
  apply Yields_ite <;> intro
  · exact Yields_ret _ _ rfl
  apply Yields_ite <;> intro
  · exact Yields_ret _ _ rfl
  refine Yields_bind_any _ _ _ (fun r2 => ?_)
  dsimp only
  apply Yields_ite <;> intro
  · exact Yields_ret _ _ rfl
  refine Yields_bind_any _ _ _ (fun r3 => ?_)
  refine Yields_bind_any _ _ _ (fun r4 => ?_)
  apply Yields_ite <;> intro
  · exact Yields_ret _ _ rfl
  · exact Yields_ret _ _ rfl

theorem Yields_mono {β : Type} (Q P : β → Prop) (x : Run β) (h : ∀ b, Q b → P b)
    (hx : Yields Q x) : Yields P x := fun b hb => h b (hx b hb)

/-- When `read1` returns the closing parenthesis as its rune, the text before the cursor
starts, after blanks and comments, with a closing parenthesis. -/
theorem read1_closes (lib : FloatLib) (F : Nat) :
    ∀ (m : Machine) (pre X : List Char),
      Yields (fun b => b.1.2.1 = 41 → Closes X) (read1 lib F m (ctxAt pre X)) := by
  induction F with
  | zero => intro m pre X b hb; rw [read1] at hb; cases hb
  | succ F ih =>
    intro m pre X
    have h0 : ∀ (o : lispObject) (e : error) (m1 : Machine) (ctx1 : readContext),
        Yields (fun b : (lispObject × Int × error) × Machine × readContext =>
          b.1.2.1 = 41 → Closes X) (.ret ((o, 0, e), m1, ctx1)) := fun o e m1 ctx1 =>
      Yields_ret _ _ (fun h => absurd (show (0 : Int) = 41 from h) (by decide))
    cases X with
    | nil =>
      rw [read1_eof]
      exact h0 _ _ _ _
    | cons ch t =>
      rw [read1, read_ctxAt_cons]
      simp only [Run.ret_bind]
      apply Yields_ite <;> intro
      · exact h0 _ _ _ _
      apply Yields_ite <;> intro
      · refine Yields_bind_any _ _ _ (fun r => ?_)
        exact h0 _ _ _ _
      apply Yields_ite <;> intro
      · exact h0 _ _ _ _
      apply Yields_ite <;> intro
      · refine Yields_ret _ _ (fun h41 => ?_)
        have hch : ch = ')' := char_of_toNat ch 41 h41
        exact ⟨[], t, .nil, by simp [hch]⟩
      apply Yields_ite <;> intro
      · exact h0 _ _ _ _
      apply Yields_ite <;> intro
      · rename_i h59
        have hch : ch = ';' := char_of_toNat ch 59 h59
        refine Yields_bind _ _ _ _ (skipComment_yields F (pre ++ [ch]) t) (fun ctx2 hq => ?_)
        rcases hq with ⟨body, t', e1, e2, e3⟩ | ⟨_, e2⟩
        · rw [e3]
          refine Yields_mono _ _ _ (fun b hb h41 => ?_) (ih m _ t')
          rw [hch, e1]
          exact Closes_comment body t' e2 (hb h41)
        · rw [e2]
          exact Yields_mono _ _ _ (fun b hb h41 => absurd (hb h41) not_Closes_nil) (ih m _ [])
      apply Yields_ite <;> intro
      · refine Yields_bind_any _ _ _ (fun r => ?_)
        dsimp only
        apply Yields_ite <;> intro
        · exact h0 _ _ _ _
        · exact h0 _ _ _ _
      apply Yields_ite <;> intro
      · exact h0 _ _ _ _
      apply Yields_ite <;> intro
      · refine Yields_bind _ _ _ _ (readCharLiteral_token _) (fun r hq => ?_)
        exact Yields_ret _ _ (fun h41 => absurd (hq.symm.trans h41) (by decide))
      apply Yields_ite <;> intro
      · refine Yields_bind_any _ _ _ (fun r => ?_)
        dsimp only
        apply Yields_ite <;> intro
        · exact h0 _ _ _ _
        apply Yields_ite <;> intro
        · rename_i heof
          exact Yields_ret _ _ (fun h41 => absurd (heof.symm.trans h41) (by decide))
        · exact h0 _ _ _ _
      apply Yields_ite <;> intro
      · rename_i h46
        refine Yields_bind_any _ _ _ (fun r => ?_)
        refine Yields_bind_any _ _ _ (fun r2 => ?_)
        apply Yields_ite <;> intro
        · exact Yields_ret _ _ (fun h41 => absurd (h46.symm.trans h41) (by decide))
        · refine Yields_bind_any _ _ _ (fun r3 => ?_)
          exact h0 _ _ _ _
      apply Yields_ite <;> intro
      · rename_i hb
        have hblank : blankChar ch := by
          unfold blankChar
          unfold nbsp at hb
          omega
        exact Yields_mono _ _ _ (fun b hq h41 => Closes_blank ch t hblank (hq h41)) (ih m _ t)
      · refine Yields_bind_any _ _ _ (fun r3 => ?_)
        exact h0 _ _ _ _

/-- The dot case of `readList`: after the marker and the expression `d`, what `read1` returns
next decides between the value and the error of a dot in the wrong place. Without elements
read so far the value is the object read for `d`, otherwise `d` ends the chain. -/
theorem readList_dot_then (lib : FloatLib) (m m' : Machine) (d : List Char) (vd : lispObject)
    (h : Reads lib m d vd m') (pre X : List Char) (elts : List lispObject) (fuel : Nat)
    (hend : atomEnd (peekRune X)) (hf : 2 * (d.length + X.length) + 2 ≤ fuel) :
    readList lib (fuel + 3) m (ctxAt pre (' ' :: '.' :: ' ' :: d ++ X)) elts =
      (read1 lib (fuel + 2) m' (ctxAt (pre ++ ' ' :: '.' :: ' ' :: d) X) >>= fun r =>
        if r.1.2.1 = 41 then
          .ret ((if elts ≠ [] then makeChain elts vd else vd, none), r.2.1, r.2.2)
        else .ret ((.null, some "'.' in wrong context"), r.2.1, r.2.2)) := by
  have hsp : ((' ' : Char).toNat : Int) = 32 := rfl
  have h1 : read1 lib (fuel + 2) m (ctxAt pre (' ' :: '.' :: ' ' :: (d ++ X))) =
      .ret ((.null, 46, none), m, ctxAt (pre ++ [' ', '.']) (' ' :: (d ++ X))) := by
    rw [read1]
    simp only [read_ctxAt_cons, hsp, Run.ret_bind]
    simp [eofRune, read1_marker]
  have h2 := Reads_space lib m d vd m' h (pre ++ [' ', '.']) X (fuel + 1) hend
    (by simp; omega)
  have h0 : read0 lib (fuel + 2) m (ctxAt (pre ++ [' ', '.']) (' ' :: (d ++ X))) =
      .ret ((vd, none), m', ctxAt (pre ++ [' ', '.'] ++ ' ' :: d) X) := by
    rw [read0]
    simp only [List.cons_append] at h2
    simp [h2]
  rw [readList]
  simp only [List.cons_append, h1, Run.ret_bind, h0]
  simp

/-- The dot case of `readList` fails when what follows the expression after the dot does not
start with a closing parenthesis. -/
theorem readList_dot_wrong (lib : FloatLib) (m m' : Machine) (d : List Char) (vd : lispObject)
    (h : Reads lib m d vd m') (pre X : List Char) (elts : List lispObject) (fuel : Nat)
    (hend : atomEnd (peekRune X)) (hX : ¬ Closes X)
    (hf : 2 * (d.length + X.length) + 2 ≤ fuel) :
    ∃ m2 ctx2, readList lib (fuel + 3) m (ctxAt pre (' ' :: '.' :: ' ' :: d ++ X)) elts =
      .ret ((.null, some "'.' in wrong context"), m2, ctx2) := by
  rw [readList_dot_then lib m m' d vd h pre X elts fuel hend hf]
  obtain ⟨b, hb, _⟩ := (reader_lands lib (pre ++ ' ' :: '.' :: ' ' :: d ++ X) (fuel + 2) m'
    (ctxAt (pre ++ ' ' :: '.' :: ' ' :: d) X) (by simp [ctxAt]) (by simp [ctxAt])).1
    (by simp [ctxAt]; omega)
  have htok : b.1.2.1 ≠ 41 := fun h41 => hX (read1_closes lib _ m' _ X b hb h41)
  rw [hb]
  simp only [Run.ret_bind, htok, if_false]
  exact ⟨_, _, rfl⟩

theorem not_Closes_blank (c : Char) (t : List Char) (hc : blankChar c) (h : ¬ Closes t) :
    ¬ Closes (c :: t) := by
  rintro ⟨s, rest, hs, e⟩
  cases hs with
  | nil =>
    simp only [List.nil_append, List.cons.injEq] at e
    rw [e.1] at hc
    exact absurd hc (by decide)
  | blank c' s' _ hs' =>
    simp only [List.cons_append, List.cons.injEq] at e
    exact h ⟨s', rest, hs', e.2⟩
  | comment body s' _ _ =>
    simp only [List.cons_append, List.cons.injEq] at e
    rw [e.1] at hc
    exact absurd hc (by decide)

theorem not_Closes_other (ch : Char) (t : List Char) (hb : ¬ blankChar ch)
    (h59 : ch ≠ ';') (h41 : ch ≠ ')') : ¬ Closes (ch :: t) := by
  rintro ⟨s, rest, hs, e⟩
  cases hs with
  | nil =>
    simp only [List.nil_append, List.cons.injEq] at e
    exact h41 e.1
  | blank c' s' hc' _ =>
    simp only [List.cons_append, List.cons.injEq] at e
    rw [← e.1] at hc'
    exact hb hc'
  | comment body s' _ _ =>
    simp only [List.cons_append, List.cons.injEq] at e
    exact h59 e.1

theorem ReadString_of_readList (lib : FloatLib) (m m' : Machine) (t : List Char)
    (r : lispObject × error) (ctx2 : readContext)
    (h : readList lib (2 * t.length + 2) m (ctxAt ['('] t) [] = .ret (r, m', ctx2)) :
    ReadString lib m ('(' :: t) =
      .ret ((if r.2 ≠ none then (.null, r.2) else (r.1, none)), m') := by
  have h1 : read1 lib (2 * ('(' :: t).length + 1) m (ctxAt [] ('(' :: t)) =
      .ret ((r.1, 0, r.2), m', ctx2) := by
    have e : 2 * ('(' :: t).length + 1 = (2 * t.length + 2) + 1 := by simp; omega
    rw [e, read1_open]
    simp only [List.nil_append, h]
    rfl
  have := ReadString_of_read1 lib m m' ('(' :: t) _ ctx2 h1
  simpa using this

/-- C17: when the dotted-pair marker comes before any element of a list, the expression
after it is the whole result: `( . n)` reads as the integer `n`, and the same holds for any
expression `d0`. With or without elements before the dot, when what follows the expression
after the dot does not start, after blanks and comments, with a closing parenthesis,
`ReadString` returns the error of a dot in the wrong context. -/
theorem dot_before_any_element (lib : FloatLib) (m m0 m1 m2 m3 : Machine) (n : Int)
    (d0 e1 d X : List Char) (vd0 v1 vd : lispObject) (es : List (List Char))
    (vs : List lispObject) (hn : inInt64 n) (hd0 : Reads lib m d0 vd0 m0)
    (h1 : Reads lib m e1 v1 m1) (hs : ReadsAll lib m1 es vs m2) (hd : Reads lib m2 d vd m3)
    (hend : atomEnd (peekRune X)) (hX : ¬ Closes X) :
    ReadString lib m ('(' :: ' ' :: '.' :: ' ' :: formatInt n ++ [')']) =
      .ret ((.integer n, none), m) ∧
    ReadString lib m ('(' :: ' ' :: '.' :: ' ' :: d0 ++ [')']) = .ret ((vd0, none), m0) ∧
    (∃ m', ReadString lib m ('(' :: ' ' :: '.' :: ' ' :: d0 ++ X) =
      .ret ((.null, some "'.' in wrong context"), m')) ∧
    ∃ m', ReadString lib m ('(' :: e1 ++ joinElts es ++ ' ' :: '.' :: ' ' :: d ++ X) =
      .ret ((.null, some "'.' in wrong context"), m') := by
  have hvalue : ∀ (t : List Char) (v : lispObject) (mt : Machine), Reads lib m t v mt →
      ReadString lib m ('(' :: ' ' :: '.' :: ' ' :: t ++ [')']) = .ret ((v, none), mt) := by
    intro t v mt ht
    have hl := readList_dot_then lib m mt t v ht ['('] [')'] [] (2 * t.length + 7)
      (atomEnd_close []) (by simp; omega)
    rw [read1_close] at hl
    simp only [Run.ret_bind, if_true, ne_eq, not_true_eq_false, if_false] at hl
    have := ReadString_of_readList lib m mt (' ' :: '.' :: ' ' :: t ++ [')']) _ _
      (by
        have e : 2 * (' ' :: '.' :: ' ' :: t ++ [')']).length + 2 = 2 * t.length + 7 + 3 := by
          simp; omega
        rw [e]
        exact hl)
    simpa using this
  refine ⟨hvalue _ _ _ (Reads_formatInt lib m n hn.1 hn.2), hvalue d0 vd0 m0 hd0, ?_, ?_⟩
  · obtain ⟨m', ctx', hl⟩ := readList_dot_wrong lib m m0 d0 vd0 hd0 ['('] X []
      (2 * (d0.length + X.length) + 5) hend hX (by omega)
    refine ⟨m', ?_⟩
    have := ReadString_of_readList lib m m' (' ' :: '.' :: ' ' :: d0 ++ X) _ ctx'
      (by
        have e : 2 * (' ' :: '.' :: ' ' :: d0 ++ X).length + 2 =
            2 * (d0.length + X.length) + 5 + 3 := by simp; omega
        rw [e]
        exact hl)
    simpa using this
  · have hpos := Reads_length_pos lib m m1 e1 v1 h1
    have hk := joinElts_length es
    obtain ⟨g, hg⟩ : ∃ g, 2 * (e1 ++ joinElts es ++ ' ' :: '.' :: ' ' :: d ++ X).length + 2 =
        g + 3 + es.length + 1 ∧ 2 * (d.length + X.length) + 2 ≤ g ∧
        2 * ((joinElts es).length + (' ' :: '.' :: ' ' :: d ++ X).length) + 2 ≤
          g + 3 + es.length ∧
        2 * (e1.length + (joinElts es ++ ' ' :: ('.' :: ' ' :: d ++ X)).length) + 1 ≤
          g + 3 + es.length :=
      ⟨2 * (e1 ++ joinElts es ++ ' ' :: '.' :: ' ' :: d ++ X).length - 2 - es.length, by
        simp only [List.length_cons, List.length_append]
        omega⟩
    obtain ⟨e0, hg1, hg2, hg3⟩ := hg
    have hA := readList_elem lib m m1 e1 v1 h1 ['(']
      (joinElts es ++ ' ' :: ('.' :: ' ' :: d ++ X)) [] (g + 3 + es.length)
      (atomEnd_joinElts es _ (atomEnd_space _)) hg3
    have hB := readList_elems lib m1 m2 es vs hs (['('] ++ e1)
      (' ' :: ('.' :: ' ' :: d ++ X)) ([] ++ [v1]) (g + 3) (atomEnd_space _) (by
        simp only [List.length_cons, List.length_append] at hg2 ⊢
        omega)
    obtain ⟨m', ctx', hC⟩ := readList_dot_wrong lib m2 m3 d vd hd (['('] ++ e1 ++ joinElts es) X
      ([] ++ [v1] ++ vs) g hend hX hg1
    refine ⟨m', ?_⟩
    have := ReadString_of_readList lib m m' (e1 ++ joinElts es ++ ' ' :: '.' :: ' ' :: d ++ X)
      _ ctx' (by
        rw [e0]
        simp only [List.cons_append, List.append_assoc, List.singleton_append, List.nil_append]
          at hA hB hC ⊢
        rw [hA, hB, hC])
    simpa using this

theorem dot_before_any_element_witness :
    inInt64 5 ∧ atomEnd (peekRune " 3)".toList) ∧ ¬ Closes " 3)".toList ∧
    ReadString noFloats freshMachine "( . 5)".toList = .ret ((.integer 5, none), freshMachine) ∧
    (∃ m', ReadString noFloats freshMachine "( . 5 3)".toList =
      .ret ((.null, some "'.' in wrong context"), m')) ∧
    ∃ m', ReadString noFloats freshMachine "(1 . 2 3)".toList =
      .ret ((.null, some "'.' in wrong context"), m') := by
  have hX : ¬ Closes " 3)".toList :=
    not_Closes_blank ' ' _ (by decide)
      (not_Closes_other '3' _ (by decide) (by decide) (by decide))
  have h := dot_before_any_element noFloats freshMachine freshMachine freshMachine freshMachine
    freshMachine 5 "5".toList "1".toList "2".toList " 3)".toList (.integer 5) (.integer 1)
    (.integer 2) [] [] (by decide)
    (Reads_int noFloats freshMachine _ 5 (by decide))
    (Reads_int noFloats freshMachine _ 1 (by decide)) (.nil _)
    (Reads_int noFloats freshMachine _ 2 (by decide)) (by decide) hX
  have e1 : '(' :: ' ' :: '.' :: ' ' :: formatInt 5 ++ [')'] = "( . 5)".toList := by decide
  have e2 : '(' :: ' ' :: '.' :: ' ' :: "5".toList ++ " 3)".toList = "( . 5 3)".toList := by
    decide
  have e3 : '(' :: "1".toList ++ joinElts [] ++ ' ' :: '.' :: ' ' :: "2".toList ++ " 3)".toList =
      "(1 . 2 3)".toList := by decide
  rw [e1, e2, e3] at h
  exact ⟨by decide, by decide, hX, h.1, h.2.2.1, h.2.2.2⟩

/-! ## Character literals from 0x80 to 0xFF, and the results of the reader -/

theorem ReadString_charLiteral (lib : FloatLib) (m : Machine) (t : List Char) (v : lispObject)
    (ctx2 : readContext)
    (hc : readCharLiteral (ctxAt ['?'] t) = .ret ((v, 0, none), ctx2)) :
    ReadString lib m ('?' :: t) = .ret ((v, none), m) := by
  have hq : (('?' : Char).toNat : Int) = 63 := rfl
  have h1 : read1 lib (2 * ('?' :: t).length + 1) m (ctxAt [] ('?' :: t)) =
      .ret ((v, 0, none), m, ctx2) := by
    rw [read1]
    simp only [read_ctxAt_cons, hq, Run.ret_bind, List.nil_append]
    simp [eofRune, hc]
  have := ReadString_of_read1 lib m m ('?' :: t) _ ctx2 h1
  simpa using this

/-- An octal escape of a value from 0x80 to 0xFF: `readEscape` returns the value moved into
the band of the raw bytes. -/
theorem readEscape_octal8 (d rest pre : List Char) (stringp : Bool)
    (hd : ∀ ch ∈ d, octalDigit ch) (h1 : 1 ≤ d.length) (h3 : d.length ≤ 3)
    (hlo : 0x80 ≤ octalValue d) (hhi : octalValue d ≤ 0xFF)
    (hend : ¬ (48 ≤ peekRune rest ∧ peekRune rest ≤ 55)) :
    readEscape (ctxAt pre (d ++ rest)) stringp =
      .ret ((octalValue d + eightBitCodeOffset, none), ctxAt (pre ++ d) rest) := by
  cases d with
  | nil => simp at h1
  | cons a ds =>
    have hoct := readEscapeOctal_digits 2 ds ((a.toNat : Int) - 48) (pre ++ [a])
      rest (fun ch hch => hd ch (by simp [hch])) (by simp at h3; omega) (Or.inr hend)
    have hval : octalFrom ((a.toNat : Int) - 48) ds = octalValue (a :: ds) := by
      simp [octalValue, octalFrom]
    rw [hval] at hoct
    have h80 : 0x80 ≤ octalValue (a :: ds) ∧ octalValue (a :: ds) < 0x100 := by omega
    simp only [List.cons_append, readEscape_octal a (hd a (by simp)), hoct, Run.bind, h80,
      and_self, if_true, byte8toChar]
    simp

theorem readCharLiteral_octal8 (d rest pre : List Char) (hd : ∀ ch ∈ d, octalDigit ch)
    (h1 : 1 ≤ d.length) (h3 : d.length ≤ 3) (hlo : 0x80 ≤ octalValue d)
    (hhi : octalValue d ≤ 0xFF) (hend : charEnd (peekRune rest)) :
    readCharLiteral (ctxAt pre (Char.ofNat 92 :: d ++ rest)) =
      .ret ((.integer (octalValue d), 0, none), ctxAt (pre ++ Char.ofNat 92 :: d) rest) := by
  have hb : ((Char.ofNat 92).toNat : Int) = 92 := rfl
  have he := readEscape_octal8 d rest (pre ++ [Char.ofNat 92]) false hd h1 h3 hlo hhi
    (charEnd_not_octal _ hend)
  have hnb : charByte8 (octalValue d + eightBitCodeOffset) = true := by
    unfold charByte8 max5ByteChar eightBitCodeOffset
    simp only [decide_eq_true_eq]
    omega
  unfold charEnd at hend
  unfold readCharLiteral
  simp only [List.cons_append, read_ctxAt_cons, hb, Run.ret_bind]
  simp only [he, hnb, if_true]
  simp [eofRune, read_ctxAt, unread_afterRead, hend, makeInteger, charToByte8, hnb]

/-- A character of a value from 0x80 on, written as it is or after a backslash, is the
value of the character literal. -/
theorem readCharLiteral_plain8 (ch : Char) (rest pre : List Char) (hlo : 0x80 ≤ ch.toNat)
    (hhi : ch.toNat ≤ 0xFF) (hend : charEnd (peekRune rest)) :
    readCharLiteral (ctxAt pre (ch :: rest)) =
      .ret ((.integer (ch.toNat : Int), 0, none), ctxAt (pre ++ [ch]) rest) ∧
    readCharLiteral (ctxAt pre (Char.ofNat 92 :: ch :: rest)) =
      .ret ((.integer (ch.toNat : Int), 0, none), ctxAt (pre ++ [Char.ofNat 92, ch]) rest) := by
  have hb : ((Char.ofNat 92).toNat : Int) = 92 := rfl
  have hnb : charByte8 (ch.toNat : Int) = false := by
    unfold charByte8 max5ByteChar
    simp only [decide_eq_false_iff_not]
    omega
  have hne : ∀ k : Int, k < 128 → ¬ ((ch.toNat : Int) = k) := by
    intro k hk
    omega
  have hesc : readEscape (ctxAt (pre ++ [Char.ofNat 92]) (ch :: rest)) false =
      .ret (((ch.toNat : Int), none), ctxAt (pre ++ [Char.ofNat 92] ++ [ch]) rest) := by
    unfold readEscape
    simp only [read_ctxAt_cons, Run.ret_bind]
    have h1 : ¬ (48 ≤ (ch.toNat : Int) ∧ (ch.toNat : Int) ≤ 55) := by omega
    have h2 : ¬ ((ch.toNat : Int) = 77 ∨ (ch.toNat : Int) = 83 ∨ (ch.toNat : Int) = 72 ∨
        (ch.toNat : Int) = 65 ∨ (ch.toNat : Int) = 115 ∨ (ch.toNat : Int) = 67 ∨
        (ch.toNat : Int) = 94) := by omega
    have h3 : ¬ ((ch.toNat : Int) = 120 ∨ (ch.toNat : Int) = 85 ∨ (ch.toNat : Int) = 117 ∨
        (ch.toNat : Int) = 78) := by omega
    simp only [toNat_ne_eof, hne 97 (by decide), hne 98 (by decide), hne 100 (by decide),
      hne 101 (by decide), hne 102 (by decide), hne 110 (by decide), hne 114 (by decide),
      hne 116 (by decide), hne 118 (by decide), hne 10 (by decide), hne 32 (by decide), h1, h2,
      h3, if_false]
    rfl
  unfold charEnd at hend
  constructor
  · unfold readCharLiteral
    simp only [read_ctxAt_cons, Run.ret_bind]
    have h4 : ¬ ((ch.toNat : Int) = 32 ∨ (ch.toNat : Int) = 9) := by omega
    simp only [toNat_ne_eof, h4, hne 92 (by decide), if_false, Run.pure_eq, Run.ret_bind,
      ne_eq, not_true_eq_false, hnb, Bool.false_eq_true, read_ctxAt, unread_afterRead, hend,
      if_true, makeInteger]
  · unfold readCharLiteral
    simp only [read_ctxAt_cons, hb, Run.ret_bind]
    simp only [eofRune, show ¬ ((92 : Int) = -1) by decide,
      show ¬ ((92 : Int) = 32 ∨ (92 : Int) = 9) by decide, if_false, if_true, hesc,
      Run.ret_bind, ne_eq, not_true_eq_false, hnb, Bool.false_eq_true, read_ctxAt,
      unread_afterRead, hend, makeInteger]
    simp

/-- C18 (amended): a character literal of a value from 0x80 to 0xFF, followed by the end of
the input or by a legal terminator, reads as the integer of that value itself, whether the
character is written as it is, after a backslash, or as an octal escape. For the octal
escape `readEscape` returns the value moved into the band of the raw bytes, and the
character-literal arm moves it back. -/
theorem character_literal_raw_byte (lib : FloatLib) (m : Machine) (ch : Char)
    (d rest rest' pre : List Char) (hlo : 0x80 ≤ ch.toNat) (hhi : ch.toNat ≤ 0xFF)
    (hend : charEnd (peekRune rest)) (hd : ∀ c ∈ d, octalDigit c) (h1 : 1 ≤ d.length)
    (h3 : d.length ≤ 3) (hvlo : 0x80 ≤ octalValue d) (hvhi : octalValue d ≤ 0xFF)
    (hend' : charEnd (peekRune rest')) :
    ReadString lib m ('?' :: ch :: rest) = .ret ((.integer (ch.toNat : Int), none), m) ∧
    ReadString lib m ('?' :: Char.ofNat 92 :: ch :: rest) =
      .ret ((.integer (ch.toNat : Int), none), m) ∧
    ReadString lib m ('?' :: Char.ofNat 92 :: d ++ rest') =
      .ret ((.integer (octalValue d), none), m) ∧
    readEscape (ctxAt pre (d ++ rest')) false =
      .ret ((octalValue d + eightBitCodeOffset, none), ctxAt (pre ++ d) rest') ∧
    charByte8 (octalValue d + eightBitCodeOffset) = true ∧
    charToByte8 (octalValue d + eightBitCodeOffset) = octalValue d := by
  have hp := readCharLiteral_plain8 ch rest ['?'] hlo hhi hend
  refine ⟨ReadString_charLiteral lib m _ _ _ hp.1, ReadString_charLiteral lib m _ _ _ hp.2,
    ReadString_charLiteral lib m _ _ _
      (readCharLiteral_octal8 d rest' ['?'] hd h1 h3 hvlo hvhi hend'),
    readEscape_octal8 d rest' pre false hd h1 h3 hvlo hvhi (charEnd_not_octal _ hend'), ?_, ?_⟩
  · unfold charByte8 max5ByteChar eightBitCodeOffset
    simp only [decide_eq_true_eq]
    omega
  · unfold charToByte8
    omega

theorem character_literal_raw_byte_witness :
    0x80 ≤ (Char.ofNat 233).toNat ∧ (Char.ofNat 233).toNat ≤ 0xFF ∧ charEnd (peekRune []) ∧
    (∀ c ∈ "351".toList, octalDigit c) ∧ octalValue "351".toList = 233 ∧
    ReadString noFloats freshMachine ['?', Char.ofNat 233] =
      .ret ((.integer 233, none), freshMachine) ∧
    ReadString noFloats freshMachine ('?' :: Char.ofNat 92 :: "351".toList) =
      .ret ((.integer 233, none), freshMachine) ∧
    readEscape (ctxAt [] "351".toList) false =
      .ret ((233 + eightBitCodeOffset, none), ctxAt "351".toList []) := by
  have h := character_literal_raw_byte noFloats freshMachine (Char.ofNat 233) "351".toList [] []
    [] (by decide) (by decide) (by decide) (by decide) (by decide) (by decide) (by decide)
    (by decide) (by decide)
  have e : octalValue "351".toList = 233 := by decide
  have e2 : ((Char.ofNat 233).toNat : Int) = 233 := by decide
  rw [e, e2] at h
  simp only [List.append_nil, List.nil_append] at h
  exact ⟨by decide, by decide, by decide, by decide, e, h.1, h.2.2.1, h.2.2.2.1⟩

/-- C18 as stated fails: the character literal of the octal escape 200, of value 0x80, reads
as the integer 128, not as 128 moved by `eightBitCodeOffset`; so does a character of value
233 written as it is. -/
theorem raw_byte_counterexample :
    octalValue "200".toList = 128 ∧
    ReadString noFloats freshMachine ('?' :: Char.ofNat 92 :: "200".toList) =
      .ret ((.integer 128, none), freshMachine) ∧
    (128 : Int) ≠ 128 + eightBitCodeOffset ∧
    ReadString noFloats freshMachine ['?', Char.ofNat 233] =
      .ret ((.integer 233, none), freshMachine) := by
  decide

/-- C19: on every source text `ReadString` returns: no `read` is out of bounds, no `unread`
panics and the budget of the loops is not used up; the cursor ends over the source, within
its bounds, and a failure of the reader is the error of the result. -/
theorem ReadString_returns (lib : FloatLib) (m : Machine) (source : GoString) :
    ∃ r m' ctx', read0 lib (2 * source.length + 2) m (readContext.mk source 0) =
        .ret (r, m', ctx') ∧
      ctx'.runes = source ∧ ctx'.i ≤ source.length ∧
      ReadString lib m source = .ret (r, m') := by
  obtain ⟨b, hb, h1, _, h3, _⟩ := (reader_lands lib source (2 * source.length + 2) m
    (readContext.mk source 0) rfl (Nat.zero_le _)).2.2 (by simp)
  exact ⟨b.1, b.2.1, b.2.2, hb, h1, h3, ReadString_of_read0 lib m b.2.1 source b.1 b.2.2 hb⟩

/-- The defect behind C20: on `( . [)` the error of the expression after the dot is dropped
and `ReadString` returns neither an object nor an error; inside a list the nil object
becomes an element, and `Print` panics on both results. With an element before the dot the
same error is returned. -/
theorem dot_error_dropped (lib : FloatLib) (m : Machine) :
    ReadString lib m "( . [)".toList = .ret ((.null, none), m) ∧
    ReadString lib m "(( . [))".toList = .ret ((.cons .null m.inp.nil_, none), m) ∧
    Print lib m.inp .null = .panic "nil pointer dereference" ∧
    Print lib m.inp (.cons .null m.inp.nil_) = .panic "nil pointer dereference" ∧
    ReadString lib m "(1 . [)".toList = .ret ((.null, some "unimplented read: '['"), m) :=
  ⟨rfl, rfl, rfl, rfl, rfl⟩

/-! ## String literals with escapes -/

theorem octalRun_spec (left : Nat) :
    ∀ (num : Int) (t : List Char), ∃ ds, t = ds ++ (octalRun left num t).2 ∧
      (∀ ch ∈ ds, octalDigit ch) ∧ ds.length ≤ left ∧
      (ds.length = left ∨ ¬ (48 ≤ peekRune (octalRun left num t).2 ∧
        peekRune (octalRun left num t).2 ≤ 55)) ∧
      (octalRun left num t).1 = octalFrom num ds := by
  induction left with
  | zero =>
    intro num t
    exact ⟨[], by simp [octalRun], by simp, by simp, Or.inl rfl, by simp [octalRun, octalFrom]⟩
  | succ left ih =>
    intro num t
    cases t with
    | nil =>
      refine ⟨[], by simp [octalRun], by simp, by simp, Or.inr ?_, by simp [octalRun, octalFrom]⟩
      simp [octalRun, peekRune, eofRune]
    | cons c t =>
      by_cases hc : 48 ≤ c.toNat ∧ c.toNat ≤ 55
      · obtain ⟨ds, h1, h2, h3, h4, h5⟩ := ih (num * 8 + ((c.toNat : Int) - 48)) t
        refine ⟨c :: ds, ?_, ?_, ?_, ?_, ?_⟩
        · simp only [octalRun, hc, and_self, if_true, List.cons_append]
          rw [← h1]
        · intro ch hch
          rcases List.mem_cons.1 hch with rfl | hch
          · exact hc
          · exact h2 ch hch
        · simp; omega
        · simp only [octalRun, hc, and_self, if_true, List.length_cons]
          rcases h4 with h4 | h4
          · left; omega
          · right; exact h4
        · simp only [octalRun, hc, and_self, if_true, h5, octalFrom, List.foldl_cons]
      · refine ⟨[], by simp [octalRun, hc], by simp, by simp, Or.inr ?_,
          by simp [octalRun, hc, octalFrom]⟩
        simp only [octalRun, hc, if_false, peekRune]
        omega

theorem EscapeAgrees_ite (pre t0 X : List Char) (c : Prop) [Decidable c]
    (a b : Option (Int × List Char)) (x y : Run ((Int × error) × readContext))
    (ht : c → EscapeAgrees pre t0 X a x) (hf : ¬ c → EscapeAgrees pre t0 X b y) :
    EscapeAgrees pre t0 X (if c then a else b) (if c then x else y) := by
  by_cases h : c
  · rw [if_pos h, if_pos h]; exact ht h
  · rw [if_neg h, if_neg h]; exact hf h

theorem EscapeAgrees_some (pre t0 X : List Char) (k : Int) :
    EscapeAgrees pre t0 X (some (k, t0)) (.ret ((k, none), ctxAt pre (t0 ++ X))) := by
  intro v t' h
  cases h
  exact ⟨[], by simp, by simp⟩

theorem EscapeAgrees_none (pre t0 X : List Char) (x : Run ((Int × error) × readContext)) :
    EscapeAgrees pre t0 X none x := by
  intro v t' h
  cases h

/-- On a text that `escapeValue` accepts `readEscape` returns its value, the cursor before
the text that is left; `X` is what follows the text. -/
theorem readEscape_value (stringp : Bool) (t X : List Char) (v : Int) (t' : List Char)
    (h : escapeValue stringp t = some (v, t'))
    (hX : ¬ (48 ≤ peekRune X ∧ peekRune X ≤ 55)) (pre : List Char) :
    ∃ used, t = used ++ t' ∧ used ≠ [] ∧
      readEscape (ctxAt pre (t ++ X)) stringp =
        .ret ((v, none), ctxAt (pre ++ used) (t' ++ X)) := by
  cases t with
  | nil => simp [escapeValue] at h
  | cons ch t0 =>
    have key : EscapeAgrees (pre ++ [ch]) t0 X (escapeValue stringp (ch :: t0))
        (readEscape (ctxAt pre (ch :: t0 ++ X)) stringp) := by
      unfold escapeValue readEscape
      simp only [List.cons_append, read_ctxAt_cons, Run.ret_bind]
      rw [if_neg (toNat_ne_eof ch)]
      apply EscapeAgrees_ite <;> intro
      · exact EscapeAgrees_some _ _ _ _
      apply EscapeAgrees_ite <;> intro
      · exact EscapeAgrees_some _ _ _ _
      apply EscapeAgrees_ite <;> intro
      · exact EscapeAgrees_some _ _ _ _
      apply EscapeAgrees_ite <;> intro
      · exact EscapeAgrees_some _ _ _ _
      apply EscapeAgrees_ite <;> intro
      · exact EscapeAgrees_some _ _ _ _
      apply EscapeAgrees_ite <;> intro
      · exact EscapeAgrees_some _ _ _ _
      apply EscapeAgrees_ite <;> intro
      · exact EscapeAgrees_some _ _ _ _
      apply EscapeAgrees_ite <;> intro
      · exact EscapeAgrees_some _ _ _ _
      apply EscapeAgrees_ite <;> intro
      · exact EscapeAgrees_some _ _ _ _
      apply EscapeAgrees_ite <;> intro
      · exact EscapeAgrees_some _ _ _ _
      apply EscapeAgrees_ite <;> intro
      · apply EscapeAgrees_ite <;> intro
        · exact EscapeAgrees_some _ _ _ _
        · exact EscapeAgrees_some _ _ _ _
      apply EscapeAgrees_ite <;> intro
      · exact EscapeAgrees_none _ _ _ _
      apply EscapeAgrees_ite <;> intro
      · intro v1 t1 h1
        obtain ⟨ds, e1, e2, e3, e4, e5⟩ := octalRun_spec 2 ((ch.toNat : Int) - 48) t0
        simp only [Option.some.injEq, Prod.mk.injEq] at h1
        obtain ⟨hv, ht⟩ := h1
        have hend : ds.length = 2 ∨ ¬ (48 ≤ peekRune (t1 ++ X) ∧ peekRune (t1 ++ X) ≤ 55) := by
          rcases e4 with e4 | e4
          · exact Or.inl e4
          · right
            rw [ht] at e4
            cases t1 with
            | nil => simpa using hX
            | cons c r => simpa [peekRune] using e4
        have hoct := readEscapeOctal_digits 2 ds ((ch.toNat : Int) - 48) (pre ++ [ch])
          (t1 ++ X) e2 e3 hend
        rw [ht] at e1
        refine ⟨ds, e1, ?_⟩
        rw [e1, List.append_assoc, hoct]
        simp only [Run.ret_bind, Run.pure_eq]
        rw [← e5, hv]
      apply EscapeAgrees_ite <;> intro
      · exact EscapeAgrees_none _ _ _ _
      · exact EscapeAgrees_some _ _ _ _
    obtain ⟨used, e1, e2⟩ := key v t' h
    refine ⟨ch :: used, by simp [e1], by simp, ?_⟩
    rw [e2]
    simp

/-- The loop of the string arm builds what `stringBody` says and stops after the closing
quote. -/
theorem readStringLoop_body (f : Nat) :
    ∀ (body v builder pre rest : List Char) (F : Nat), stringBody f body = some v →
      body.length + 1 ≤ F →
      readStringLoop F builder (ctxAt pre (body ++ Char.ofNat 34 :: rest)) =
        .ret ((34, builder ++ v, none), ctxAt (pre ++ body ++ [Char.ofNat 34]) rest) := by
  induction f with
  | zero => intro body v builder pre rest F h; simp [stringBody] at h
  | succ f ih =>
    intro body v builder pre rest F h hF
    obtain ⟨F, rfl⟩ : ∃ F', F = F' + 1 := ⟨F - 1, by omega⟩
    have hq : ((Char.ofNat 34).toNat : Int) = 34 := rfl
    cases body with
    | nil =>
      simp only [stringBody, Option.some.injEq] at h
      subst h
      simp [readStringLoop, read_ctxAt_cons, hq]
    | cons ch t =>
      have heof := toNat_ne_eof ch
      simp only [stringBody] at h
      by_cases h34 : ch.toNat = 34
      · simp [h34] at h
      · rw [if_neg h34] at h
        have h34' : ¬ ((ch.toNat : Int) = 34) := by omega
        by_cases h92 : ch.toNat = 92
        · rw [if_pos h92] at h
          have h92' : (ch.toNat : Int) = 92 := by omega
          cases he : escapeValue true t with
          | none => simp [he] at h
          | some r =>
            obtain ⟨val, t'⟩ := r
            simp only [he] at h
            obtain ⟨used, e1, e2, e3⟩ := readEscape_value true t (Char.ofNat 34 :: rest) val t'
              he (by simp [peekRune, hq]) (pre ++ [ch])
            have hlen : t'.length + 1 ≤ F := by
              have : used.length ≠ 0 := fun h0 => e2 (List.eq_nil_of_length_eq_zero h0)
              have := congrArg List.length e1
              simp only [List.length_append, List.length_cons] at this hF
              omega
            rw [readStringLoop]
            simp only [List.cons_append, read_ctxAt_cons, Run.ret_bind, heof, h34', or_self,
              if_false, h92', if_true, e3, ne_eq, not_true_eq_false]
            by_cases hm : val = -1
            · rw [if_pos hm] at h ⊢
              rw [ih t' v builder (pre ++ [ch] ++ used) rest F h hlen, e1]
              simp [eofRune]
            · rw [if_neg hm] at h ⊢
              cases hs : stringBody f t' with
              | none => simp [hs] at h
              | some v' =>
                simp only [hs, Option.map_some', Option.some.injEq] at h
                subst h
                rw [ih t' v' (builder ++ [runeToChar val]) (pre ++ [ch] ++ used) rest F hs hlen,
                  e1]
                simp [eofRune]
        · rw [if_neg h92] at h
          have h92' : ¬ ((ch.toNat : Int) = 92) := by omega
          cases hs : stringBody f t with
          | none => simp [hs] at h
          | some v' =>
            simp only [hs, Option.map_some', Option.some.injEq] at h
            subst h
            rw [readStringLoop]
            simp only [List.cons_append, read_ctxAt_cons, Run.ret_bind, heof, h34', or_self,
              if_false, h92', runeToChar_toNat]
            rw [ih t v' (builder ++ [ch]) (pre ++ [ch]) rest F hs (by simp at hF; omega)]
            simp

/-- A string literal that `stringLiteralValue` accepts reads as its value, whatever
follows the closing quote. -/
theorem read1_string_literal (lib : FloatLib) (m : Machine) (body v pre rest : List Char)
    (fuel : Nat) (h : stringLiteralValue body = some v) (hf : body.length + 2 ≤ fuel) :
    read1 lib fuel m (ctxAt pre (Char.ofNat 34 :: body ++ Char.ofNat 34 :: rest)) =
      .ret ((.string_ v, 0, none), m,
        ctxAt (pre ++ Char.ofNat 34 :: body ++ [Char.ofNat 34]) rest) := by
  obtain ⟨fuel, rfl⟩ : ∃ f, fuel = f + 1 := ⟨fuel - 1, by omega⟩
  have hq : ((Char.ofNat 34).toNat : Int) = 34 := rfl
  have hl := readStringLoop_body (body.length + 1) body v [] (pre ++ [Char.ofNat 34]) rest fuel h
    (by omega)
  rw [read1]
  simp only [List.cons_append, read_ctxAt_cons, hq, Run.ret_bind]
  simp only [eofRune, show ¬ ((34 : Int) = -1) by decide, show ¬ ((34 : Int) = 40) by decide,
    show ¬ ((34 : Int) = 91) by decide, show ¬ ((34 : Int) = 41 ∨ (34 : Int) = 93) by decide,
    show ¬ ((34 : Int) = 35) by decide, show ¬ ((34 : Int) = 59) by decide,
    show ¬ ((34 : Int) = 39 ∨ (34 : Int) = 96) by decide, show ¬ ((34 : Int) = 44) by decide,
    show ¬ ((34 : Int) = 63) by decide, if_false, if_true, hl, Run.ret_bind, ne_eq,
    not_true_eq_false, List.nil_append, makeString]
  simp

/-! ## Atoms with escapes -/

theorem atomName_head (c : Char) (t : List Char) (r : GoString × Bool)
    (h : atomName (c :: t) = some r) : ¬ atomEnd (c.toNat : Int) := by
  by_cases h92 : c.toNat = 92
  · unfold atomEnd
    simp only [atomSpecial, nbsp, List.mem_cons, List.mem_singleton, List.not_mem_nil, or_false]
    omega
  · intro he
    rw [atomName.eq_def] at h
    simp [h92, he] at h

/-- The loop of `readAtom`, started on the first rune of an atom text that `atomName`
accepts, builds the name and stops at the rune after the text. -/
theorem readAtomLoop_name (n : Nat) :
    ∀ (c0 : Char) (t0 : List Char) (r : GoString × Bool) (quoted : Bool)
      (builder pre rest : List Char) (F : Nat), t0.length ≤ n →
      atomName (c0 :: t0) = some r → atomEnd (peekRune rest) → t0.length + 1 ≤ F →
      readAtomLoop F (c0.toNat : Int) quoted builder (ctxAt (pre ++ [c0]) (t0 ++ rest)) =
        .ret ((peekRune rest, quoted || r.2, builder ++ r.1, none),
          afterRead (pre ++ c0 :: t0) rest) := by
  induction n with
  | zero =>
    intro c0 t0 r quoted builder pre rest F hn h hend hF
    have ht0 : t0 = [] := List.eq_nil_of_length_eq_zero (by omega)
    subst ht0
    obtain ⟨F, rfl⟩ : ∃ F', F = F' + 1 := ⟨F - 1, by omega⟩
    by_cases h92 : c0.toNat = 92
    · rw [atomName.eq_def] at h
      simp [h92] at h
    · have h92' : ¬ ((c0.toNat : Int) = 92) := by omega
      have hne := atomName_head c0 [] r h
      rw [atomName.eq_def] at h
      simp only [h92, hne, if_false, atomName, Option.map_some', Option.some.injEq] at h
      subst h
      unfold atomEnd at hend
      simp [readAtomLoop, h92', read_ctxAt, runeToChar_toNat, hend]
  | succ n ih =>
    intro c0 t0 r quoted builder pre rest F hn h hend hF
    obtain ⟨F, rfl⟩ : ∃ F', F = F' + 1 := ⟨F - 1, by omega⟩
    -- the rest of the body of the loop once the rune to write is known
    have hnext : ∀ (x : Char) (t1 : List Char) (r1 : GoString × Bool) (q1 : Bool)
        (pre1 : List Char), t1.length ≤ n + 1 → t1.length ≤ F → atomName t1 = some r1 →
        (do
          let (c, ctx) ← (ctxAt pre1 (t1 ++ rest)).read
          if c ≤ 32 ∨ c = nbsp ∨ c ∈ atomSpecial then
            (return ((c, q1, builder ++ [x], none), ctx) :
              Run ((Int × Bool × GoString × error) × readContext))
          else readAtomLoop F c q1 (builder ++ [x]) ctx) =
        .ret ((peekRune rest, q1 || r1.2, builder ++ x :: r1.1, none),
          afterRead (pre1 ++ t1) rest) := by
      intro x t1 r1 q1 pre1 hl1 hl2 h1
      cases t1 with
      | nil =>
        simp only [atomName, Option.some.injEq] at h1
        subst h1
        unfold atomEnd at hend
        simp [read_ctxAt, hend]
      | cons c1 t2 =>
        have hne := atomName_head c1 t2 r1 h1
        unfold atomEnd at hne
        have := ih c1 t2 r1 q1 (builder ++ [x]) pre1 rest F (by simpa using hl1) h1 hend
          (by simpa using hl2)
        simp only [List.cons_append, read_ctxAt_cons, Run.ret_bind, hne, if_false, this]
        simp
    by_cases h92 : c0.toNat = 92
    · have h92' : (c0.toNat : Int) = 92 := by omega
      cases t0 with
      | nil =>
        rw [atomName.eq_def] at h
        simp [h92] at h
      | cons x t1 =>
        rw [atomName.eq_def] at h
        simp only [h92, if_true] at h
        cases h1 : atomName t1 with
        | none => simp [h1] at h
        | some r1 =>
          simp only [h1, Option.map_some', Option.some.injEq] at h
          subst h
          have := hnext x t1 r1 true (pre ++ [c0] ++ [x]) (by simp at hn; omega)
            (by simp at hF; omega) h1
          rw [readAtomLoop]
          simp only [h92', if_true, List.cons_append, read_ctxAt_cons, Run.ret_bind,
            toNat_ne_eof, if_false, Run.pure_eq, ne_eq, not_true_eq_false, runeToChar_toNat]
          simp only [Run.pure_eq] at this
          rw [this]
          simp
    · have h92' : ¬ ((c0.toNat : Int) = 92) := by omega
      have hne := atomName_head c0 t0 r h
      rw [atomName.eq_def] at h
      simp only [h92, hne, if_false] at h
      cases h1 : atomName t0 with
      | none => simp [h1] at h
      | some r1 =>
        simp only [h1, Option.map_some', Option.some.injEq] at h
        subst h
        have := hnext c0 t0 r1 quoted (pre ++ [c0]) hn (by omega) h1
        rw [readAtomLoop]
        simp only [h92', if_false, Run.pure_eq, Run.ret_bind, ne_eq, not_true_eq_false,
          runeToChar_toNat]
        simp only [Run.pure_eq] at this
        rw [this]
        simp

theorem readAtom_escaped (lib : FloatLib) (m : Machine) (c0 : Char) (t0 : List Char)
    (N : GoString) (pre rest : List Char) (fuel : Nat)
    (h : atomName (c0 :: t0) = some (N, true)) (hend : atomEnd (peekRune rest))
    (hf : t0.length + 1 ≤ fuel) :
    readAtom lib fuel m (c0.toNat : Int) (ctxAt (pre ++ [c0]) (t0 ++ rest)) =
      .ret ((.symbol (intern m N).1, none), (intern m N).2, ctxAt (pre ++ c0 :: t0) rest) := by
  have hl := readAtomLoop_name t0.length c0 t0 (N, true) false [] pre rest fuel (le_refl _) h
    hend hf
  unfold readAtom
  rw [hl]
  simp only [Run.ret_bind, ne_eq, not_true_eq_false, if_false, unread_afterRead,
    Bool.or_true, List.nil_append]
  simp

/-- An atom text with an escape in it reads as the interned symbol of its name. -/
theorem read1_escaped (lib : FloatLib) (m : Machine) (c0 : Char) (t0 : List Char)
    (N : GoString) (pre rest : List Char) (fuel : Nat)
    (h : atomName (c0 :: t0) = some (N, true))
    (hs : c0.toNat = 92 ∨ atomStart c0 (peekRune (t0 ++ rest)))
    (hend : atomEnd (peekRune rest)) (hf : t0.length + 2 ≤ fuel) :
    read1 lib fuel m (ctxAt pre (c0 :: t0 ++ rest)) =
      .ret ((.symbol (intern m N).1, 0, none), (intern m N).2,
        ctxAt (pre ++ c0 :: t0) rest) := by
  obtain ⟨fuel, rfl⟩ : ∃ f, fuel = f + 1 := ⟨fuel - 1, by omega⟩
  have hA := readAtom_escaped lib m c0 t0 N pre rest fuel h hend (by omega)
  have hne := atomName_head c0 t0 _ h
  unfold atomEnd at hne
  simp only [atomSpecial, nbsp, List.mem_cons, List.mem_singleton, not_or, List.not_mem_nil,
    not_false_eq_true, and_true] at hne
  obtain ⟨h32, h160, h34, h39, h59, h40, h41, h91, h93, h35, h96, h44⟩ := hne
  have heof := toNat_ne_eof c0
  have h63 : ¬ ((c0.toNat : Int) = 63) := by
    rcases hs with hs | hs
    · omega
    · have := hs.1; omega
  unfold read1
  simp only [List.cons_append, read_ctxAt_cons, Run.ret_bind, heof, if_false, h40, h91, h41, h93,
    h35, h59, h39, h96, h44, h63, h34, or_self, h32, h160, nbsp]
  by_cases h46 : (c0.toNat : Int) = 46
  · have hd : ¬ (peekRune (t0 ++ rest) ≤ 32 ∨ peekRune (t0 ++ rest) ∈ dotSpecial) := by
      rcases hs with hs | hs
      · omega
      · exact hs.2 (by omega)
    simp only [h46, if_true, read_ctxAt, Run.ret_bind, unread_afterRead, hd, if_false]
    rw [← h46, hA]
    simp
  · simp only [h46, if_false, hA, Run.ret_bind, Run.pure_eq]

/-! ## Texts that print back as themselves -/

theorem render_congr (lib : FloatLib) (inp inp' : interpreter) (h : inp.nil_ = inp'.nil_)
    (v : lispObject) :
    render lib inp v = render lib inp' v ∧ renderTail lib inp v = renderTail lib inp' v := by
  induction v with
  | cons a d iha ihd =>
    constructor
    · rw [render, render, iha.1, ihd.2]
    · rw [renderTail, renderTail, iha.1, ihd.2]
  | null =>
    exact ⟨by rw [render_atom _ _ _ (by simp), render_atom _ _ _ (by simp)],
      by rw [renderTail_atom _ _ _ (by simp), renderTail_atom _ _ _ (by simp), h]⟩
  | symbol s =>
    exact ⟨by rw [render_atom _ _ _ (by simp), render_atom _ _ _ (by simp)],
      by rw [renderTail_atom _ _ _ (by simp), renderTail_atom _ _ _ (by simp), h]⟩
  | integer n =>
    exact ⟨by rw [render_atom _ _ _ (by simp), render_atom _ _ _ (by simp)],
      by rw [renderTail_atom _ _ _ (by simp), renderTail_atom _ _ _ (by simp), h]⟩
  | string_ n =>
    exact ⟨by rw [render_atom _ _ _ (by simp), render_atom _ _ _ (by simp)],
      by rw [renderTail_atom _ _ _ (by simp), renderTail_atom _ _ _ (by simp), h]⟩
  | vectorLike n =>
    exact ⟨by rw [render_atom _ _ _ (by simp), render_atom _ _ _ (by simp)],
      by rw [renderTail_atom _ _ _ (by simp), renderTail_atom _ _ _ (by simp), h]⟩
  | float n =>
    exact ⟨by rw [render_atom _ _ _ (by simp), render_atom _ _ _ (by simp)],
      by rw [renderTail_atom _ _ _ (by simp), renderTail_atom _ _ _ (by simp), h]⟩

theorem render_extends (lib : FloatLib) (m m' : Machine) (h : m'.extends m) (v : lispObject) :
    render lib m'.inp v = render lib m.inp v :=
  (render_congr lib m'.inp m.inp h.1 v).1

/-- The object an unescaped atom text reads as, and how it prints. -/
theorem stableAtom_readsBack (lib : FloatLib) (N : List Char) (h : stableAtom lib N) :
    ReadsBack lib N := by
  intro m _ ht
  obtain ⟨hp, hnum⟩ := h
  have hr := Reads_plainAtom lib m N hp
  cases hpi : strconv.ParseInt N with
  | some n =>
    have e : atomValue lib m N = (.integer n, m) := by
      simp [atomValue, stringToNumber, hpi, makeInteger]
    rw [e] at hr
    simp only [hpi] at hnum
    exact ⟨.integer n, m, hr, m.extends_refl, ht, .integer n, by
      rw [render_atom _ _ _ (by simp)]; exact hnum⟩
  | none =>
    cases hpf : lib.ParseFloat N with
    | some f =>
      have e : atomValue lib m N = (.float f, m) := by
        simp [atomValue, stringToNumber, hpi, hpf, makeFloat]
      rw [e] at hr
      simp only [hpi, hpf] at hnum
      exact ⟨.float f, m, hr, m.extends_refl, ht, .float f, by
        rw [render_atom _ _ _ (by simp)]; exact hnum⟩
    | none =>
      have e : atomValue lib m N = (.symbol (intern m N).1, (intern m N).2) := by
        simp [atomValue, stringToNumber, hpi, hpf]
      rw [e] at hr
      exact ⟨_, _, hr, intern_extends m N, intern_tableNamed m N ht, .symbol _, by
        rw [render_atom _ _ _ (by simp)]; exact intern_name m N ht⟩

theorem plainString_readsBack (lib : FloatLib) (v : List Char) (h : plainString v) :
    ReadsBack lib (Char.ofNat 34 :: v ++ [Char.ofNat 34]) := by
  intro m _ ht
  exact ⟨.string_ v, m, Reads_string lib m v h, m.extends_refl, ht, .string_ v, by
    rw [render_atom _ _ _ (by simp)]; rfl⟩

/-- Texts that read back one by one are read one after the other, each object printing as
its text. -/
theorem readsBack_all (lib : FloatLib) (cs : List (List Char)) :
    (∀ c ∈ cs, ReadsBack lib c) → ∀ m : Machine, m.nilInterned → m.tableNamed →
      ∃ vs m', ReadsAll lib m cs vs m' ∧ m'.extends m ∧ m'.tableNamed ∧
        (∀ v ∈ vs, Printable v) ∧ vs.map (render lib m.inp) = cs := by
  induction cs with
  | nil =>
    intro _ m _ ht
    exact ⟨[], m, .nil m, m.extends_refl, ht, fun v hv => (by cases hv), rfl⟩
  | cons c cs ih =>
    intro h m hn ht
    obtain ⟨v, m1, hr, he1, ht1, hp, hrd⟩ := h c (by simp) m hn ht
    obtain ⟨vs, m2, hrs, he2, ht2, hps, hrds⟩ :=
      ih (fun c' hc' => h c' (by simp [hc'])) m1 (nilInterned_of_extends m m1 he1 hn) ht1
    refine ⟨v :: vs, m2, .cons m m1 m2 c v cs vs hr hrs, m2.extends_trans m1 m he2 he1, ht2,
      ?_, ?_⟩
    · intro v' hv'
      rcases List.mem_cons.1 hv' with rfl | hv'
      · exact hp
      · exact hps v' hv'
    · simp only [List.map_cons, hrd, List.cons.injEq, true_and]
      rw [← hrds]
      exact List.map_congr_left (fun v' _ => (render_extends lib m m1 he1 v').symm)

theorem Printable_chain (vs : List lispObject) (d : lispObject)
    (hvs : ∀ v ∈ vs, Printable v) (hd : Printable d) : Printable (makeChain vs d) := by
  induction vs with
  | nil => exact hd
  | cons v vs ih =>
    exact .cons _ _ (hvs v (by simp)) (ih (fun v' hv' => hvs v' (by simp [hv'])))

theorem nil_Printable (m : Machine) (hn : m.nilInterned) : Printable m.inp.nil_ := by
  obtain ⟨s, _, hs, _⟩ := hn
  rw [hs]
  exact .symbol s

theorem nil_not_cons (m : Machine) (hn : m.nilInterned) : ∀ a b, m.inp.nil_ ≠ .cons a b := by
  obtain ⟨s, _, hs, _⟩ := hn
  rw [hs]
  intro a b h
  cases h

/-- The text of the last cdr of a dotted list reads as an object that is no cons cell and
not `nil`, and that prints as the text. -/
theorem CanonEnd_readsBack (lib : FloatLib) (d : List Char) (h : CanonEnd lib d) (m : Machine)
    (hn : m.nilInterned) (ht : m.tableNamed) :
    ∃ v m', Reads lib m d v m' ∧ m'.extends m ∧ m'.tableNamed ∧ Printable v ∧
      render lib m.inp v = d ∧ (∀ a b, v ≠ .cons a b) ∧ v ≠ m.inp.nil_ := by
  obtain ⟨s, hs, hnil, _⟩ := hn
  rcases h with ⟨⟨hp, hnum⟩, hne⟩ | ⟨w, hw, rfl⟩
  · have hr := Reads_plainAtom lib m d hp
    cases hpi : strconv.ParseInt d with
    | some n =>
      have e : atomValue lib m d = (.integer n, m) := by
        simp [atomValue, stringToNumber, hpi, makeInteger]
      rw [e] at hr
      simp only [hpi] at hnum
      refine ⟨.integer n, m, hr, m.extends_refl, ht, .integer n, ?_, ?_, ?_⟩
      · rw [render_atom _ _ _ (by simp)]; exact hnum
      · intro a b hh; cases hh
      · rw [hnil]; intro hh; cases hh
    | none =>
      cases hpf : lib.ParseFloat d with
      | some f =>
        have e : atomValue lib m d = (.float f, m) := by
          simp [atomValue, stringToNumber, hpi, hpf, makeFloat]
        rw [e] at hr
        simp only [hpi, hpf] at hnum
        refine ⟨.float f, m, hr, m.extends_refl, ht, .float f, ?_, ?_, ?_⟩
        · rw [render_atom _ _ _ (by simp)]; exact hnum
        · intro a b hh; cases hh
        · rw [hnil]; intro hh; cases hh
      | none =>
        have e : atomValue lib m d = (.symbol (intern m d).1, (intern m d).2) := by
          simp [atomValue, stringToNumber, hpi, hpf]
        rw [e] at hr
        refine ⟨_, _, hr, intern_extends m d, intern_tableNamed m d ht, .symbol _, ?_, ?_, ?_⟩
        · rw [render_atom _ _ _ (by simp)]; exact intern_name m d ht
        · intro a b hh; cases hh
        · rw [hnil]
          intro hh
          have hname : (intern m d).1 = s := by injection hh
          have := intern_name m d ht
          rw [hname, hs] at this
          exact hne this.symm
  · refine ⟨.string_ w, m, Reads_string lib m w hw, m.extends_refl, ht, .string_ w, ?_, ?_, ?_⟩
    · rw [render_atom _ _ _ (by simp)]; rfl
    · intro a b hh; cases hh
    · rw [hnil]; intro hh; cases hh

/-- A text in the form the printer gives reads as an object that prints as the text. -/
theorem Canon_readsBack (lib : FloatLib) (N : List Char) (h : Canon lib N) : ReadsBack lib N := by
  induction h with
  | atom N hN => exact stableAtom_readsBack lib N hN
  | string_ v hv => exact plainString_readsBack lib v hv
  | list c1 cs _ _ ih1 ihs =>
    intro m hn ht
    obtain ⟨v1, m1, hr1, he1, ht1, hp1, hrd1⟩ := ih1 m hn ht
    have hn1 := nilInterned_of_extends m m1 he1 hn
    obtain ⟨vs, m2, hrs, he2, ht2, hps, hrds⟩ := readsBack_all lib cs ihs m1 hn1 ht1
    have hn2 := nilInterned_of_extends m1 m2 he2 hn1
    have he := m2.extends_trans m1 m he2 he1
    refine ⟨makeChain (v1 :: vs) m2.inp.nil_, m2, Reads_list lib m m1 m2 c1 v1 cs vs hr1 hrs,
      he, ht2, ?_, ?_⟩
    · refine Printable_chain _ _ (fun v hv => ?_) (nil_Printable m2 hn2)
      rcases List.mem_cons.1 hv with rfl | hv
      · exact hp1
      · exact hps v hv
    · have hmap : vs.map (render lib m.inp) = cs := by
        rw [← hrds]
        exact List.map_congr_left (fun v _ => (render_extends lib m m1 he1 v).symm)
      simp only [makeChain, List.foldr_cons, makeCons]
      rw [render, hrd1]
      have := renderTail_chain lib m.inp vs m2.inp.nil_ (nil_not_cons m2 hn2)
      simp only [makeChain, makeCons] at this
      rw [this, hmap, if_pos he.1]
      simp
  | dotted c1 cs d _ _ hd ih1 ihs =>
    intro m hn ht
    obtain ⟨v1, m1, hr1, he1, ht1, hp1, hrd1⟩ := ih1 m hn ht
    have hn1 := nilInterned_of_extends m m1 he1 hn
    obtain ⟨vs, m2, hrs, he2, ht2, hps, hrds⟩ := readsBack_all lib cs ihs m1 hn1 ht1
    have hn2 := nilInterned_of_extends m1 m2 he2 hn1
    have he := m2.extends_trans m1 m he2 he1
    obtain ⟨vd, m3, hrd, he3, ht3, hpd, hrdd, hnc, hnn⟩ := CanonEnd_readsBack lib d hd m2 hn2 ht2
    refine ⟨makeChain (v1 :: vs) vd, m3,
      Reads_dotted lib m m1 m2 m3 c1 v1 cs vs d vd hr1 hrs hrd,
      m3.extends_trans m2 m he3 he, ht3, ?_, ?_⟩
    · refine Printable_chain _ _ (fun v hv => ?_) hpd
      rcases List.mem_cons.1 hv with rfl | hv
      · exact hp1
      · exact hps v hv
    · have hmap : vs.map (render lib m.inp) = cs := by
        rw [← hrds]
        exact List.map_congr_left (fun v _ => (render_extends lib m m1 he1 v).symm)
      have hnn' : ¬ vd = m.inp.nil_ := by rw [← he.1]; exact hnn
      simp only [makeChain, List.foldr_cons, makeCons]
      rw [render, hrd1]
      have := renderTail_chain lib m.inp vs vd hnc
      simp only [makeChain, makeCons] at this
      rw [this, hmap, if_neg hnn', ← render_extends lib m m2 he vd, hrdd]
      simp

/-! ## Literals of the round trip -/

theorem ReadsBefore_of_Reads (lib : FloatLib) (m m' : Machine) (text tl : List Char)
    (v : lispObject) (h : Reads lib m text v m') (hend : atomEnd (peekRune tl)) :
    ReadsBefore lib m text tl v m' :=
  fun pre fuel hf => h pre tl fuel hend hf

theorem ReadsBefore_string (lib : FloatLib) (m : Machine) (body v tl : List Char)
    (h : stringLiteralValue body = some v) :
    ReadsBefore lib m (Char.ofNat 34 :: body ++ [Char.ofNat 34]) tl (.string_ v) m := by
  intro pre fuel hf
  have := read1_string_literal lib m body v pre tl fuel h (by simp at hf; omega)
  simpa using this

theorem Reads_string_literal (lib : FloatLib) (m : Machine) (body v : List Char)
    (h : stringLiteralValue body = some v) :
    Reads lib m (Char.ofNat 34 :: body ++ [Char.ofNat 34]) (.string_ v) m :=
  fun pre rest fuel _ hf => ReadsBefore_string lib m body v rest h pre fuel hf

theorem readCharLiteral_value (t tl pre : List Char) (n : Int)
    (h : charLiteralValue t = some n) (hend : charLiteralEnd t (peekRune tl)) :
    readCharLiteral (ctxAt pre (t ++ tl)) =
      .ret ((.integer n, 0, none), ctxAt (pre ++ t) tl) := by
  cases t with
  | nil => simp [charLiteralValue] at h
  | cons c e =>
    unfold charLiteralValue at h
    by_cases h92 : c.toNat = 92
    · have hc : (c.toNat : Int) = 92 := by omega
      have hce : charEnd (peekRune tl) := by
        rcases hend with hh | hh | hh
        · injection hh with h1 _; rw [h1] at h92; exact absurd h92 (by decide)
        · injection hh with h1 _; rw [h1] at h92; exact absurd h92 (by decide)
        · exact hh
      simp only [h92, if_true] at h
      cases hev : escapeValue false e with
      | none => simp [hev] at h
      | some r =>
        obtain ⟨v, t'⟩ := r
        cases t' with
        | cons x t' => simp [hev] at h
        | nil =>
          simp only [hev, Option.some.injEq] at h
          obtain ⟨used, hu, _, hre⟩ :=
            readEscape_value false e tl v [] hev (charEnd_not_octal _ hce) (pre ++ [c])
          simp only [List.append_nil] at hu
          subst hu
          unfold charEnd at hce
          unfold readCharLiteral
          simp only [List.cons_append, read_ctxAt_cons, hc, Run.ret_bind]
          simp only [eofRune, show ¬ ((92 : Int) = -1) by decide,
            show ¬ ((92 : Int) = 32 ∨ (92 : Int) = 9) by decide, if_false, if_true, hre,
            Run.ret_bind, ne_eq, not_true_eq_false, List.nil_append, read_ctxAt,
            unread_afterRead, hce, makeInteger, Run.pure_eq, h]
          simp
    · have hc : ¬ ((c.toNat : Int) = 92) := by omega
      simp only [h92, if_false] at h
      by_cases he : e = []
      · subst he
        simp only [if_true, Option.some.injEq] at h
        by_cases hb : (c.toNat : Int) = 32 ∨ (c.toNat : Int) = 9
        · have hn : n = (c.toNat : Int) := by
            rcases hb with hb | hb <;> rw [hb] at h ⊢ <;> exact h.symm
          unfold readCharLiteral
          simp only [List.cons_append, List.nil_append, read_ctxAt_cons, Run.ret_bind,
            toNat_ne_eof, hb, if_true, if_false, makeInteger, Run.pure_eq, hn]
        · have hce : charEnd (peekRune tl) := by
            rcases hend with hh | hh | hh
            · injection hh with h1 _; rw [h1] at hb; exact absurd (Or.inl rfl) hb
            · injection hh with h1 _; rw [h1] at hb; exact absurd (Or.inr rfl) hb
            · exact hh
          unfold charEnd at hce
          unfold readCharLiteral
          simp only [List.cons_append, List.nil_append, read_ctxAt_cons, Run.ret_bind]
          simp only [toNat_ne_eof, hb, hc, if_false, Run.pure_eq, Run.ret_bind, ne_eq,
            not_true_eq_false, read_ctxAt, unread_afterRead, hce, if_true, makeInteger, h]
      · simp [he] at h

theorem ReadsBefore_character (lib : FloatLib) (m : Machine) (t tl : List Char) (n : Int)
    (h : charLiteralValue t = some n) (hend : charLiteralEnd t (peekRune tl)) :
    ReadsBefore lib m ('?' :: t) tl (.integer n) m := by
  intro pre fuel hf
  obtain ⟨fuel, rfl⟩ : ∃ f, fuel = f + 1 := ⟨fuel - 1, by omega⟩
  have hq : (('?' : Char).toNat : Int) = 63 := rfl
  have hc := readCharLiteral_value t tl (pre ++ ['?']) n h hend
  rw [read1]
  simp only [List.cons_append, read_ctxAt_cons, hq, Run.ret_bind]
  simp [eofRune, hc]

theorem ReadString_of_ReadsBefore (lib : FloatLib) (m m' : Machine) (t : List Char)
    (v : lispObject) (h : ReadsBefore lib m t [] v m') :
    ReadString lib m t = .ret ((v, none), m') := by
  have h1 := h [] (2 * t.length + 1) (by simp)
  simp only [List.append_nil] at h1
  have := ReadString_of_read1 lib m m' t _ _ h1
  simpa using this

/-- One turn of the list loop: a run of blanks and comments, then an element. -/
theorem readList_item (lib : FloatLib) (m m1 : Machine) (sep e tl : List Char) (v : lispObject)
    (hs : Skipped sep) (hr : ReadsBefore lib m e tl v m1) (pre : List Char)
    (elts : List lispObject) (fuel : Nat)
    (hf : 2 * (sep.length + e.length + tl.length) + 1 ≤ fuel) :
    readList lib (fuel + 1) m (ctxAt pre (sep ++ (e ++ tl))) elts =
      readList lib fuel m1 (ctxAt (pre ++ sep ++ e) tl) (elts ++ [v]) := by
  obtain ⟨fuel', h1, h2⟩ := read1_skipped lib m sep hs pre (e ++ tl) fuel (by omega)
  have h3 := hr (pre ++ sep) fuel' (by omega)
  rw [readList, h2, h3]
  simp

theorem peekRune_append_close (t rest : List Char) :
    peekRune (t ++ ')' :: rest) = peekRune (t ++ [')']) := by
  cases t <;> rfl

/-- An atom of the round trip reads as an object that prints as the text given with it. -/
theorem AtomLit_reads (lib : FloatLib) (e p : List Char) (h : AtomLit lib e p) (m : Machine)
    (ht : m.tableNamed) :
    ∃ v m', Reads lib m e v m' ∧ m'.extends m ∧ m'.tableNamed ∧ Printable v ∧
      render lib m.inp v = p := by
  cases h with
  | integer _ n hn =>
    exact ⟨.integer n, m, Reads_int lib m e n hn, m.extends_refl, ht, .integer n, by
      rw [render_atom _ _ _ (by simp)]; rfl⟩
  | float _ f hp hi hfl =>
    have hr := Reads_plainAtom lib m e hp
    have e1 : atomValue lib m e = (.float f, m) := by
      simp [atomValue, stringToNumber, hi, hfl, makeFloat]
    rw [e1] at hr
    exact ⟨.float f, m, hr, m.extends_refl, ht, .float f, by
      rw [render_atom _ _ _ (by simp)]; rfl⟩
  | symbol _ hp hi hfl =>
    exact ⟨_, _, Reads_symbol lib m e hp hi hfl, intern_extends m e, intern_tableNamed m e ht,
      .symbol _, by rw [render_atom _ _ _ (by simp)]; exact intern_name m e ht⟩
  | escaped c0 t0 _ hN hs =>
    refine ⟨.symbol (intern m p).1, (intern m p).2, ?_, intern_extends m p,
      intern_tableNamed m p ht, .symbol _, by
        rw [render_atom _ _ _ (by simp)]; exact intern_name m p ht⟩
    intro pre rest fuel hend hf
    have hs' : c0.toNat = 92 ∨ atomStart c0 (peekRune (t0 ++ rest)) := by
      rcases hs with hs | hs
      · exact Or.inl hs
      · cases t0 with
        | nil =>
          rw [atomName.eq_def] at hN
          by_cases h92 : c0.toNat = 92
          · exact Or.inl h92
          · by_cases he : atomEnd (c0.toNat : Int)
            · simp [h92, he] at hN
            · simp [h92, he, atomName] at hN
        | cons x t0 => exact Or.inr hs
    have := read1_escaped lib m c0 t0 p pre rest fuel hN hs' hend (by simp at hf; omega)
    simpa using this

/-- The list loop reads the text between the parentheses of a proper list of atoms and the
closing parenthesis, and returns the chain of the objects read. -/
theorem ListBody_reads (lib : FloatLib) (body : List Char) (ps : List (List Char))
    (h : ListBody lib body ps) :
    ∀ (m : Machine), m.tableNamed →
      ∃ vs m', (∀ (elts : List lispObject) (pre rest : List Char) (fuel : Nat),
          2 * (body.length + rest.length) + 4 ≤ fuel →
          readList lib fuel m (ctxAt pre (body ++ ')' :: rest)) elts =
            .ret ((makeChain (elts ++ vs) m'.inp.nil_, none), m',
              ctxAt (pre ++ body ++ [')']) rest)) ∧
        m'.extends m ∧ m'.tableNamed ∧ (∀ v ∈ vs, Printable v) ∧
        vs.map (render lib m.inp) = ps := by
  induction h with
  | close trail hs =>
    intro m ht
    refine ⟨[], m, ?_, m.extends_refl, ht, fun v hv => (by cases hv), rfl⟩
    intro elts pre rest fuel hf
    obtain ⟨fuel, rfl⟩ : ∃ f, fuel = f + 1 := ⟨fuel - 1, by omega⟩
    obtain ⟨fuel', h1, h2⟩ := read1_skipped lib m trail hs pre (')' :: rest) fuel (by omega)
    obtain ⟨fuel', rfl⟩ : ∃ f, fuel' = f + 1 := ⟨fuel' - 1, by omega⟩
    rw [readList, h2, read1_close]
    simp
  | string_ sep sb v rest' ps hs hv _ ih =>
    intro m ht
    obtain ⟨vs, m', hrd, he, ht', hp, hmap⟩ := ih m ht
    refine ⟨.string_ v :: vs, m', ?_, he, ht', ?_, ?_⟩
    · intro elts pre rest fuel hf
      obtain ⟨fuel, rfl⟩ : ∃ f, fuel = f + 1 := ⟨fuel - 1, by omega⟩
      simp only [List.length_append, List.length_cons] at hf
      have hstep := readList_item lib m m sep (Char.ofNat 34 :: sb ++ [Char.ofNat 34])
        (rest' ++ ')' :: rest) (.string_ v) hs (ReadsBefore_string lib m sb v _ hv) pre elts fuel
        (by simp; omega)
      have hrd := hrd (elts ++ [.string_ v])
        (pre ++ sep ++ (Char.ofNat 34 :: sb ++ [Char.ofNat 34])) rest fuel (by omega)
      simp only [List.append_assoc, List.cons_append, List.nil_append, List.singleton_append]
        at hstep hrd ⊢
      rw [hstep, hrd]
    · intro w hw
      rcases List.mem_cons.1 hw with rfl | hw
      · exact .string_ v
      · exact hp w hw
    · simp only [List.map_cons, hmap, List.cons.injEq, and_true]
      rw [render_atom _ _ _ (by simp)]; rfl
  | character sep t rest' n ps hs hv hend _ ih =>
    intro m ht
    obtain ⟨vs, m', hrd, he, ht', hp, hmap⟩ := ih m ht
    refine ⟨.integer n :: vs, m', ?_, he, ht', ?_, ?_⟩
    · intro elts pre rest fuel hf
      obtain ⟨fuel, rfl⟩ : ∃ f, fuel = f + 1 := ⟨fuel - 1, by omega⟩
      simp only [List.length_append, List.length_cons] at hf
      have hstep := readList_item lib m m sep ('?' :: t) (rest' ++ ')' :: rest) (.integer n) hs
        (ReadsBefore_character lib m t _ n hv (by rw [peekRune_append_close]; exact hend))
        pre elts fuel (by simp; omega)
      have hrd := hrd (elts ++ [.integer n]) (pre ++ sep ++ '?' :: t) rest fuel (by omega)
      simp only [List.append_assoc, List.cons_append, List.nil_append, List.singleton_append]
        at hstep hrd ⊢
      rw [hstep, hrd]
    · intro w hw
      rcases List.mem_cons.1 hw with rfl | hw
      · exact .integer n
      · exact hp w hw
    · simp only [List.map_cons, hmap, List.cons.injEq, and_true]
      rw [render_atom _ _ _ (by simp)]; rfl
  | atom sep e p rest' ps hs ha hend _ ih =>
    intro m ht
    obtain ⟨v1, m1, hr1, he1, ht1, hp1, hrd1⟩ := AtomLit_reads lib e p ha m ht
    obtain ⟨vs, m', hrd, he, ht', hp, hmap⟩ := ih m1 ht1
    refine ⟨v1 :: vs, m', ?_, m'.extends_trans m1 m he he1, ht', ?_, ?_⟩
    · intro elts pre rest fuel hf
      obtain ⟨fuel, rfl⟩ : ∃ f, fuel = f + 1 := ⟨fuel - 1, by omega⟩
      simp only [List.length_append] at hf
      have hpos := Reads_length_pos lib m m1 e v1 hr1
      have hstep := readList_item lib m m1 sep e (rest' ++ ')' :: rest) v1 hs
        (ReadsBefore_of_Reads lib m m1 e _ v1 hr1 (by rw [peekRune_append_close]; exact hend))
        pre elts fuel (by simp; omega)
      have hrd := hrd (elts ++ [v1]) (pre ++ sep ++ e) rest fuel (by omega)
      simp only [List.append_assoc, List.cons_append, List.nil_append, List.singleton_append]
        at hstep hrd ⊢
      rw [hstep, hrd]
    · intro w hw
      rcases List.mem_cons.1 hw with rfl | hw
      · exact hp1
      · exact hp w hw
    · simp only [List.map_cons, hrd1, List.cons.injEq, true_and]
      rw [← hmap]
      exact List.map_congr_left (fun w _ => (render_extends lib m m1 he1 w).symm)

theorem render_printedList (lib : FloatLib) (m m' : Machine) (hn : m.nilInterned)
    (he : m'.extends m) (vs : List lispObject) :
    render lib m.inp (makeChain vs m'.inp.nil_) = printedList (vs.map (render lib m.inp)) := by
  have hn0 := hn
  obtain ⟨s, hs, hnil, _⟩ := hn
  cases vs with
  | nil =>
    simp only [makeChain, List.foldr_nil, List.map_nil, printedList]
    rw [he.1, hnil, render_atom _ _ _ (by simp)]
    exact hs
  | cons v vs =>
    simp only [makeChain, List.foldr_cons, makeCons, List.map_cons, printedList]
    rw [render]
    have := renderTail_chain lib m.inp vs m'.inp.nil_
      (by rw [he.1]; exact nil_not_cons m hn0)
    simp only [makeChain, makeCons] at this
    rw [this, if_pos he.1]
    simp

/-- A literal of the round trip, the input ending after it, reads as an object that prints
as the text given with it. -/
theorem Literal_reads (lib : FloatLib) (t s : List Char) (h : Literal lib t s) (m : Machine)
    (hn : m.nilInterned) (ht : m.tableNamed) :
    ∃ v m', ReadsBefore lib m t [] v m' ∧ m'.extends m ∧ m'.tableNamed ∧ Printable v ∧
      render lib m.inp v = s := by
  cases h with
  | string_ body v hv =>
    exact ⟨.string_ v, m, ReadsBefore_string lib m body v [] hv, m.extends_refl, ht, .string_ v,
      by rw [render_atom _ _ _ (by simp)]; rfl⟩
  | character t n hv =>
    exact ⟨.integer n, m,
      ReadsBefore_character lib m t [] n hv (Or.inr (Or.inr (Or.inl (by decide)))),
      m.extends_refl, ht, .integer n, by rw [render_atom _ _ _ (by simp)]; rfl⟩
  | atom _ _ ha =>
    obtain ⟨v, m', hr, he, ht', hp, hrd⟩ := AtomLit_reads lib t s ha m ht
    exact ⟨v, m', ReadsBefore_of_Reads lib m m' t [] v hr atomEnd_eof, he, ht', hp, hrd⟩
  | list body ps hb =>
    obtain ⟨vs, m', hrd, he, ht', hp, hmap⟩ := ListBody_reads lib body ps hb m ht
    have hn' := nilInterned_of_extends m m' he hn
    refine ⟨makeChain vs m'.inp.nil_, m', ?_, he, ht',
      Printable_chain vs _ hp (nil_Printable m' hn'), ?_⟩
    · intro pre fuel hf
      simp only [List.length_cons, List.length_append, List.length_singleton, List.length_nil]
        at hf
      obtain ⟨fuel, rfl⟩ : ∃ f, fuel = f + 1 := ⟨fuel - 1, by omega⟩
      have hrd := hrd [] (pre ++ ['(']) [] fuel (by simp; omega)
      simp only [List.append_assoc, List.cons_append, List.nil_append, List.singleton_append]
        at hrd ⊢
      rw [read1_open, hrd]
      simp [Run.bind]
    · rw [render_printedList lib m m' hn he vs, hmap]

/-! ## The round trip of literals -/

theorem ParseInt_range (t : List Char) (n : Int) (h : strconv.ParseInt t = some n) :
    -2 ^ 63 ≤ n ∧ n < 2 ^ 63 := by
  unfold strconv.ParseInt at h
  cases t with
  | nil => simp at h
  | cons c0 body =>
    simp only at h
    cases hp : strconv.ParseUint (if c0.toNat = 43 ∨ c0.toNat = 45 then body else c0 :: body) with
    | none => simp [hp] at h
    | some un =>
      simp only [hp] at h
      by_cases hneg : c0.toNat = 45
      · simp only [hneg, decide_True, not_true_eq_false, false_and, if_false, true_and] at h
        by_cases hbig : 2 ^ 63 < un
        · simp [hbig] at h
          omega
        · simp only [hbig, if_false, if_true, Option.some.injEq] at h
          omega
      · simp only [hneg, decide_False, Bool.false_eq_true, not_false_eq_true, true_and,
          false_and, if_false] at h
        by_cases hbig : 2 ^ 63 ≤ un
        · simp [hbig] at h
          omega
        · simp only [hbig, if_false, Option.some.injEq] at h
          omega

/-- The text printed for an integer that `strconv.ParseInt` gives is in the form the printer
gives. -/
theorem Canon_integer (lib : FloatLib) (t : List Char) (n : Int)
    (h : strconv.ParseInt t = some n) : Canon lib (formatInt n) := by
  obtain ⟨hlo, hhi⟩ := ParseInt_range t n h
  have hp := ParseInt_formatInt n hlo hhi
  refine .atom _ ⟨ParseInt_plainAtom _ n hp, ?_⟩
  simp only [hp]

/-- An unescaped atom text that is no number is in the form the printer gives. -/
theorem Canon_symbol (lib : FloatLib) (t : List Char) (hp : plainAtom t)
    (hi : strconv.ParseInt t = none) (hfl : lib.ParseFloat t = none) : Canon lib t := by
  refine .atom _ ⟨hp, ?_⟩
  simp only [hi, hfl]

theorem Canon_nil (lib : FloatLib) : Canon lib ['n', 'i', 'l'] := by
  refine Canon_symbol lib _ (by decide) (by decide) ?_
  cases h : lib.ParseFloat ['n', 'i', 'l'] with
  | none => rfl
  | some f =>
    rcases lib.numeral _ f h with h1 | h1
    · exact absurd h1 (by decide)
    · exact absurd h1 (by decide)

/-- The text printed for a proper list is in the form the printer gives when the texts
printed for its elements are. -/
theorem Canon_printedList (lib : FloatLib) (ps : List (List Char))
    (h : ∀ p ∈ ps, Canon lib p) : Canon lib (printedList ps) := by
  cases ps with
  | nil => exact Canon_nil lib
  | cons p ps =>
    exact .list p ps (h p (by simp)) (fun c hc => h c (by simp [hc]))

/-- C2 (amended): a literal text that is an integer (a number, or a character literal), a
string literal whose escapes `readEscape` decodes, a symbol, escaped or not, or a proper
list of such atoms with blanks and comments between them is read, and the object read
prints as the text `s` given with the literal; when `s` is in the form the printer gives
(unescaped atoms that are no numbers in another form, strings without a double quote and
without a backslash, single spaces between the elements of a list), `s` is a fixed point:
it is read, and the object read prints as `s`. -/
theorem literal_roundtrip (lib : FloatLib) (m : Machine) (hn : m.nilInterned)
    (ht : m.tableNamed) (t s : List Char) (h : Literal lib t s) :
    ∃ v m1, ReadString lib m t = .ret ((v, none), m1) ∧
      Print lib m1.inp v = .ret (s, none) ∧
      (Canon lib s → ∃ v' m2, ReadString lib m1 s = .ret ((v', none), m2) ∧
        Print lib m2.inp v' = .ret (s, none)) := by
  obtain ⟨v, m1, hr, he, ht1, hp, hrd⟩ := Literal_reads lib t s h m hn ht
  have hn1 := nilInterned_of_extends m m1 he hn
  refine ⟨v, m1, ReadString_of_ReadsBefore lib m m1 t v hr, ?_, fun hc => ?_⟩
  · rw [Print_render lib m1.inp v hp, render_extends lib m m1 he v, hrd]
  · obtain ⟨v', m2, hr', he', _, hp', hrd'⟩ := Canon_readsBack lib s hc m1 hn1 ht1
    refine ⟨v', m2, ReadString_of_Reads lib m1 m2 s v' hr', ?_⟩
    rw [Print_render lib m2.inp v' hp', render_extends lib m1 m2 he' v', hrd']

theorem literal_roundtrip_witness :
    freshMachine.nilInterned ∧ freshMachine.tableNamed ∧
    Literal noFloats "(fo\\o \"a\\nb\" ;c\n-12\"\\101\"?a ? b)".toList
      "(foo \"a\nb\" -12 \"A\" 97 32 b)".toList ∧
    Canon noFloats "(foo \"a\nb\" -12 \"A\" 97 32 b)".toList ∧
    ∃ v m1, ReadString noFloats freshMachine
        "(fo\\o \"a\\nb\" ;c\n-12\"\\101\"?a ? b)".toList = .ret ((v, none), m1) ∧
      Print noFloats m1.inp v = .ret ("(foo \"a\nb\" -12 \"A\" 97 32 b)".toList, none) ∧
      ∃ v' m2, ReadString noFloats m1 "(foo \"a\nb\" -12 \"A\" 97 32 b)".toList =
          .ret ((v', none), m2) ∧
        Print noFloats m2.inp v' = .ret ("(foo \"a\nb\" -12 \"A\" 97 32 b)".toList, none) := by
  have h7 : ListBody noFloats [] [] := .close [] .nil
  have h6 : ListBody noFloats "b".toList ["b".toList] :=
    .atom [] "b".toList "b".toList [] [] .nil (.symbol _ (by decide) (by decide) rfl)
      (by decide) h7
  have h5 : ListBody noFloats " ? b".toList ["32".toList, "b".toList] :=
    .character [' '] [' '] "b".toList 32 _ (.blank ' ' [] (by decide) .nil) (by decide)
      (Or.inl rfl) h6
  have h4 : ListBody noFloats "?a ? b".toList ["97".toList, "32".toList, "b".toList] :=
    .character [] ['a'] " ? b".toList 97 _ .nil (by decide) (Or.inr (Or.inr (by decide))) h5
  have h3 : ListBody noFloats "\"\\101\"?a ? b".toList
      ["\"A\"".toList, "97".toList, "32".toList, "b".toList] :=
    .string_ [] "\\101".toList "A".toList "?a ? b".toList _ .nil (by decide) h4
  have ha : AtomLit noFloats "-12".toList "-12".toList := by
    have h := @AtomLit.integer noFloats "-12".toList (-12) (by decide)
    rwa [show formatInt (-12) = "-12".toList by decide] at h
  have h2 : ListBody noFloats " ;c\n-12\"\\101\"?a ? b".toList
      ["-12".toList, "\"A\"".toList, "97".toList, "32".toList, "b".toList] :=
    .atom " ;c\n".toList "-12".toList "-12".toList "\"\\101\"?a ? b".toList _
      (.blank ' ' _ (by decide) (.comment ['c'] [] (by decide) .nil))
      ha (by decide) h3
  have h1 : ListBody noFloats " \"a\\nb\" ;c\n-12\"\\101\"?a ? b".toList
      ["\"a\nb\"".toList, "-12".toList, "\"A\"".toList, "97".toList, "32".toList,
        "b".toList] :=
    .string_ [' '] "a\\nb".toList "a\nb".toList " ;c\n-12\"\\101\"?a ? b".toList _
      (.blank ' ' [] (by decide) .nil) (by decide) h2
  have h0 : ListBody noFloats "fo\\o \"a\\nb\" ;c\n-12\"\\101\"?a ? b".toList
      ["foo".toList, "\"a\nb\"".toList, "-12".toList, "\"A\"".toList, "97".toList,
        "32".toList, "b".toList] :=
    .atom [] "fo\\o".toList "foo".toList " \"a\\nb\" ;c\n-12\"\\101\"?a ? b".toList _ .nil
      (.escaped 'f' "o\\o".toList "foo".toList (by decide) (Or.inr (by decide))) (by decide) h1
  have hl : Literal noFloats "(fo\\o \"a\\nb\" ;c\n-12\"\\101\"?a ? b)".toList
      "(foo \"a\nb\" -12 \"A\" 97 32 b)".toList := .list _ _ h0
  have hc : Canon noFloats "(foo \"a\nb\" -12 \"A\" 97 32 b)".toList := by
    refine .list "foo".toList ["\"a\nb\"".toList, "-12".toList, "\"A\"".toList, "97".toList,
      "32".toList, "b".toList] (.atom _ (by decide)) (fun c hc => ?_)
    simp only [List.mem_cons, List.mem_singleton, List.not_mem_nil, or_false] at hc
    rcases hc with rfl | rfl | rfl | rfl | rfl | rfl
    · exact .string_ "a\nb".toList (by decide)
    · exact .atom _ (by decide)
    · exact .string_ "A".toList (by decide)
    · exact .atom _ (by decide)
    · exact .atom _ (by decide)
    · exact .atom _ (by decide)
  obtain ⟨v, m1, hr, hp, hfix⟩ :=
    literal_roundtrip noFloats freshMachine freshMachine_nilInterned freshMachine_tableNamed
      _ _ hl
  exact ⟨freshMachine_nilInterned, freshMachine_tableNamed, hl, hc, v, m1, hr, hp, hfix hc⟩

/-- C2 as stated fails on string literals without an embedded double quote and on symbols.
The string literal of one escaped backslash reads as the string of one backslash, which
prints as a double quote, a backslash and a double quote, and that text does not read: the
backslash escapes the closing quote and the input ends inside the string. The string
literal of the octal escape 42 reads as the string of one double quote, which prints as
three double quotes; that text reads as the empty string, which prints as two. The string
literal of the escape `x41` is not read at all: `readEscape` rejects the escape. The symbol
written as `a`, an escaped space and `b` prints as `a b`, which reads as the symbol `a`.
The atom `a` with a backslash at its end is not read at all. -/
theorem literal_roundtrip_counterexample :
    ((∀ ch ∈ [Char.ofNat 92, Char.ofNat 92], ch.toNat ≠ 34) ∧
      ReadString noFloats freshMachine
          [Char.ofNat 34, Char.ofNat 92, Char.ofNat 92, Char.ofNat 34] =
        .ret ((.string_ [Char.ofNat 92], none), freshMachine) ∧
      Print noFloats freshMachine.inp (.string_ [Char.ofNat 92]) =
        .ret ([Char.ofNat 34, Char.ofNat 92, Char.ofNat 34], none) ∧
      ReadString noFloats freshMachine [Char.ofNat 34, Char.ofNat 92, Char.ofNat 34] =
        .ret ((.null, some "eof reading string"), freshMachine)) ∧
    ((∀ ch ∈ [Char.ofNat 92, '4', '2'], ch.toNat ≠ 34) ∧
      ReadString noFloats freshMachine [Char.ofNat 34, Char.ofNat 92, '4', '2', Char.ofNat 34] =
        .ret ((.string_ [Char.ofNat 34], none), freshMachine) ∧
      Print noFloats freshMachine.inp (.string_ [Char.ofNat 34]) =
        .ret ([Char.ofNat 34, Char.ofNat 34, Char.ofNat 34], none) ∧
      ReadString noFloats freshMachine [Char.ofNat 34, Char.ofNat 34, Char.ofNat 34] =
        .ret ((.string_ [], none), freshMachine) ∧
      Print noFloats freshMachine.inp (.string_ []) =
        .ret ([Char.ofNat 34, Char.ofNat 34], none)) ∧
    ((∀ ch ∈ [Char.ofNat 92, 'x', '4', '1'], ch.toNat ≠ 34) ∧
      ReadString noFloats freshMachine
          [Char.ofNat 34, Char.ofNat 92, 'x', '4', '1', Char.ofNat 34] =
        .ret ((.null, some "unimplemented escape code: 'x"), freshMachine)) ∧
    (ReadString noFloats freshMachine ['a', Char.ofNat 92, ' ', 'b'] =
        .ret ((.symbol (intern freshMachine ['a', ' ', 'b']).1, none),
          (intern freshMachine ['a', ' ', 'b']).2) ∧
      Print noFloats (intern freshMachine ['a', ' ', 'b']).2.inp
          (.symbol (intern freshMachine ['a', ' ', 'b']).1) = .ret (['a', ' ', 'b'], none) ∧
      ReadString noFloats (intern freshMachine ['a', ' ', 'b']).2 ['a', ' ', 'b'] =
        .ret ((.symbol (intern (intern freshMachine ['a', ' ', 'b']).2 ['a']).1, none),
          (intern (intern freshMachine ['a', ' ', 'b']).2 ['a']).2) ∧
      Print noFloats (intern (intern freshMachine ['a', ' ', 'b']).2 ['a']).2.inp
          (.symbol (intern (intern freshMachine ['a', ' ', 'b']).2 ['a']).1) =
        .ret (['a'], none)) ∧
    ReadString noFloats freshMachine ['a', Char.ofNat 92] =
      .ret ((.null, some "eof reading atom"), freshMachine) := by
  refine ⟨⟨by decide, by decide, by decide, by decide⟩,
    ⟨by decide, by decide, by decide, by decide, by decide⟩, ⟨by decide, by decide⟩,
    ⟨by decide, by decide, by decide, by decide⟩, by decide⟩

end Pimacs
